import Mathlib

/-!
Verification development for the UniBase storage-engine core: a shallow
embedding of the slotted-page record manager (`src/record/rm_file_handle.cpp`,
`src/record/rm_scan.cpp`), the lock manager
(`src/transaction/concurrency/lock_manager.cpp`) and the transaction manager
(`src/transaction/transaction_manager.cpp`), together with proofs about the
free-list and bitmap invariants, the CRUD contract, the scan iterator, the
two-phase-locking discipline and abort/undo.

Machine integers (`int`) are modelled as `Int`; byte buffers as `List Nat`;
C++ exceptions as `Except`; the buffer pool's pages as the `pages` list of an
`RmFile` (pin/unpin bookkeeping has no observable effect on the values the
claims are about and is not modelled).
-/

set_option maxHeartbeats 1000000

/-- Sentinel page number `RM_NO_PAGE = -1` (free-list terminator, scan end). -/
abbrev RM_NO_PAGE : Int := -1

/-- `RM_FIRST_RECORD_PAGE = 1`: page 0 of a heap file is the file header. -/
abbrev RM_FIRST_RECORD_PAGE : Int := 1

/-- Record identifier: a `(page_no, slot_no)` pair of 32-bit ints. -/
structure Rid where
  page_no : Int
  slot_no : Int
deriving DecidableEq, Repr

/-- The typed errors thrown by the record manager (file name arguments of
`PageNotExistError` are diagnostics supplied by the disk manager and are
not modelled). -/
inductive RmError where
  | PageNotExist (page_no : Int)
  | RecordNotFound (page_no slot_no : Int)
  | Internal
deriving DecidableEq, Repr

namespace Bitmap

/-- Modelled from the spec: the `Bitmap` helper class is not among the given
sources; per §3 of the design, bit `i` of a page's bitmap is set iff slot `i`
holds a live record.  A bitmap is a list of booleans; reading a bit outside
the list (or at a negative index) yields `false`. -/
def is_set (bm : List Bool) (i : Int) : Bool :=
  if i < 0 then false else bm.getD i.toNat false

/-- Modelled from the spec: set bit `i`. -/
def set (bm : List Bool) (i : Int) : List Bool :=
  if i < 0 then bm else bm.set i.toNat true

/-- Modelled from the spec: clear bit `i`. -/
def reset (bm : List Bool) (i : Int) : List Bool :=
  if i < 0 then bm else bm.set i.toNat false

/-- Modelled from the spec: `Bitmap::init` zeroes the bitmap region, i.e.
all `n` bits are clear. -/
def init (n : Nat) : List Bool :=
  List.replicate n false

/-- Structural worker for `scan_from`: the fuel argument only bounds the
recursion depth (it is instantiated with `n - i`, which dominates the number
of iterations of the C++ `for` loop). -/
def scan_go (b : Bool) (bm : List Bool) (n : Nat) : Nat → Nat → Int
  | 0, _ => (n : Int)
  | fuel + 1, i =>
    if i < n then
      (if bm.getD i false = b then (i : Int) else scan_go b bm n fuel (i + 1))
    else (n : Int)

/-- Search upward from index `i` for the first bit equal to `b` below `n`;
returns `n` when there is none. -/
def scan_from (b : Bool) (bm : List Bool) (n : Nat) (i : Nat) : Int :=
  scan_go b bm n (n - i) i

/-- Modelled from the spec (§4.4): `Bitmap::next_bit(b, bm, n, curr)` returns
the first position strictly greater than `curr` and below `n` whose bit equals
`b`, or `n` when there is none; `curr = -1` means the search starts at bit 0. -/
def next_bit (b : Bool) (bm : List Bool) (n : Nat) (curr : Int) : Int :=
  scan_from b bm n (curr + 1).toNat

/-- Modelled from the spec: `Bitmap::first_bit(b, bm, n)` is the first
position below `n` whose bit equals `b`, or `n` when there is none. -/
def first_bit (b : Bool) (bm : List Bool) (n : Nat) : Int :=
  next_bit b bm n (-1)

/-- Population count of a bitmap: the number of set bits. -/
def popcount (bm : List Bool) : Nat :=
  bm.count true

end Bitmap

/-- The page header of a data page: `{ num_records, next_free_page_no }`. -/
structure RmPageHdr where
  num_records : Int
  next_free_page_no : Int
deriving DecidableEq, Repr

/-- A data page: page header, slot bitmap, and slot array.  Slot `i` of the
slot array is a byte list (`num_records_per_page` slots of `record_size`
bytes each on a well-formed page). -/
structure PageData where
  page_hdr : RmPageHdr
  bitmap : List Bool
  slots : List (List Nat)
deriving DecidableEq, Repr

/-- The file header persisted at page 0 (the `bitmap_size` byte count is
subsumed by modelling bitmaps at bit granularity). -/
structure RmFileHdr where
  record_size : Nat
  num_pages : Int
  num_records_per_page : Nat
  first_free_page_no : Int
deriving DecidableEq, Repr

/-- A record file: header plus data pages.  Index `i` of `pages` holds the
page with page number `i + 1` (page 0 is the on-disk file header and carries
no slots). -/
structure RmFile where
  file_hdr : RmFileHdr
  pages : List PageData
deriving DecidableEq, Repr

deriving instance DecidableEq for Except

namespace RmFile

/-- Look a data page up by page number (the buffer pool's
`fetch_page`: `none` is a null return). -/
def getPage (f : RmFile) (page_no : Int) : Option PageData :=
  if page_no < RM_FIRST_RECORD_PAGE then none else f.pages[(page_no - 1).toNat]?

/-- Overwrite a data page in place. -/
def setPage (f : RmFile) (page_no : Int) (pg : PageData) : RmFile :=
  { f with pages := f.pages.set (page_no - 1).toNat pg }

/-- The `next_free_page_no` field of page `page_no` (sentinel when the page
does not exist). -/
def nextFree (f : RmFile) (page_no : Int) : Int :=
  ((f.getPage page_no).map (·.page_hdr.next_free_page_no)).getD RM_NO_PAGE

/-- The `num_records` field of page `page_no` (0 when the page does not
exist). -/
def numRec (f : RmFile) (page_no : Int) : Int :=
  ((f.getPage page_no).map (·.page_hdr.num_records)).getD 0

/-- `RmFileHandle::fetch_page_handle`: bounds check against
`[RM_FIRST_RECORD_PAGE, num_pages)`, then fetch from the buffer pool;
a null page is also `PageNotExistError`. -/
def fetch_page_handle (f : RmFile) (page_no : Int) : Except RmError PageData :=
  if page_no < RM_FIRST_RECORD_PAGE ∨ f.file_hdr.num_pages ≤ page_no then
    .error (.PageNotExist page_no)
  else
    match f.getPage page_no with
    | none => .error (.PageNotExist page_no)
    | some pg => .ok pg

/-- `RmFileHandle::get_record`: fetch the page, fail `RecordNotFound` when the
bitmap bit is clear, otherwise copy the slot's `record_size` bytes out. -/
def get_record (f : RmFile) (rid : Rid) : Except RmError (List Nat) :=
  match f.fetch_page_handle rid.page_no with
  | .error e => .error e
  | .ok pg =>
    if Bitmap.is_set pg.bitmap rid.slot_no then
      .ok ((pg.slots.getD rid.slot_no.toNat []).take f.file_hdr.record_size)
    else
      .error (.RecordNotFound rid.page_no rid.slot_no)

/-- `memcpy(page_handle.get_slot(slot_no), buf, record_size)`: overwrite the
`record_size` bytes of slot `slot_no` with the start of `buf`. -/
def writeSlot (pg : PageData) (slot_no : Int) (rs : Nat) (buf : List Nat) : PageData :=
  if slot_no < 0 then pg
  else { pg with slots := pg.slots.set slot_no.toNat (buf.take rs) }

/-- `RmFileHandle::update_record`: fetch, fail `RecordNotFound` on a clear
bit, otherwise overwrite the slot bytes (bitmap, counts and free list are
untouched). -/
def update_record (f : RmFile) (rid : Rid) (buf : List Nat) : Except RmError RmFile :=
  match f.fetch_page_handle rid.page_no with
  | .error e => .error e
  | .ok pg =>
    if Bitmap.is_set pg.bitmap rid.slot_no then
      .ok (f.setPage rid.page_no (writeSlot pg rid.slot_no f.file_hdr.record_size buf))
    else
      .error (.RecordNotFound rid.page_no rid.slot_no)

/-- `RmFileHandle::release_page_handle`: prepend page `page_no` to the free
list (`page.next_free_page_no ← first_free_page_no; first_free_page_no ←
page_no`). -/
def release_page_handle (f : RmFile) (page_no : Int) : RmFile :=
  match f.getPage page_no with
  | none => f
  | some pg =>
    let f1 := f.setPage page_no
      { pg with page_hdr := { pg.page_hdr with
          next_free_page_no := f.file_hdr.first_free_page_no } }
    { f1 with file_hdr := { f1.file_hdr with first_free_page_no := page_no } }

/-- `RmFileHandle::delete_record`: fetch, fail `RecordNotFound` on a clear
bit; remember whether the page was full, clear the bit and decrement
`num_records`; a previously full page re-enters the free list at its head. -/
def delete_record (f : RmFile) (rid : Rid) : Except RmError RmFile :=
  match f.fetch_page_handle rid.page_no with
  | .error e => .error e
  | .ok pg =>
    if Bitmap.is_set pg.bitmap rid.slot_no then
      let was_full := pg.page_hdr.num_records = (f.file_hdr.num_records_per_page : Int)
      let pg1 : PageData :=
        { pg with bitmap := Bitmap.reset pg.bitmap rid.slot_no,
                  page_hdr := { pg.page_hdr with
                    num_records := pg.page_hdr.num_records - 1 } }
      let f1 := f.setPage rid.page_no pg1
      .ok (if was_full then f1.release_page_handle rid.page_no else f1)
    else
      .error (.RecordNotFound rid.page_no rid.slot_no)

/-- `RmFileHandle::create_new_page_handle`.  Modelled from the spec for the
external buffer pool (§4.3, §8): `new_page` allocates the next page number of
the file — equal to the current `num_pages` since page 0 is the header — and
zero-initialises the page.  The new page's header is set to
`{num_records = 0, next_free_page_no = first_free_page_no}`, the bitmap is
cleared, then `first_free_page_no` is pointed at the new page and `num_pages`
is incremented. -/
def create_new_page_handle (f : RmFile) : RmFile × Int :=
  let pno : Int := f.file_hdr.num_pages
  let n := f.file_hdr.num_records_per_page
  let pg : PageData :=
    { page_hdr := { num_records := 0,
                    next_free_page_no := f.file_hdr.first_free_page_no },
      bitmap := Bitmap.init n,
      slots := List.replicate n (List.replicate f.file_hdr.record_size 0) }
  ({ file_hdr := { f.file_hdr with
        first_free_page_no := pno,
        num_pages := f.file_hdr.num_pages + 1 },
     pages := f.pages ++ [pg] }, pno)

/-- `RmFileHandle::create_page_handle`: when the free list is empty create a
new page (then re-fetch it, as the source does), otherwise fetch the head of
the free list.  Returns the page number of a page with spare capacity. -/
def create_page_handle (f : RmFile) : Except RmError (RmFile × Int) :=
  if f.file_hdr.first_free_page_no = RM_NO_PAGE then
    let fp := f.create_new_page_handle
    match fp.1.fetch_page_handle fp.2 with
    | .error e => .error e
    | .ok _ => .ok fp
  else
    match f.fetch_page_handle f.file_hdr.first_free_page_no with
    | .error e => .error e
    | .ok _ => .ok (f, f.file_hdr.first_free_page_no)

/-- `RmFileHandle::insert_record(buf)` (engine-chosen location): obtain a page
with spare capacity, find the first clear bit (`InternalError` when there is
none), copy the buffer into that slot, set the bit, bump `num_records`, and
when the page just became full splice it off the head of the free list. -/
def insert_record (f : RmFile) (buf : List Nat) : Except RmError (RmFile × Rid) :=
  match f.create_page_handle with
  | .error e => .error e
  | .ok (f1, pno) =>
    match f1.fetch_page_handle pno with
    | .error e => .error e
    | .ok pg =>
      let n := f1.file_hdr.num_records_per_page
      let slot_no := Bitmap.first_bit false pg.bitmap n
      if (n : Int) ≤ slot_no then .error .Internal
      else
        let pg1 : PageData :=
          { writeSlot pg slot_no f1.file_hdr.record_size buf with
              bitmap := Bitmap.set pg.bitmap slot_no,
              page_hdr := { pg.page_hdr with
                num_records := pg.page_hdr.num_records + 1 } }
        let f2 := f1.setPage pno pg1
        if pg1.page_hdr.num_records = (n : Int) then
          let f3 : RmFile :=
            { f2 with file_hdr := { f2.file_hdr with
                first_free_page_no := pg1.page_hdr.next_free_page_no } }
          .ok (f3.setPage pno
                { pg1 with page_hdr := { pg1.page_hdr with
                    next_free_page_no := RM_NO_PAGE } },
               ⟨pno, slot_no⟩)
        else
          .ok (f2, ⟨pno, slot_no⟩)

/-- The free-list traversal of the explicit-Rid `insert_record`: walk the
list from `prev`, and at the predecessor of `target` redirect its
`next_free_page_no` to `target`'s current `next_free_page_no`.  The fuel
argument bounds the walk; callers pass more fuel than any duplicate-free
list can consume, so exhaustion only occurs on states where the C++ loop
would not terminate. -/
def unlink_from (f : RmFile) (target : Int) : Nat → Int → Except RmError RmFile
  | 0, _ => .ok f
  | fuel + 1, prev =>
    if prev = RM_NO_PAGE then .ok f
    else
      match f.fetch_page_handle prev with
      | .error e => .error e
      | .ok ph =>
        if ph.page_hdr.next_free_page_no = target then
          .ok (f.setPage prev
            { ph with page_hdr := { ph.page_hdr with
                next_free_page_no := f.nextFree target } })
        else
          f.unlink_from target fuel ph.page_hdr.next_free_page_no

/-- `RmFileHandle::insert_record(rid, buf)` (explicit location, used by
abort): fetch, fail `RecordNotFound` when the slot is already occupied,
write the slot, set the bit, bump `num_records`; when the page just became
full remove it from wherever it sits on the free list (special-casing the
head) and clear its `next_free_page_no`. -/
def insert_record_rid (f : RmFile) (rid : Rid) (buf : List Nat) : Except RmError RmFile :=
  match f.fetch_page_handle rid.page_no with
  | .error e => .error e
  | .ok pg =>
    if Bitmap.is_set pg.bitmap rid.slot_no then
      .error (.RecordNotFound rid.page_no rid.slot_no)
    else
      let n := f.file_hdr.num_records_per_page
      let pg1 : PageData :=
        { writeSlot pg rid.slot_no f.file_hdr.record_size buf with
            bitmap := Bitmap.set pg.bitmap rid.slot_no,
            page_hdr := { pg.page_hdr with
              num_records := pg.page_hdr.num_records + 1 } }
      let f1 := f.setPage rid.page_no pg1
      if pg1.page_hdr.num_records = (n : Int) then
        let step : Except RmError RmFile :=
          if f1.file_hdr.first_free_page_no = rid.page_no then
            .ok { f1 with file_hdr := { f1.file_hdr with
                    first_free_page_no := pg1.page_hdr.next_free_page_no } }
          else
            f1.unlink_from rid.page_no (f1.pages.length + 1)
              f1.file_hdr.first_free_page_no
        match step with
        | .error e => .error e
        | .ok f2 =>
          match f2.getPage rid.page_no with
          | none => .ok f2
          | some pgt =>
            .ok (f2.setPage rid.page_no
              { pgt with page_hdr := { pgt.page_hdr with
                  next_free_page_no := RM_NO_PAGE } })
      else
        .ok f1

end RmFile

namespace RmScan

/-- The page loop of `RmScan::next`: try pages `page_no, page_no+1, …` up to
`num_pages - 1`; on the start page search bits strictly after `start_slot`,
on later pages from bit 0.  Ends in the `(RM_NO_PAGE, RM_NO_PAGE)` state when
no further set bit exists.  Fuel counts the remaining loop iterations. -/
def loop (f : RmFile) (start_page start_slot : Int) : Nat → Int → Except RmError Rid
  | 0, _ => .ok ⟨RM_NO_PAGE, RM_NO_PAGE⟩
  | fuel + 1, page_no =>
    if f.file_hdr.num_pages ≤ page_no then .ok ⟨RM_NO_PAGE, RM_NO_PAGE⟩
    else
      match f.fetch_page_handle page_no with
      | .error e => .error e
      | .ok pg =>
        let begin_slot := if page_no = start_page then start_slot else -1
        let slot_no :=
          Bitmap.next_bit true pg.bitmap f.file_hdr.num_records_per_page begin_slot
        if slot_no < (f.file_hdr.num_records_per_page : Int) then
          .ok ⟨page_no, slot_no⟩
        else
          loop f start_page start_slot fuel (page_no + 1)

/-- `RmScan::next`: when the file has no data pages go straight to the end
state, otherwise run the page loop starting at the stored rid. -/
def next (f : RmFile) (r : Rid) : Except RmError Rid :=
  if f.file_hdr.num_pages ≤ RM_FIRST_RECORD_PAGE then
    .ok ⟨RM_NO_PAGE, RM_NO_PAGE⟩
  else
    loop f r.page_no r.slot_no (f.file_hdr.num_pages - r.page_no).toNat r.page_no

/-- The `RmScan` constructor: position at `(RM_FIRST_RECORD_PAGE, -1)` and
advance once. -/
def start (f : RmFile) : Except RmError Rid :=
  next f ⟨RM_FIRST_RECORD_PAGE, -1⟩

/-- `RmScan::is_end` ⇔ `page_no == RM_NO_PAGE`. -/
def is_end (r : Rid) : Bool :=
  r.page_no = RM_NO_PAGE

end RmScan

/-- Transaction states. -/
inductive TransactionState where
  | DEFAULT | GROWING | SHRINKING | COMMITTED | ABORTED
deriving DecidableEq, Repr

/-- The reasons carried by `TransactionAbortException` that the lock manager
raises (spelled as in the source). -/
inductive AbortReason where
  | LOCK_ON_SHIRINKING | UPGRADE_CONFLICT
deriving DecidableEq, Repr

/-- Lock modes (spelled as in the source, including `EXLUCSIVE`). -/
inductive LockMode where
  | SHARED | EXLUCSIVE | INTENTION_SHARED | INTENTION_EXCLUSIVE | S_IX
deriving DecidableEq, Repr

/-- Group lock modes, in the declaration order the compatibility matrix of
`LockManager::is_compatible` indexes by: `NON_LOCK, IS, IX, S, X, SIX`. -/
inductive GroupLockMode where
  | NON_LOCK | IS | IX | S | X | SIX
deriving DecidableEq, Repr

/-- A lockable object: a table or a record; equality covers all fields. -/
inductive LockDataType where
  | TABLE | RECORD
deriving DecidableEq, Repr

/-- `LockDataId`: `(table_fd, type)` for tables, `(table_fd, type, rid)` for
records (a table id carries the sentinel rid). -/
structure LockDataId where
  fd : Int
  type : LockDataType
  rid : Rid
deriving DecidableEq, Repr

/-- A `LockRequest` in a queue: requesting transaction, mode, granted flag. -/
structure LockRequest where
  txn_id : Nat
  lock_mode : LockMode
  granted : Bool
deriving DecidableEq, Repr

/-- A `LockRequestQueue`: the request deque plus the cached group lock mode
(the condition variable has no modelled state). -/
structure LockRequestQueue where
  request_queue : List LockRequest
  group_lock_mode : GroupLockMode
deriving DecidableEq, Repr

/-- The lock table `map<LockDataId, LockQueue>` as an association list. -/
abbrev LockTable := List (LockDataId × LockRequestQueue)

/-- The write types recorded in a transaction's write set (`WType` in the
source; renamed because Mathlib already declares `WType`). -/
inductive WriteType where
  | INSERT_TUPLE | DELETE_TUPLE | UPDATE_TUPLE
deriving DecidableEq, Repr

/-- A `WriteRecord`: table name, rid, write type, and the payload bytes
(`GetRecord().data`; the pre-image for `UPDATE`/`DELETE` records). -/
structure WriteRecord where
  tab_name : String
  rid : Rid
  wtype : WriteType
  record : List Nat
deriving DecidableEq, Repr

/-- The transaction fields the core reads and writes: id, state, lock set and
write set; `start_ts` is never read by the given sources after `begin`
assigns it, so it is omitted. -/
structure Transaction where
  txn_id : Nat
  state : TransactionState
  lock_set : List LockDataId
  write_set : List WriteRecord
deriving DecidableEq, Repr

namespace LockManager

/-- First queue registered under `id`, if any. -/
def lookupTable (tbl : LockTable) (id : LockDataId) : Option LockRequestQueue :=
  (tbl.find? (fun e => e.1 = id)).map (·.2)

/-- Write the queue registered under `id` (inserting it when absent, as
`lock_table_[id]` does). -/
def setTable (tbl : LockTable) (id : LockDataId) (q : LockRequestQueue) : LockTable :=
  if tbl.any (fun e => e.1 = id) then
    tbl.map (fun e => if e.1 = id then (id, q) else e)
  else
    tbl ++ [(id, q)]

/-- Drop the queue registered under `id`. -/
def eraseTable (tbl : LockTable) (id : LockDataId) : LockTable :=
  tbl.filter (fun e => e.1 ≠ id)

/-- `unordered_set` insert into a transaction's lock set. -/
def insertLS (id : LockDataId) (s : List LockDataId) : List LockDataId :=
  if id ∈ s then s else s ++ [id]

/-- `LockManager::to_group_lock_mode`. -/
def to_group_lock_mode : LockMode → GroupLockMode
  | .SHARED => .S
  | .EXLUCSIVE => .X
  | .INTENTION_SHARED => .IS
  | .INTENTION_EXCLUSIVE => .IX
  | .S_IX => .SIX

/-- The `compat` matrix of `LockManager::is_compatible`, rows and columns in
the order `NON_LOCK, IS, IX, S, X, SIX`. -/
def compatMatrix : GroupLockMode → GroupLockMode → Bool
  | .NON_LOCK, _ => true
  | .IS, .NON_LOCK => true
  | .IS, .IS => true
  | .IS, .IX => true
  | .IS, .S => true
  | .IS, .X => false
  | .IS, .SIX => true
  | .IX, .NON_LOCK => true
  | .IX, .IS => true
  | .IX, .IX => true
  | .IX, .S => false
  | .IX, .X => false
  | .IX, .SIX => false
  | .S, .NON_LOCK => true
  | .S, .IS => true
  | .S, .IX => false
  | .S, .S => true
  | .S, .X => false
  | .S, .SIX => false
  | .X, .NON_LOCK => true
  | .X, .IS => false
  | .X, .IX => false
  | .X, .S => false
  | .X, .X => false
  | .X, .SIX => false
  | .SIX, .NON_LOCK => true
  | .SIX, .IS => true
  | .SIX, .IX => false
  | .SIX, .S => false
  | .SIX, .X => false
  | .SIX, .SIX => false

/-- `LockManager::is_compatible`: matrix lookup in both orders. -/
def is_compatible (lhs rhs : LockMode) : Bool :=
  compatMatrix (to_group_lock_mode lhs) (to_group_lock_mode rhs) &&
    compatMatrix (to_group_lock_mode rhs) (to_group_lock_mode lhs)

/-- The priority used by `LockManager::update_group_lock_mode`. -/
def priority : GroupLockMode → Nat
  | .NON_LOCK => 0
  | .IS => 1
  | .IX => 2
  | .S => 3
  | .SIX => 4
  | .X => 5

/-- `LockManager::update_group_lock_mode`: the queue's group mode is the
highest-priority mode among granted requests. -/
def update_group_lock_mode (reqs : List LockRequest) : GroupLockMode :=
  reqs.foldl
    (fun mode req =>
      if req.granted ∧ priority mode < priority (to_group_lock_mode req.lock_mode) then
        to_group_lock_mode req.lock_mode
      else mode)
    .NON_LOCK

/-- `LockManager::lock`: fail `LOCK_ON_SHIRINKING` in the shrinking phase;
then either recognise an identical granted request, attempt an upgrade
(failing `UPGRADE_CONFLICT` on an incompatible granted request of another
transaction), refuse with `false` when a granted request is incompatible, or
append a granted request, recompute the group mode, record the id in the lock
set and move a `DEFAULT` transaction to `GROWING`.  Returns the flag together
with the updated lock table and transaction. -/
def lock (tbl : LockTable) (txn : Transaction) (id : LockDataId) (mode : LockMode) :
    Except AbortReason (Bool × LockTable × Transaction) :=
  if txn.state = TransactionState.SHRINKING then
    .error .LOCK_ON_SHIRINKING
  else
    let q := (lookupTable tbl id).getD ⟨[], .NON_LOCK⟩
    let tbl0 := setTable tbl id q
    match q.request_queue.findIdx? (fun r => r.txn_id = txn.txn_id) with
    | some i =>
      let r := q.request_queue.getD i ⟨txn.txn_id, mode, false⟩
      if r.granted = true ∧ r.lock_mode = mode then
        .ok (true, tbl0, txn)
      else if q.request_queue.any (fun req =>
          req.txn_id ≠ txn.txn_id ∧ req.granted = true ∧
            is_compatible mode req.lock_mode = false) then
        .error .UPGRADE_CONFLICT
      else
        let reqs := q.request_queue.set i { r with lock_mode := mode, granted := true }
        .ok (true,
             setTable tbl0 id ⟨reqs, update_group_lock_mode reqs⟩,
             { txn with lock_set := insertLS id txn.lock_set })
    | none =>
      if q.request_queue.any (fun req =>
          req.granted = true ∧ is_compatible mode req.lock_mode = false) then
        .ok (false, tbl0, txn)
      else
        let reqs := q.request_queue ++ [⟨txn.txn_id, mode, true⟩]
        .ok (true,
             setTable tbl0 id ⟨reqs, update_group_lock_mode reqs⟩,
             { txn with
                lock_set := insertLS id txn.lock_set,
                state := if txn.state = TransactionState.DEFAULT then
                           TransactionState.GROWING
                         else txn.state })

/-- `LockManager::unlock`: `false` when the queue or the transaction's request
is absent; otherwise erase the request, remove the id from the lock set, move
a `GROWING` transaction to `SHRINKING`, and drop an emptied queue from the
table (otherwise recompute its group mode). -/
def unlock (tbl : LockTable) (txn : Transaction) (id : LockDataId) :
    Bool × LockTable × Transaction :=
  match lookupTable tbl id with
  | none => (false, tbl, txn)
  | some q =>
    match q.request_queue.findIdx? (fun r => r.txn_id = txn.txn_id) with
    | none => (false, tbl, txn)
    | some i =>
      let reqs := q.request_queue.eraseIdx i
      let txn1 : Transaction :=
        { txn with
            lock_set := txn.lock_set.erase id,
            state := if txn.state = TransactionState.GROWING then
                       TransactionState.SHRINKING
                     else txn.state }
      if reqs.isEmpty then (true, eraseTable tbl id, txn1)
      else (true, setTable tbl id ⟨reqs, update_group_lock_mode reqs⟩, txn1)

end LockManager

/-- The external catalog `sm_manager_->fhs_`: record file handles keyed by
table name. -/
abbrev Catalog := List (String × RmFile)

/-- Look a file handle up by table name. -/
def lookupC (cat : Catalog) (tab : String) : Option RmFile :=
  (cat.find? (fun e => e.1 = tab)).map (·.2)

/-- Store an updated file handle under a table name (names already present
keep their position). -/
def updateC (cat : Catalog) (tab : String) (fh : RmFile) : Catalog :=
  cat.map (fun e => if e.1 = tab then (tab, fh) else e)

/-- The state a `TransactionManager` call can observe and mutate: the catalog
of record files, the lock manager's table, and the global `txn_map` (whose
values abort only erases by key, so only the keys are modelled). -/
structure TMState where
  catalog : Catalog
  lock_table : LockTable
  txn_map : List Nat
deriving DecidableEq, Repr

namespace TransactionManager

/-- Undo a single write record in `TransactionManager::abort`: look the table
handle up by name — a record whose table is absent is silently skipped — and
apply the inverse operation: `delete_record` for an `INSERT`, the
explicit-Rid `insert_record` with the payload for a `DELETE`, `update_record`
with the payload for an `UPDATE`. -/
def undo_write (cat : Catalog) (w : WriteRecord) : Except RmError Catalog :=
  match lookupC cat w.tab_name with
  | none => .ok cat
  | some fh =>
    match w.wtype with
    | .INSERT_TUPLE =>
      match fh.delete_record w.rid with
      | .error e => .error e
      | .ok fh1 => .ok (updateC cat w.tab_name fh1)
    | .DELETE_TUPLE =>
      match fh.insert_record_rid w.rid w.record with
      | .error e => .error e
      | .ok fh1 => .ok (updateC cat w.tab_name fh1)
    | .UPDATE_TUPLE =>
      match fh.update_record w.rid w.record with
      | .error e => .error e
      | .ok fh1 => .ok (updateC cat w.tab_name fh1)

/-- Undo a list of write records front to back; `abort` passes the reversed
write set, matching the source's pop-from-the-back loop.  An error thrown by
an inverse record operation propagates out, as in the source. -/
def undo_rev (cat : Catalog) : List WriteRecord → Except RmError Catalog
  | [] => .ok cat
  | w :: ws =>
    match undo_write cat w with
    | .error e => .error e
    | .ok cat1 => undo_rev cat1 ws

/-- Release every lock in a transaction's lock set via `LockManager::unlock`
(the source iterates the ids of `txn->get_lock_set()`). -/
def release_all (tbl : LockTable) (txn : Transaction) :
    List LockDataId → LockTable × Transaction
  | [] => (tbl, txn)
  | id :: ids =>
    let r := LockManager.unlock tbl txn id
    release_all r.2.1 r.2.2 ids

/-- `TransactionManager::abort`: undo the write set in reverse order (the
write records are consumed), release all locks and clear the lock set, set
the state to `ABORTED` and erase the transaction from `txn_map` (the log
flush has no modelled effect). -/
def abort (s : TMState) (txn : Transaction) : Except RmError (TMState × Transaction) :=
  match undo_rev s.catalog txn.write_set.reverse with
  | .error e => .error e
  | .ok cat1 =>
    let txn1 : Transaction := { txn with write_set := [] }
    let rel := release_all s.lock_table txn1 txn1.lock_set
    let txn2 : Transaction :=
      { rel.2 with lock_set := [], state := TransactionState.ABORTED }
    .ok ({ catalog := cat1,
           lock_table := rel.1,
           txn_map := s.txn_map.erase txn.txn_id }, txn2)

end TransactionManager

/-- A transaction in the growing phase used by concrete lock-manager
scenarios. -/
def txnGrowing : Transaction :=
  ⟨0, TransactionState.GROWING, [], []⟩

/-- A concrete table-level lock id. -/
def tabIdA : LockDataId :=
  ⟨3, LockDataType.TABLE, ⟨-1, -1⟩⟩

/-- A second concrete table-level lock id. -/
def tabIdB : LockDataId :=
  ⟨4, LockDataType.TABLE, ⟨-1, -1⟩⟩

/-- A concrete one-data-page record file (record_size 1, one slot per page,
the single page empty and at the head of the free list). -/
def oneEmptyPageFile : RmFile :=
  { file_hdr := { record_size := 1, num_pages := 2, num_records_per_page := 1,
                  first_free_page_no := 1 },
    pages := [{ page_hdr := { num_records := 0, next_free_page_no := RM_NO_PAGE },
                bitmap := [false], slots := [[0]] }] }

namespace RmFile

/-- Page number `p` denotes a data page of the file: it lies in
`[RM_FIRST_RECORD_PAGE, num_pages)`. -/
def ValidPage (f : RmFile) (p : Int) : Prop :=
  RM_FIRST_RECORD_PAGE ≤ p ∧ p < f.file_hdr.num_pages

instance (f : RmFile) (p : Int) : Decidable (f.ValidPage p) := by
  unfold ValidPage; infer_instance

/-- Structural well-formedness of a single data page for record size `rs` and
`n` slots per page: the bitmap has one bit per slot, the slot array has `n`
slots of `rs` bytes, and the bitmap's population count agrees with the
`num_records` header field (spec invariant 2). -/
def pageWF (rs n : Nat) (pg : PageData) : Prop :=
  pg.bitmap.length = n ∧ pg.slots.length = n ∧
  (∀ s ∈ pg.slots, s.length = rs) ∧
  (Bitmap.popcount pg.bitmap : Int) = pg.page_hdr.num_records

instance (rs n : Nat) (pg : PageData) : Decidable (pageWF rs n pg) := by
  unfold pageWF; infer_instance

/-- `IsChain f p l`: the list `l` is the free list obtained by starting at
page number `p` and following `next_free_page_no` links down to the
`RM_NO_PAGE` terminator, every link being a data page of `f`. -/
def IsChain (f : RmFile) : Int → List Int → Prop
  | p, [] => p = RM_NO_PAGE
  | p, q :: rest => p = q ∧ f.ValidPage q ∧ IsChain f (f.nextFree q) rest

/-- Spec invariant 1: some duplicate-free list `l` is the free list rooted at
`first_free_page_no`, a data page is on it iff it has spare capacity, and
every data page off the list has `next_free_page_no = RM_NO_PAGE`. -/
def FreeListInv (f : RmFile) : Prop :=
  ∃ l, IsChain f f.file_hdr.first_free_page_no l ∧ l.Nodup ∧
    ∀ p, f.ValidPage p →
      ((f.numRec p < (f.file_hdr.num_records_per_page : Int) ↔ p ∈ l) ∧
       (p ∉ l → f.nextFree p = RM_NO_PAGE))

/-- A validly initialised record file: at least one slot per page, `num_pages`
counts the header page plus the data pages, every data page is structurally
well-formed, and the free-list invariant holds. -/
def WF (f : RmFile) : Prop :=
  1 ≤ f.file_hdr.num_records_per_page ∧
  f.file_hdr.num_pages = f.pages.length + 1 ∧
  (∀ pg ∈ f.pages, pageWF f.file_hdr.record_size f.file_hdr.num_records_per_page pg) ∧
  FreeListInv f

/-- Fuel-bounded computation of the free list, for deciding `WF` on concrete
files: follow `next_free_page_no` from `p`, requiring every link to be a
valid data page and the walk to terminate within the fuel. -/
def chainB (f : RmFile) : Nat → Int → Option (List Int)
  | 0, p => if p = RM_NO_PAGE then some [] else none
  | fuel + 1, p =>
    if p = RM_NO_PAGE then some []
    else if f.ValidPage p then (f.chainB fuel (f.nextFree p)).map (p :: ·)
    else none

/-- Executable check equivalent (one way) to `WF`, used to discharge
well-formedness of concrete witness files by `decide`. -/
def wfB (f : RmFile) : Bool :=
  decide (1 ≤ f.file_hdr.num_records_per_page) &&
  decide (f.file_hdr.num_pages = f.pages.length + 1) &&
  f.pages.all (fun pg =>
    decide (pageWF f.file_hdr.record_size f.file_hdr.num_records_per_page pg)) &&
  (match f.chainB (f.pages.length + 1) f.file_hdr.first_free_page_no with
   | none => false
   | some l =>
     l.Nodup &&
     (List.range f.pages.length).all (fun i =>
       let p : Int := (i : Int) + 1
       (decide (f.numRec p < (f.file_hdr.num_records_per_page : Int)) ==
          decide (p ∈ l)) &&
       (decide (p ∈ l) || decide (f.nextFree p = RM_NO_PAGE))))

end RmFile

/-- A record-manager mutation: engine-chosen insert, explicit-Rid insert,
delete, or update. -/
inductive RmOp where
  | ins (buf : List Nat)
  | insAt (rid : Rid) (buf : List Nat)
  | del (rid : Rid)
  | upd (rid : Rid) (buf : List Nat)
deriving DecidableEq, Repr

/-- An operation is valid for record size `rs` and `n` slots per page when
its buffer carries exactly `rs` bytes and an explicit slot number is in
range (the C++ reads exactly `record_size` bytes of the buffer and does not
bounds-check explicit slot numbers, so other calls are undefined
behaviour). -/
def RmOp.Valid (rs n : Nat) : RmOp → Prop
  | .ins buf => buf.length = rs
  | .insAt rid buf =>
      buf.length = rs ∧ 0 ≤ rid.slot_no ∧ rid.slot_no < (n : Int)
  | .del _ => True
  | .upd _ buf => buf.length = rs

instance (rs n : Nat) (op : RmOp) : Decidable (op.Valid rs n) := by
  cases op <;> (unfold RmOp.Valid; infer_instance)

namespace RmFile

/-- Apply one mutation to a file (the engine-chosen insert's returned rid is
dropped here; `runTrack` keeps it). -/
def applyOp (f : RmFile) : RmOp → Except RmError RmFile
  | .ins buf =>
    match f.insert_record buf with
    | .error e => .error e
    | .ok fr => .ok fr.1
  | .insAt rid buf => f.insert_record_rid rid buf
  | .del rid => f.delete_record rid
  | .upd rid buf => f.update_record rid buf

/-- Run a sequence of mutations, stopping at the first error. -/
def runOps (f : RmFile) : List RmOp → Except RmError RmFile
  | [] => .ok f
  | op :: ops =>
    match f.applyOp op with
    | .error e => .error e
    | .ok f1 => runOps f1 ops

/-- Run a sequence of mutations while tracking the bytes most recently
written at `rid` (`none` when the most recent event at `rid` was a delete or
nothing touched it yet). -/
def runTrack (rid : Rid) :
    RmFile → Option (List Nat) → List RmOp → Except RmError (RmFile × Option (List Nat))
  | f, acc, [] => .ok (f, acc)
  | f, acc, op :: ops =>
    match op with
    | .ins buf =>
      match f.insert_record buf with
      | .error e => .error e
      | .ok fr => runTrack rid fr.1 (if fr.2 = rid then some buf else acc) ops
    | .insAt r buf =>
      match f.insert_record_rid r buf with
      | .error e => .error e
      | .ok f1 => runTrack rid f1 (if r = rid then some buf else acc) ops
    | .del r =>
      match f.delete_record r with
      | .error e => .error e
      | .ok f1 => runTrack rid f1 (if r = rid then none else acc) ops
    | .upd r buf =>
      match f.update_record r buf with
      | .error e => .error e
      | .ok f1 => runTrack rid f1 (if r = rid then some buf else acc) ops

/-- The raw bytes stored at a live slot (`none` when the page does not exist
or the bitmap bit is clear). -/
def getLive (f : RmFile) (rid : Rid) : Option (List Nat) :=
  match f.getPage rid.page_no with
  | none => none
  | some pg =>
    if Bitmap.is_set pg.bitmap rid.slot_no then
      some (pg.slots.getD rid.slot_no.toNat [])
    else none

end RmFile

/-- A concrete empty record file (record size 1, two slots per page, no data
pages yet). -/
def emptyFile2 : RmFile :=
  { file_hdr := { record_size := 1, num_pages := 1, num_records_per_page := 2,
                  first_free_page_no := RM_NO_PAGE }, pages := [] }

/-- A concrete operation sequence exercising every mutation, including the
head removal of the explicit-Rid insert. -/
def opsC2 : List RmOp :=
  [RmOp.ins [5], RmOp.ins [6], RmOp.del ⟨1, 0⟩, RmOp.insAt ⟨1, 0⟩ [7],
   RmOp.upd ⟨1, 1⟩ [8], RmOp.ins [9]]

/-- The file reached by running `opsC2` on `emptyFile2`. -/
def resC2 : RmFile :=
  match emptyFile2.runOps opsC2 with
  | .ok f => f
  | .error _ => emptyFile2

/-- The file reached by inserting the one-byte record `[1]` into
`oneEmptyPageFile`. -/
def resC9 : RmFile :=
  match oneEmptyPageFile.insert_record [1] with
  | .ok fr => fr.1
  | .error _ => oneEmptyPageFile

/-- Observational file equivalence after an abort: the geometry agrees, no
pages were lost, and every rid holds exactly the same live bytes (dead-slot
bytes and extra allocated pages are allowed to differ). -/
def FileSim (f g : RmFile) : Prop :=
  g.file_hdr.record_size = f.file_hdr.record_size ∧
  g.file_hdr.num_records_per_page = f.file_hdr.num_records_per_page ∧
  f.pages.length ≤ g.pages.length ∧
  ∀ r : Rid, g.getLive r = f.getLive r

/-- Every table handle registered in the catalog is well-formed. -/
def CatWF (cat : Catalog) : Prop :=
  ∀ t f, lookupC cat t = some f → f.WF

/-- Catalog-level simulation: absent tables stay absent, and every present
table is present with a well-formed, observationally equivalent handle. -/
def CatSim (c d : Catalog) : Prop :=
  ∀ t : String,
    (lookupC c t = none → lookupC d t = none) ∧
    (∀ f, lookupC c t = some f → ∃ g, lookupC d t = some g ∧ g.WF ∧ FileSim f g)

/-- One forward write of the aborting transaction, together with the write
record the executors append to its write set (spec section 4.6): INSERT
records the rid, DELETE and UPDATE record the bytes previously stored at
the rid. -/
inductive TxnStep : Catalog × List WriteRecord → Catalog × List WriteRecord → Prop
  | ins (cat : Catalog) (ws : List WriteRecord) (t : String) (f f1 : RmFile)
      (rid : Rid) (buf rec : List Nat) :
      lookupC cat t = some f →
      buf.length = f.file_hdr.record_size →
      f.insert_record buf = .ok (f1, rid) →
      TxnStep (cat, ws)
        (updateC cat t f1, ws ++ [⟨t, rid, WriteType.INSERT_TUPLE, rec⟩])
  | del (cat : Catalog) (ws : List WriteRecord) (t : String) (f f1 : RmFile)
      (rid : Rid) (buf0 : List Nat) :
      lookupC cat t = some f →
      f.getLive rid = some buf0 →
      f.delete_record rid = .ok f1 →
      TxnStep (cat, ws)
        (updateC cat t f1, ws ++ [⟨t, rid, WriteType.DELETE_TUPLE, buf0⟩])
  | upd (cat : Catalog) (ws : List WriteRecord) (t : String) (f f1 : RmFile)
      (rid : Rid) (buf buf0 : List Nat) :
      lookupC cat t = some f →
      buf.length = f.file_hdr.record_size →
      f.getLive rid = some buf0 →
      f.update_record rid buf = .ok f1 →
      TxnStep (cat, ws)
        (updateC cat t f1, ws ++ [⟨t, rid, WriteType.UPDATE_TUPLE, buf0⟩])

/-- A forward history of the aborting transaction: a sequence of its own
writes with the corresponding write records, no other transaction touching
the catalog in between (the claim's non-interference proviso). -/
inductive TxnTrace : Catalog × List WriteRecord → Catalog × List WriteRecord → Prop
  | refl (s : Catalog × List WriteRecord) : TxnTrace s s
  | step (s1 s2 s3 : Catalog × List WriteRecord) :
      TxnTrace s1 s2 → TxnStep s2 s3 → TxnTrace s1 s3

/-- A one-page file with one live record `[9]` at slot 1 and residual byte
`7` in the dead slot 0 (head of the free list). -/
def fC3 : RmFile :=
  { file_hdr := { record_size := 1, num_pages := 2, num_records_per_page := 2,
                  first_free_page_no := 1 },
    pages := [{ page_hdr := { num_records := 1, next_free_page_no := RM_NO_PAGE },
                bitmap := [false, true], slots := [[7], [9]] }] }

/-- `fC3` after inserting the one-byte record `[5]` (it lands in slot 0 of
page 1 and fills the page). -/
def fC3ins : RmFile :=
  match fC3.insert_record [5] with
  | .ok fr => fr.1
  | .error _ => fC3

/-- A transaction whose only write is that insert. -/
def txnC3 : Transaction :=
  ⟨0, TransactionState.GROWING, [],
    [⟨"t", ⟨1, 0⟩, WriteType.INSERT_TUPLE, []⟩]⟩

/-- The manager state seen at abort time: the catalog holds the post-insert
file. -/
def sC3 : TMState := ⟨[("t", fC3ins)], [], [0]⟩

/-- The state produced by aborting `txnC3` in `sC3`. -/
def sC3res : TMState :=
  match TransactionManager.abort sC3 txnC3 with
  | .ok p => p.1
  | .error _ => sC3

/-- The transaction returned by that abort. -/
def txnC3res : Transaction :=
  match TransactionManager.abort sC3 txnC3 with
  | .ok p => p.2
  | .error _ => txnC3

/-- Strict lexicographic order on record identifiers:
`(page_no, slot_no)` pairs compared componentwise. -/
def ridLt (a b : Rid) : Prop :=
  a.page_no < b.page_no ∨ (a.page_no = b.page_no ∧ a.slot_no < b.slot_no)

instance (a b : Rid) : Decidable (ridLt a b) := by
  unfold ridLt
  infer_instance

/-- All rids of live records (set bitmap bits) of a file, page by page and
slot by slot in increasing order. -/
def liveRids (f : RmFile) : List Rid :=
  ((List.range f.pages.length).map (fun (i : Nat) =>
    match f.getPage ((i : Int) + 1) with
    | none => []
    | some pg =>
      ((List.range f.file_hdr.num_records_per_page).filter
        (fun s => Bitmap.is_set pg.bitmap ((s : Nat) : Int))).map
        (fun s => (⟨(i : Int) + 1, ((s : Nat) : Int)⟩ : Rid)))).flatten

/-- The live rids strictly after position `r` in scan order. -/
def liveAfter (f : RmFile) (r : Rid) : List Rid :=
  (liveRids f).filter (fun x => decide (ridLt r x))

/-- Drive a scan from state `r`: collect the rids visited until `is_end`,
also returning the terminal state.  The fuel bounds the number of `next`
calls; callers supply more than the number of live records. -/
def scanSeq (f : RmFile) : Nat → Rid → Except RmError (List Rid × Rid)
  | 0, r => .ok ([], r)
  | fuel + 1, r =>
    if RmScan.is_end r then .ok ([], r)
    else
      match RmScan.next f r with
      | .error e => .error e
      | .ok r2 =>
        match scanSeq f fuel r2 with
        | .error e => .error e
        | .ok lr => .ok (r :: lr.1, lr.2)

/-! ## Theorems -/

/-! ### Bitmap lemmas -/

namespace Bitmap

theorem length_set (bm : List Bool) (i : Int) : (set bm i).length = bm.length := by
  unfold set; split <;> simp

theorem length_reset (bm : List Bool) (i : Int) : (reset bm i).length = bm.length := by
  unfold reset; split <;> simp

theorem is_set_bounds {bm : List Bool} {i : Int} (h : is_set bm i = true) :
    0 ≤ i ∧ i.toNat < bm.length := by
  unfold is_set at h
  split at h
  · exact absurd h (by simp)
  · rename_i hi
    refine ⟨by omega, ?_⟩
    by_contra hlen
    rw [List.getD_eq_getElem?_getD, List.getElem?_eq_none (by omega)] at h
    simp at h

theorem is_set_set_self {bm : List Bool} {i : Int} (h0 : 0 ≤ i) (hl : i.toNat < bm.length) :
    is_set (set bm i) i = true := by
  unfold is_set set
  rw [if_neg (by omega), if_neg (by omega), List.getD_eq_getElem?_getD,
    List.getElem?_set_self (by simpa using hl)]
  rfl

theorem is_set_set_ne {bm : List Bool} {i j : Int} (hne : j ≠ i) :
    is_set (set bm i) j = is_set bm j := by
  unfold is_set set
  by_cases hi : i < 0
  · rw [if_pos hi]
  · rw [if_neg hi]
    by_cases hj : j < 0
    · rw [if_pos hj, if_pos hj]
    · rw [if_neg hj, if_neg hj, List.getD_eq_getElem?_getD, List.getD_eq_getElem?_getD,
        List.getElem?_set_ne (by omega)]

theorem is_set_reset_self (bm : List Bool) (i : Int) : is_set (reset bm i) i = false := by
  unfold is_set reset
  by_cases hi : i < 0
  · rw [if_pos hi]
  · rw [if_neg hi, if_neg hi, List.getD_eq_getElem?_getD, List.getElem?_set]
    by_cases hl : i.toNat < bm.length <;> simp [hl]

theorem is_set_reset_ne {bm : List Bool} {i j : Int} (hne : j ≠ i) :
    is_set (reset bm i) j = is_set bm j := by
  unfold is_set reset
  by_cases hi : i < 0
  · rw [if_pos hi]
  · rw [if_neg hi]
    by_cases hj : j < 0
    · rw [if_pos hj, if_pos hj]
    · rw [if_neg hj, if_neg hj, List.getD_eq_getElem?_getD, List.getD_eq_getElem?_getD,
        List.getElem?_set_ne (by omega)]

theorem popcount_le (bm : List Bool) : popcount bm ≤ bm.length :=
  List.count_le_length _ _

theorem getD_of_is_set {bm : List Bool} {i : Int} (h : is_set bm i = true) :
    bm.getD i.toNat false = true := by
  unfold is_set at h
  split at h
  · exact absurd h (by simp)
  · exact h

theorem popcount_set {bm : List Bool} {i : Int} (h0 : 0 ≤ i) (hl : i.toNat < bm.length)
    (hb : is_set bm i = false) : popcount (set bm i) = popcount bm + 1 := by
  unfold popcount set
  rw [if_neg (by omega), List.count_set _ _ _ _ hl]
  have hg : bm[i.toNat] = false := by
    unfold is_set at hb
    rw [if_neg (by omega), List.getD_eq_getElem?_getD, List.getElem?_eq_getElem hl] at hb
    simpa using hb
  simp [hg]

theorem popcount_pos {bm : List Bool} {i : Int} (hb : is_set bm i = true) :
    1 ≤ popcount bm := by
  obtain ⟨h0, hl⟩ := is_set_bounds hb
  have hg : bm[i.toNat] = true := by
    have := getD_of_is_set hb
    rwa [List.getD_eq_getElem?_getD, List.getElem?_eq_getElem hl, Option.getD_some] at this
  have : (true : Bool) ∈ bm := hg ▸ List.getElem_mem hl
  unfold popcount
  exact List.count_pos_iff.mpr this

theorem popcount_reset {bm : List Bool} {i : Int} (hb : is_set bm i = true) :
    popcount (reset bm i) + 1 = popcount bm := by
  obtain ⟨h0, hl⟩ := is_set_bounds hb
  have hg : bm[i.toNat] = true := by
    have := getD_of_is_set hb
    rwa [List.getD_eq_getElem?_getD, List.getElem?_eq_getElem hl, Option.getD_some] at this
  have hpos := popcount_pos hb
  unfold popcount reset at *
  rw [if_neg (by omega), List.count_set _ _ _ _ hl]
  simp [hg]
  omega

/-- The one-step unfolding of `scan_from` (the loop equation of the C++
scan, independent of the fuel bookkeeping). -/
theorem scan_from_eq (b : Bool) (bm : List Bool) (n i : Nat) :
    scan_from b bm n i =
      if i < n then
        (if bm.getD i false = b then (i : Int) else scan_from b bm n (i + 1))
      else (n : Int) := by
  unfold scan_from
  cases hni : n - i with
  | zero =>
    rw [if_neg (by omega)]
    rfl
  | succ fuel =>
    have hin : i < n := by omega
    have h2 : n - (i + 1) = fuel := by omega
    show (if i < n then
        (if bm.getD i false = b then (i : Int) else scan_go b bm n fuel (i + 1))
      else (n : Int)) = _
    rw [if_pos hin, if_pos hin, h2]

/-- Combined facts about `scan_from`: it never moves backwards, never goes
past `n`, lands on a matching bit when it stops short of `n`, and skips over
no matching bit. -/
theorem scan_from_props (b : Bool) (bm : List Bool) (n : Nat) :
    ∀ d i, n - i ≤ d →
      ((i ≤ n → (i : Int) ≤ scan_from b bm n i) ∧ scan_from b bm n i ≤ (n : Int) ∧
       (scan_from b bm n i < (n : Int) →
         bm.getD (scan_from b bm n i).toNat false = b) ∧
       (∀ k : Nat, i ≤ k → (k : Int) < scan_from b bm n i → bm.getD k false ≠ b)) := by
  intro d
  induction d with
  | zero =>
    intro i h
    rw [scan_from_eq, if_neg (by omega : ¬ i < n)]
    exact ⟨fun hin => by omega, le_refl _, fun hlt => absurd hlt (by omega),
      fun k hk hkn => absurd hkn (by omega)⟩
  | succ d ih =>
    intro i h
    by_cases hin : i < n
    · rw [scan_from_eq, if_pos hin]
      by_cases hb : bm.getD i false = b
      · rw [if_pos hb]
        exact ⟨fun _ => le_refl _, by omega, fun _ => by simpa using hb,
          fun k hk hkn => absurd hkn (by omega)⟩
      · rw [if_neg hb]
        obtain ⟨h1, h2, h3, h4⟩ := ih (i + 1) (by omega)
        refine ⟨fun _ => ?_, h2, h3, fun k hk hkn => ?_⟩
        · have := h1 (by omega)
          omega
        · rcases Nat.eq_or_lt_of_le hk with rfl | hk'
          · exact hb
          · exact h4 k (by omega) hkn
    · rw [scan_from_eq, if_neg hin]
      exact ⟨fun hin2 => by omega, le_refl _, fun hlt => absurd hlt (by omega),
        fun k hk hkn => absurd hkn (by omega)⟩

theorem scan_from_ge {b : Bool} {bm : List Bool} {n i : Nat} (hin : i ≤ n) :
    (i : Int) ≤ scan_from b bm n i :=
  (scan_from_props b bm n (n - i) i (le_refl _)).1 hin

theorem scan_from_le (b : Bool) (bm : List Bool) (n i : Nat) :
    scan_from b bm n i ≤ (n : Int) :=
  (scan_from_props b bm n (n - i) i (le_refl _)).2.1

theorem scan_from_hit {b : Bool} {bm : List Bool} {n i : Nat}
    (h : scan_from b bm n i < (n : Int)) :
    bm.getD (scan_from b bm n i).toNat false = b :=
  (scan_from_props b bm n (n - i) i (le_refl _)).2.2.1 h

theorem scan_from_min {b : Bool} {bm : List Bool} {n i : Nat} {k : Nat}
    (hk : i ≤ k) (hlt : (k : Int) < scan_from b bm n i) :
    bm.getD k false ≠ b :=
  (scan_from_props b bm n (n - i) i (le_refl _)).2.2.2 k hk hlt

/-- When a matching bit exists at or after the start, `scan_from` stops
short of `n`. -/
theorem scan_from_lt_of_exists {b : Bool} {bm : List Bool} {n i : Nat} {j : Nat}
    (hij : i ≤ j) (hjn : j < n) (hj : bm.getD j false = b) :
    scan_from b bm n i < (n : Int) := by
  rcases lt_or_le (scan_from b bm n i) (n : Int) with h | h
  · exact h
  · have heq : scan_from b bm n i = (n : Int) :=
      le_antisymm (scan_from_le b bm n i) h
    have hmin := @scan_from_min b bm n i j hij
    rw [heq] at hmin
    exact absurd hj (hmin (by omega))

/-- `first_bit false` finds a clear bit whenever the population count is not
yet the full length. -/
theorem first_bit_lt_of_popcount_lt {bm : List Bool} {n : Nat}
    (hlen : bm.length = n) (hpc : popcount bm < n) :
    first_bit false bm n < (n : Int) := by
  unfold first_bit next_bit
  have : ∃ j, j < n ∧ bm.getD j false = false := by
    by_contra hall
    push_neg at hall
    have : ∀ j (hj : j < bm.length), bm[j] = true := by
      intro j hj
      have hne := hall j (by omega)
      rw [List.getD_eq_getElem?_getD, List.getElem?_eq_getElem hj, Option.getD_some] at hne
      simpa using hne
    have hcnt : popcount bm = bm.length := by
      unfold popcount
      rw [List.count_eq_length]
      intro a ha
      obtain ⟨j, hj, rfl⟩ := List.getElem_of_mem ha
      simp [this j hj]
    omega
  obtain ⟨j, hjn, hj⟩ := this
  exact scan_from_lt_of_exists (by omega) hjn hj

theorem first_bit_nonneg (b : Bool) (bm : List Bool) (n : Nat) :
    0 ≤ first_bit b bm n := by
  unfold first_bit next_bit
  have h0 : ((-1 : Int) + 1).toNat = 0 := by decide
  rw [h0]
  exact scan_from_ge (n.zero_le)

end Bitmap

section LockManagerClaims

open LockManager

/-- C4 (counterexample): the claim "once txn calls unlock, any subsequent
lock call by txn raises TransactionAbort{LOCK_ON_SHRINKING}" is false as
stated: a transaction in `GROWING` that calls `unlock` on a lock it does not
hold gets `false` back, its state stays `GROWING`, and a subsequent `lock`
succeeds instead of raising. -/
theorem C4_counterexample :
    (LockManager.unlock [] txnGrowing tabIdA).1 = false ∧
    (LockManager.unlock [] txnGrowing tabIdA).2.2.state = TransactionState.GROWING ∧
    (LockManager.lock (LockManager.unlock [] txnGrowing tabIdA).2.1
        (LockManager.unlock [] txnGrowing tabIdA).2.2 tabIdB
        LockMode.SHARED).toOption.isSome = true := by
  decide

/-- C4 (amended): once a transaction in the growing (or already shrinking)
phase successfully releases a lock — `unlock` returns `true` — any subsequent
`lock` call by that transaction raises
`TransactionAbort{LOCK_ON_SHIRINKING}`: the first successful release moves a
`GROWING` transaction to `SHRINKING`, and `lock` always fails in
`SHRINKING`. -/
theorem C4_strict_2pl (tbl : LockTable) (txn : Transaction) (id : LockDataId)
    (hst : txn.state = TransactionState.GROWING ∨ txn.state = TransactionState.SHRINKING)
    (hok : (LockManager.unlock tbl txn id).1 = true) :
    ∀ (tbl2 : LockTable) (id2 : LockDataId) (mode : LockMode),
      LockManager.lock tbl2 (LockManager.unlock tbl txn id).2.2 id2 mode =
        .error AbortReason.LOCK_ON_SHIRINKING := by
  intro tbl2 id2 mode
  have hshr : (LockManager.unlock tbl txn id).2.2.state = TransactionState.SHRINKING := by
    rcases hq : lookupTable tbl id with _ | q
    · simp [LockManager.unlock, hq] at hok
    · rcases hf : q.request_queue.findIdx? (fun r => r.txn_id = txn.txn_id) with _ | i
      · simp [LockManager.unlock, hq, hf] at hok
      · rcases hst with h | h <;>
          by_cases he : (q.request_queue.eraseIdx i).isEmpty <;>
            simp [LockManager.unlock, hq, hf, he, h]
  unfold LockManager.lock
  rw [if_pos hshr]

/-- C4 (witness): a concrete successful release after which `lock` raises. -/
theorem C4_strict_2pl_witness :
    (⟨0, TransactionState.GROWING, [tabIdA], []⟩ : Transaction).state =
        TransactionState.GROWING ∧
    (LockManager.unlock [(tabIdA, ⟨[⟨0, LockMode.SHARED, true⟩], GroupLockMode.S⟩)]
        ⟨0, TransactionState.GROWING, [tabIdA], []⟩ tabIdA).1 = true ∧
    LockManager.lock []
        (LockManager.unlock [(tabIdA, ⟨[⟨0, LockMode.SHARED, true⟩], GroupLockMode.S⟩)]
          ⟨0, TransactionState.GROWING, [tabIdA], []⟩ tabIdA).2.2 tabIdB
        LockMode.SHARED = .error AbortReason.LOCK_ON_SHIRINKING :=
  ⟨rfl, by decide,
    C4_strict_2pl [(tabIdA, ⟨[⟨0, LockMode.SHARED, true⟩], GroupLockMode.S⟩)]
      ⟨0, TransactionState.GROWING, [tabIdA], []⟩ tabIdA (Or.inl rfl) (by decide)
      [] tabIdB LockMode.SHARED⟩

end LockManagerClaims

section ScanEndClaim

/-- C10: calling `next()` on a scan already in the end state
(`page_no == RM_NO_PAGE`), over a file with at least one data page
(`num_pages > RM_FIRST_RECORD_PAGE`), raises `PageNotExist` instead of
staying at the end state: the page loop restarts from page `-1`, which fails
`fetch_page_handle`'s bounds check. -/
theorem C10_next_after_end (f : RmFile)
    (h : RM_FIRST_RECORD_PAGE < f.file_hdr.num_pages) :
    RmScan.next f ⟨RM_NO_PAGE, RM_NO_PAGE⟩ = .error (.PageNotExist RM_NO_PAGE) := by
  unfold RmScan.next
  rw [if_neg (by simp only [RM_NO_PAGE, RM_FIRST_RECORD_PAGE] at h ⊢; omega)]
  obtain ⟨k, hk⟩ :
      ∃ k, (f.file_hdr.num_pages - (⟨RM_NO_PAGE, RM_NO_PAGE⟩ : Rid).page_no).toNat = k + 1 :=
    ⟨(f.file_hdr.num_pages - RM_NO_PAGE).toNat - 1, by
      simp only [RM_NO_PAGE, RM_FIRST_RECORD_PAGE] at h ⊢; omega⟩
  rw [hk]
  unfold RmScan.loop
  rw [if_neg (by simp only [RM_NO_PAGE, RM_FIRST_RECORD_PAGE] at h ⊢; omega)]
  have hfp : f.fetch_page_handle (⟨RM_NO_PAGE, RM_NO_PAGE⟩ : Rid).page_no =
      .error (.PageNotExist RM_NO_PAGE) := by
    unfold RmFile.fetch_page_handle
    rw [if_pos (Or.inl (by norm_num))]
  rw [hfp]

/-- C10 (witness): the behaviour on a concrete one-page file. -/
theorem C10_next_after_end_witness :
    RM_FIRST_RECORD_PAGE < oneEmptyPageFile.file_hdr.num_pages ∧
    RmScan.next oneEmptyPageFile ⟨RM_NO_PAGE, RM_NO_PAGE⟩ =
      .error (.PageNotExist RM_NO_PAGE) :=
  ⟨by decide, C10_next_after_end oneEmptyPageFile (by decide)⟩

end ScanEndClaim

section LockAcquireClaims

open LockManager

/-- C5: when `lock(txn, id, mode)` finds an existing request from `txn` in
`id`'s queue that is not an already-granted request of the same mode (an
upgrade attempt), it raises `TransactionAbort{UPGRADE_CONFLICT}` iff some
granted request from another transaction is incompatible with `mode`;
otherwise it overwrites that request's mode with `mode`, marks it granted,
recomputes the queue's group mode, adds `id` to `txn.lock_set`, and returns
`true`. -/
theorem C5_upgrade (tbl : LockTable) (txn : Transaction) (id : LockDataId)
    (mode : LockMode) (q : LockRequestQueue) (i : Nat) (r : LockRequest)
    (hs : txn.state ≠ TransactionState.SHRINKING)
    (hq : (lookupTable tbl id).getD ⟨[], GroupLockMode.NON_LOCK⟩ = q)
    (hi : q.request_queue.findIdx? (fun rq => rq.txn_id = txn.txn_id) = some i)
    (hr : q.request_queue.getD i ⟨txn.txn_id, mode, false⟩ = r)
    (hup : ¬(r.granted = true ∧ r.lock_mode = mode)) :
    (LockManager.lock tbl txn id mode = .error AbortReason.UPGRADE_CONFLICT ↔
      ∃ req ∈ q.request_queue, req.txn_id ≠ txn.txn_id ∧ req.granted = true ∧
        is_compatible mode req.lock_mode = false) ∧
    ((∀ req ∈ q.request_queue, req.txn_id ≠ txn.txn_id → req.granted = true →
        is_compatible mode req.lock_mode = true) →
      LockManager.lock tbl txn id mode =
        .ok (true,
          setTable (setTable tbl id q) id
            ⟨q.request_queue.set i { r with lock_mode := mode, granted := true },
             update_group_lock_mode
               (q.request_queue.set i { r with lock_mode := mode, granted := true })⟩,
          { txn with lock_set := insertLS id txn.lock_set })) := by
  have hr' : q.request_queue[i]?.getD ⟨txn.txn_id, mode, false⟩ = r := by
    simpa [List.getD] using hr
  by_cases hex : ∃ x ∈ q.request_queue, ¬x.txn_id = txn.txn_id ∧ x.granted = true ∧
      is_compatible mode x.lock_mode = false
  · refine ⟨iff_of_true ?_ (by simpa using hex), fun hno => ?_⟩
    · simp [LockManager.lock, hs, hq, hi, hr', hup, hex]
    · obtain ⟨req, hmem, hne, hg, hcf⟩ := hex
      rw [hno req hmem hne hg] at hcf
      exact absurd hcf (by simp)
  · refine ⟨iff_of_false ?_ (by simpa using hex), fun hno => ?_⟩
    · simp [LockManager.lock, hs, hq, hi, hr', hup, hex]
    · simp [LockManager.lock, hs, hq, hi, hr', hup, hex]

/-- C5 (witness): a concrete successful upgrade from `SHARED` to `EXLUCSIVE`
by the only holder. -/
theorem C5_upgrade_witness :
    (txnGrowing.state ≠ TransactionState.SHRINKING) ∧
    LockManager.lock [(tabIdA, ⟨[⟨0, LockMode.SHARED, true⟩], GroupLockMode.S⟩)]
        txnGrowing tabIdA LockMode.EXLUCSIVE =
      .ok (true,
        setTable (setTable [(tabIdA, ⟨[⟨0, LockMode.SHARED, true⟩], GroupLockMode.S⟩)]
            tabIdA ⟨[⟨0, LockMode.SHARED, true⟩], GroupLockMode.S⟩) tabIdA
          ⟨[⟨0, LockMode.EXLUCSIVE, true⟩],
           update_group_lock_mode [⟨0, LockMode.EXLUCSIVE, true⟩]⟩,
        { txnGrowing with lock_set := insertLS tabIdA txnGrowing.lock_set }) := by
  refine ⟨by decide, ?_⟩
  have h := (C5_upgrade [(tabIdA, ⟨[⟨0, LockMode.SHARED, true⟩], GroupLockMode.S⟩)]
      txnGrowing tabIdA LockMode.EXLUCSIVE
      ⟨[⟨0, LockMode.SHARED, true⟩], GroupLockMode.S⟩ 0 ⟨0, LockMode.SHARED, true⟩
      (by decide) (by decide) (by decide) (by decide) (by decide)).2 (by decide)
  exact h

/-- C6: a `lock(txn, id, mode)` call by a transaction not in `SHRINKING` with
no existing request in `id`'s queue returns `false` — leaving the queue's
requests, `txn.lock_set` and `txn.state` unchanged — iff some granted request
is incompatible with `mode`; otherwise it appends a new granted request,
recomputes the group mode, adds `id` to `txn.lock_set`, sets the state to
`GROWING` if it was `DEFAULT`, and returns `true`. -/
theorem C6_fresh_lock (tbl : LockTable) (txn : Transaction) (id : LockDataId)
    (mode : LockMode) (q : LockRequestQueue)
    (hs : txn.state ≠ TransactionState.SHRINKING)
    (hq : (lookupTable tbl id).getD ⟨[], GroupLockMode.NON_LOCK⟩ = q)
    (hi : q.request_queue.findIdx? (fun rq => rq.txn_id = txn.txn_id) = none) :
    (LockManager.lock tbl txn id mode = .ok (false, setTable tbl id q, txn) ↔
      ∃ req ∈ q.request_queue, req.granted = true ∧
        is_compatible mode req.lock_mode = false) ∧
    ((∀ req ∈ q.request_queue, req.granted = true →
        is_compatible mode req.lock_mode = true) →
      LockManager.lock tbl txn id mode =
        .ok (true,
          setTable (setTable tbl id q) id
            ⟨q.request_queue ++ [⟨txn.txn_id, mode, true⟩],
             update_group_lock_mode (q.request_queue ++ [⟨txn.txn_id, mode, true⟩])⟩,
          { txn with
              lock_set := insertLS id txn.lock_set,
              state := if txn.state = TransactionState.DEFAULT then
                         TransactionState.GROWING
                       else txn.state })) := by
  by_cases hex : ∃ x ∈ q.request_queue, x.granted = true ∧
      is_compatible mode x.lock_mode = false
  · refine ⟨iff_of_true ?_ hex, fun hno => ?_⟩
    · simp [LockManager.lock, hs, hq, hi, hex]
    · obtain ⟨req, hmem, hg, hcf⟩ := hex
      rw [hno req hmem hg] at hcf
      exact absurd hcf (by simp)
  · refine ⟨iff_of_false ?_ hex, fun hno => ?_⟩
    · simp [LockManager.lock, hs, hq, hi, hex]
    · simp [LockManager.lock, hs, hq, hi, hex]

/-- C6 (witness): a fresh `EXLUCSIVE` request against a queue holding an
incompatible granted `SHARED` request of another transaction returns `false`
and leaves table and transaction as they were. -/
theorem C6_fresh_lock_witness :
    (txnGrowing.state ≠ TransactionState.SHRINKING) ∧
    LockManager.lock [(tabIdA, ⟨[⟨7, LockMode.SHARED, true⟩], GroupLockMode.S⟩)]
        txnGrowing tabIdA LockMode.EXLUCSIVE =
      .ok (false,
        setTable [(tabIdA, ⟨[⟨7, LockMode.SHARED, true⟩], GroupLockMode.S⟩)] tabIdA
          ⟨[⟨7, LockMode.SHARED, true⟩], GroupLockMode.S⟩,
        txnGrowing) := by
  refine ⟨by decide, ?_⟩
  exact (C6_fresh_lock [(tabIdA, ⟨[⟨7, LockMode.SHARED, true⟩], GroupLockMode.S⟩)]
      txnGrowing tabIdA LockMode.EXLUCSIVE
      ⟨[⟨7, LockMode.SHARED, true⟩], GroupLockMode.S⟩
      (by decide) (by decide) (by decide)).1.mpr
    ⟨⟨7, LockMode.SHARED, true⟩, by decide, by decide, by decide⟩

end LockAcquireClaims

/-! ### Page-access lemmas -/

namespace RmFile

theorem setPage_file_hdr (f : RmFile) (pno : Int) (pg : PageData) :
    (f.setPage pno pg).file_hdr = f.file_hdr := rfl

theorem setPage_pages_length (f : RmFile) (pno : Int) (pg : PageData) :
    (f.setPage pno pg).pages.length = f.pages.length := by
  unfold setPage
  simp

theorem getPage_isSome_of_eq {f : RmFile} {pno : Int} {pg0 : PageData}
    (h : f.getPage pno = some pg0) :
    RM_FIRST_RECORD_PAGE ≤ pno ∧ (pno - 1).toNat < f.pages.length := by
  unfold getPage at h
  split at h
  · exact absurd h (by simp)
  · rename_i hlt
    refine ⟨not_lt.mp hlt, ?_⟩
    by_contra hge
    rw [List.getElem?_eq_none (by omega)] at h
    exact absurd h (by simp)

theorem getPage_setPage_self {f : RmFile} {pno : Int} {pg0 : PageData} (pg : PageData)
    (h : f.getPage pno = some pg0) : (f.setPage pno pg).getPage pno = some pg := by
  obtain ⟨h1, h2⟩ := getPage_isSome_of_eq h
  unfold getPage setPage at *
  rw [if_neg (by omega)] at *
  simpa using List.getElem?_set_self (by simpa using h2)

theorem getPage_setPage_ne {f : RmFile} {pno p : Int} (pg : PageData)
    (hpno : RM_FIRST_RECORD_PAGE ≤ pno) (hne : p ≠ pno) :
    (f.setPage pno pg).getPage p = f.getPage p := by
  have hpno' : (1 : Int) ≤ pno := hpno
  unfold getPage setPage
  by_cases hp : p < RM_FIRST_RECORD_PAGE
  · rw [if_pos hp, if_pos hp]
  · rw [if_neg hp, if_neg hp]
    have hp' : ¬(p < (1 : Int)) := hp
    simpa using List.getElem?_set_ne (by omega)

theorem fetch_eq_ok {f : RmFile} {pno : Int} {pg : PageData} :
    f.fetch_page_handle pno = .ok pg ↔ f.ValidPage pno ∧ f.getPage pno = some pg := by
  unfold fetch_page_handle ValidPage
  split
  · rename_i h
    constructor
    · intro hh; exact absurd hh (by simp)
    · rintro ⟨⟨hh1, hh2⟩, -⟩
      rcases h with h | h
      · exact absurd hh1 (not_le.mpr h)
      · exact absurd hh2 (not_lt.mpr h)
  · rename_i h
    push_neg at h
    obtain ⟨h1, h2⟩ := h
    cases hg : f.getPage pno with
    | none =>
      constructor
      · intro hh; exact absurd hh (by simp)
      · rintro ⟨-, hh⟩; exact absurd hh (by simp)
    | some pg2 =>
      constructor
      · intro hh
        cases hh
        exact ⟨⟨h1, h2⟩, rfl⟩
      · rintro ⟨-, hh⟩
        cases hh
        rfl

theorem getPage_of_valid {f : RmFile} {pno : Int}
    (hnp : f.file_hdr.num_pages = f.pages.length + 1) (hv : f.ValidPage pno) :
    ∃ pg, f.getPage pno = some pg := by
  obtain ⟨h1, h2⟩ := hv
  have h1' : (1 : Int) ≤ pno := h1
  unfold getPage
  rw [if_neg (by omega)]
  exact ⟨_, List.getElem?_eq_getElem (by omega)⟩

theorem fetch_of_valid {f : RmFile} {pno : Int}
    (hnp : f.file_hdr.num_pages = f.pages.length + 1) (hv : f.ValidPage pno) :
    ∃ pg, f.getPage pno = some pg ∧ f.fetch_page_handle pno = .ok pg := by
  obtain ⟨pg, hpg⟩ := getPage_of_valid hnp hv
  exact ⟨pg, hpg, fetch_eq_ok.mpr ⟨hv, hpg⟩⟩

theorem nextFree_eq {f : RmFile} {pno : Int} {pg : PageData}
    (h : f.getPage pno = some pg) : f.nextFree pno = pg.page_hdr.next_free_page_no := by
  unfold nextFree
  rw [h]
  rfl

theorem numRec_eq {f : RmFile} {pno : Int} {pg : PageData}
    (h : f.getPage pno = some pg) : f.numRec pno = pg.page_hdr.num_records := by
  unfold numRec
  rw [h]
  rfl

theorem pageWF_of_getPage {f : RmFile} {pno : Int} {pg : PageData} (hwf : f.WF)
    (h : f.getPage pno = some pg) :
    pageWF f.file_hdr.record_size f.file_hdr.num_records_per_page pg := by
  apply hwf.2.2.1
  unfold getPage at h
  split at h
  · exact absurd h (by simp)
  · exact List.getElem?_mem h

/-! ### Deciding `WF` on concrete files -/

theorem chainB_sound {f : RmFile} :
    ∀ (fuel : Nat) (p : Int) (l : List Int), f.chainB fuel p = some l → IsChain f p l := by
  intro fuel
  induction fuel with
  | zero =>
    intro p l h
    unfold chainB at h
    split at h
    · rename_i hp
      cases h
      exact hp
    · exact absurd h (by simp)
  | succ fuel ih =>
    intro p l h
    unfold chainB at h
    split at h
    · rename_i hp
      cases h
      exact hp
    · rename_i hp
      split at h
      · rename_i hv
        cases hc : f.chainB fuel (f.nextFree p) with
        | none => rw [hc] at h; exact absurd h (by simp)
        | some rest =>
          rw [hc] at h
          cases h
          exact ⟨rfl, hv, ih _ _ hc⟩
      · exact absurd h (by simp)

theorem WF_of_wfB {f : RmFile} (h : f.wfB = true) : f.WF := by
  unfold wfB at h
  rw [Bool.and_eq_true, Bool.and_eq_true, Bool.and_eq_true] at h
  obtain ⟨⟨⟨h1, h2⟩, h3⟩, h4⟩ := h
  refine ⟨by simpa using h1, by simpa using h2, ?_, ?_⟩
  · intro pg hpg
    have := List.all_eq_true.mp h3 pg hpg
    simpa using this
  · cases hc : f.chainB (f.pages.length + 1) f.file_hdr.first_free_page_no with
    | none => rw [hc] at h4; exact absurd h4 (by simp)
    | some l =>
      rw [hc, Bool.and_eq_true] at h4
      obtain ⟨hnd, hall⟩ := h4
      refine ⟨l, chainB_sound _ _ _ hc, by simpa using hnd, ?_⟩
      intro p hv
      have hnp : f.file_hdr.num_pages = f.pages.length + 1 := by simpa using h2
      obtain ⟨hv1, hv2⟩ := hv
      have hv1' : (1 : Int) ≤ p := hv1
      have hidx : (p - 1).toNat < f.pages.length := by omega
      have hmem : (p - 1).toNat ∈ List.range f.pages.length :=
        List.mem_range.mpr hidx
      have hline := List.all_eq_true.mp hall _ hmem
      rw [Bool.and_eq_true] at hline
      obtain ⟨hiff, himp⟩ := hline
      have hp : (((p - 1).toNat : Int)) + 1 = p := by omega
      rw [hp] at hiff himp
      have hde : decide (f.numRec p < (f.file_hdr.num_records_per_page : Int)) =
          decide (p ∈ l) := beq_iff_eq.mp hiff
      constructor
      · constructor
        · intro hlt
          have hd : decide (p ∈ l) = true := by
            rw [← hde]; exact decide_eq_true hlt
          exact of_decide_eq_true hd
        · intro hmem2
          have hd : decide (f.numRec p < (f.file_hdr.num_records_per_page : Int)) = true := by
            rw [hde]; exact decide_eq_true hmem2
          exact of_decide_eq_true hd
      · intro hnmem
        have hd2 : decide (p ∈ l) = false := decide_eq_false hnmem
        rw [hd2, Bool.false_or] at himp
        exact of_decide_eq_true himp

end RmFile

/-! ### Free-list chain lemmas -/

namespace RmFile

theorem ValidPage_congr {f g : RmFile} (h : g.file_hdr.num_pages = f.file_hdr.num_pages)
    (p : Int) : g.ValidPage p ↔ f.ValidPage p := by
  unfold ValidPage
  rw [h]

theorem IsChain_congr {f g : RmFile} {l : List Int}
    (hnum : g.file_hdr.num_pages = f.file_hdr.num_pages)
    (hnext : ∀ p ∈ l, g.nextFree p = f.nextFree p) :
    ∀ {start : Int}, IsChain f start l → IsChain g start l := by
  induction l with
  | nil => intro start h; exact h
  | cons q rest ih =>
    intro start h
    obtain ⟨heq, hv, hrest⟩ := h
    subst heq
    refine ⟨rfl, (ValidPage_congr hnum start).mpr hv, ?_⟩
    rw [hnext start (List.mem_cons_self _ _)]
    exact ih (fun p hp => hnext p (List.mem_cons_of_mem _ hp)) hrest

theorem IsChain_mem_valid {f : RmFile} {l : List Int} :
    ∀ {start : Int}, IsChain f start l → ∀ p ∈ l, f.ValidPage p := by
  induction l with
  | nil => intro start _ p hp; exact absurd hp (List.not_mem_nil p)
  | cons q rest ih =>
    intro start h p hp
    obtain ⟨heq, hv, hrest⟩ := h
    subst heq
    rcases List.mem_cons.mp hp with rfl | hp'
    · exact hv
    · exact ih hrest p hp'

theorem writeSlot_page_hdr (pg : PageData) (s : Int) (rs : Nat) (buf : List Nat) :
    (writeSlot pg s rs buf).page_hdr = pg.page_hdr := by
  unfold writeSlot; split <;> rfl

theorem writeSlot_bitmap (pg : PageData) (s : Int) (rs : Nat) (buf : List Nat) :
    (writeSlot pg s rs buf).bitmap = pg.bitmap := by
  unfold writeSlot; split <;> rfl

theorem nextFree_setPage {f : RmFile} {pno : Int} {pg0 : PageData} (pg1 : PageData)
    (h : f.getPage pno = some pg0) (p : Int) :
    (f.setPage pno pg1).nextFree p =
      if p = pno then pg1.page_hdr.next_free_page_no else f.nextFree p := by
  obtain ⟨h1, -⟩ := getPage_isSome_of_eq h
  by_cases hp : p = pno
  · subst hp
    rw [if_pos rfl]
    unfold nextFree
    rw [getPage_setPage_self pg1 h]
    rfl
  · rw [if_neg hp]
    unfold nextFree
    rw [getPage_setPage_ne pg1 h1 hp]

theorem numRec_setPage {f : RmFile} {pno : Int} {pg0 : PageData} (pg1 : PageData)
    (h : f.getPage pno = some pg0) (p : Int) :
    (f.setPage pno pg1).numRec p =
      if p = pno then pg1.page_hdr.num_records else f.numRec p := by
  obtain ⟨h1, -⟩ := getPage_isSome_of_eq h
  by_cases hp : p = pno
  · subst hp
    rw [if_pos rfl]
    unfold numRec
    rw [getPage_setPage_self pg1 h]
    rfl
  · rw [if_neg hp]
    unfold numRec
    rw [getPage_setPage_ne pg1 h1 hp]

theorem pageWF_mem_setPage {f : RmFile} {pno : Int} {rs n : Nat} {pg1 : PageData}
    (hall : ∀ pg ∈ f.pages, pageWF rs n pg) (hpg1 : pageWF rs n pg1) :
    ∀ pg ∈ (f.setPage pno pg1).pages, pageWF rs n pg := by
  intro pg hpg
  unfold setPage at hpg
  rcases List.mem_or_eq_of_mem_set hpg with hmem | rfl
  · exact hall pg hmem
  · exact hpg1

/-- The record count of any data page of a well-formed file is at most the
slot count. -/
theorem numRec_le_n {f : RmFile} {p : Int} {pg : PageData} (hwf : f.WF)
    (h : f.getPage p = some pg) :
    pg.page_hdr.num_records ≤ (f.file_hdr.num_records_per_page : Int) := by
  obtain ⟨hbm, -, -, hpc⟩ := pageWF_of_getPage hwf h
  have := Bitmap.popcount_le pg.bitmap
  omega

end RmFile

namespace RmFile

theorem getPage_replace_hdr (f : RmFile) (hdr : RmFileHdr) (p : Int) :
    ({ f with file_hdr := hdr } : RmFile).getPage p = f.getPage p := rfl

theorem nextFree_replace_hdr (f : RmFile) (hdr : RmFileHdr) (p : Int) :
    ({ f with file_hdr := hdr } : RmFile).nextFree p = f.nextFree p := rfl

theorem numRec_replace_hdr (f : RmFile) (hdr : RmFileHdr) (p : Int) :
    ({ f with file_hdr := hdr } : RmFile).numRec p = f.numRec p := rfl

theorem FreeListInv_congr {f g : RmFile}
    (hhdr : g.file_hdr.num_pages = f.file_hdr.num_pages)
    (hff : g.file_hdr.first_free_page_no = f.file_hdr.first_free_page_no)
    (hn : g.file_hdr.num_records_per_page = f.file_hdr.num_records_per_page)
    (hnext : ∀ p, g.nextFree p = f.nextFree p)
    (hnr : ∀ p, g.numRec p = f.numRec p)
    (hinv : FreeListInv f) : FreeListInv g := by
  obtain ⟨l, hch, hnd, hiff⟩ := hinv
  refine ⟨l, ?_, hnd, ?_⟩
  · rw [hff]
    exact IsChain_congr hhdr (fun p _ => hnext p) hch
  · intro p hv
    have hv' := (ValidPage_congr hhdr p).mp hv
    obtain ⟨h1, h2⟩ := hiff p hv'
    exact ⟨by rw [hnr, hn]; exact h1, fun hm => by rw [hnext]; exact h2 hm⟩

theorem pageWF_writeSlot {rs n : Nat} {pg : PageData} (s : Int) (buf : List Nat)
    (hwf : pageWF rs n pg) (hbuf : buf.length = rs) :
    pageWF rs n (writeSlot pg s rs buf) := by
  obtain ⟨h1, h2, h3, h4⟩ := hwf
  unfold writeSlot
  split
  · exact ⟨h1, h2, h3, h4⟩
  · refine ⟨h1, by simpa using h2, ?_, h4⟩
    intro x hx
    rcases List.mem_or_eq_of_mem_set hx with hmem | rfl
    · exact h3 x hmem
    · simp [hbuf]

theorem update_record_WF {f : RmFile} {rid : Rid} {buf : List Nat} {f' : RmFile}
    (hwf : f.WF) (hbuf : buf.length = f.file_hdr.record_size)
    (h : f.update_record rid buf = .ok f') : f'.WF := by
  unfold update_record at h
  cases hf : f.fetch_page_handle rid.page_no with
  | error e => rw [hf] at h; exact absurd h (by simp)
  | ok pg =>
    rw [hf] at h
    dsimp only at h
    obtain ⟨hv, hget⟩ := fetch_eq_ok.mp hf
    by_cases hset : Bitmap.is_set pg.bitmap rid.slot_no = true
    · rw [if_pos hset] at h
      cases h
      set pg1 := writeSlot pg rid.slot_no f.file_hdr.record_size buf with hpg1
      have hhdr1 : pg1.page_hdr = pg.page_hdr := writeSlot_page_hdr ..
      have hnext : ∀ p, (f.setPage rid.page_no pg1).nextFree p = f.nextFree p := by
        intro p
        rw [nextFree_setPage pg1 hget p]
        split
        · rename_i hp
          subst hp
          rw [hhdr1, nextFree_eq hget]
        · rfl
      have hnr : ∀ p, (f.setPage rid.page_no pg1).numRec p = f.numRec p := by
        intro p
        rw [numRec_setPage pg1 hget p]
        split
        · rename_i hp
          subst hp
          rw [hhdr1, numRec_eq hget]
        · rfl
      refine ⟨hwf.1, ?_, ?_, ?_⟩
      · rw [setPage_file_hdr, setPage_pages_length]
        exact hwf.2.1
      · rw [setPage_file_hdr]
        exact pageWF_mem_setPage hwf.2.2.1
          (pageWF_writeSlot _ _ (pageWF_of_getPage hwf hget) hbuf)
      · exact FreeListInv_congr (f := f) (g := f.setPage rid.page_no pg1)
          rfl rfl rfl hnext hnr hwf.2.2.2
    · rw [if_neg hset] at h
      exact absurd h (by simp)

theorem delete_record_WF {f : RmFile} {rid : Rid} {f' : RmFile}
    (hwf : f.WF) (h : f.delete_record rid = .ok f') : f'.WF := by
  unfold delete_record at h
  cases hf : f.fetch_page_handle rid.page_no with
  | error e => rw [hf] at h; exact absurd h (by simp)
  | ok pg =>
    rw [hf] at h
    dsimp only at h
    obtain ⟨hv, hget⟩ := fetch_eq_ok.mp hf
    by_cases hset : Bitmap.is_set pg.bitmap rid.slot_no = true
    case neg => rw [if_neg hset] at h; exact absurd h (by simp)
    rw [if_pos hset] at h
    obtain ⟨l, hch, hnd, hiff⟩ := hwf.2.2.2
    obtain ⟨hbm, hsl, hsll, hpc⟩ := pageWF_of_getPage hwf hget
    have hpcr := Bitmap.popcount_reset hset
    set n := f.file_hdr.num_records_per_page with hn
    set pno := rid.page_no with hpno
    set pg1 : PageData :=
      { pg with bitmap := Bitmap.reset pg.bitmap rid.slot_no,
                page_hdr := { pg.page_hdr with
                  num_records := pg.page_hdr.num_records - 1 } } with hpg1
    have hpg1WF : pageWF f.file_hdr.record_size n pg1 := by
      refine ⟨by simpa [hpg1, Bitmap.length_reset] using hbm, hsl, hsll, ?_⟩
      simp only [hpg1]
      omega
    have hget1 : (f.setPage pno pg1).getPage pno = some pg1 := getPage_setPage_self pg1 hget
    have hnumrec : f.numRec pno = pg.page_hdr.num_records := numRec_eq hget
    have hnextf : f.nextFree pno = pg.page_hdr.next_free_page_no := nextFree_eq hget
    by_cases hfull : pg.page_hdr.num_records = (n : Int)
    · -- the page was full: it re-enters the free list at the head
      rw [if_pos hfull] at h
      -- the full page was not on the free list and its next pointer is the sentinel
      have hnotmem : pno ∉ l := by
        intro hmem
        have := ((hiff pno hv).1).mpr hmem
        omega
      have hnopage : f.nextFree pno = RM_NO_PAGE := (hiff pno hv).2 hnotmem
      have hrel : (f.setPage pno pg1).release_page_handle pno =
          { (f.setPage pno pg1).setPage pno
              { pg1 with page_hdr := { pg1.page_hdr with
                  next_free_page_no := f.file_hdr.first_free_page_no } } with
            file_hdr := { f.file_hdr with first_free_page_no := pno } } := by
        unfold release_page_handle
        rw [hget1]
        rfl
      rw [hrel] at h
      cases h
      set pg2 : PageData :=
        { pg1 with page_hdr := { pg1.page_hdr with
            next_free_page_no := f.file_hdr.first_free_page_no } } with hpg2
      have hget2 : ((f.setPage pno pg1).setPage pno pg2).getPage pno = some pg2 :=
        getPage_setPage_self pg2 hget1
      have hgetother : ∀ p, p ≠ pno →
          ((f.setPage pno pg1).setPage pno pg2).getPage p = f.getPage p := by
        intro p hp
        rw [getPage_setPage_ne pg2 hv.1 hp, getPage_setPage_ne pg1 hv.1 hp]
      refine ⟨hwf.1, ?_, ?_, ?_⟩
      · show f.file_hdr.num_pages = (((f.setPage pno pg1).setPage pno pg2).pages).length + 1
        rw [setPage_pages_length, setPage_pages_length]
        exact hwf.2.1
      · intro pgx hpgx
        have hpgx2 : pgx ∈ ((f.setPage pno pg1).setPage pno pg2).pages := hpgx
        show pageWF f.file_hdr.record_size n pgx
        exact pageWF_mem_setPage (pageWF_mem_setPage hwf.2.2.1 hpg1WF)
          (by exact ⟨hpg1WF.1, hpg1WF.2.1, hpg1WF.2.2.1, hpg1WF.2.2.2⟩) pgx hpgx2
      · refine ⟨pno :: l, ?_, List.nodup_cons.mpr ⟨hnotmem, hnd⟩, ?_⟩
        · refine ⟨rfl, hv, ?_⟩
          have hnf2 : RmFile.nextFree
              { (f.setPage pno pg1).setPage pno pg2 with
                file_hdr := { f.file_hdr with first_free_page_no := pno } } pno =
              f.file_hdr.first_free_page_no := by
            rw [nextFree_replace_hdr, nextFree_eq hget2]
          rw [hnf2]
          refine IsChain_congr ?_ ?_ hch
          · rfl
          · intro p hp
            have hpne : p ≠ pno := fun he => hnotmem (he ▸ hp)
            rw [nextFree_replace_hdr]
            unfold nextFree
            rw [hgetother p hpne]
        · intro p hvp
          have hvp' : f.ValidPage p := hvp
          by_cases hp : p = pno
          · subst hp
            constructor
            · constructor
              · intro _; exact List.mem_cons_self _ _
              · intro _
                rw [numRec_replace_hdr, numRec_eq hget2]
                show pg1.page_hdr.num_records < (n : Int)
                simp only [hpg1]
                have hn1 : 1 ≤ n := hwf.1
                omega
            · intro hm; exact absurd (List.mem_cons_self _ _) hm
          · obtain ⟨h1, h2⟩ := hiff p hvp'
            have hnx : RmFile.numRec
                { (f.setPage pno pg1).setPage pno pg2 with
                  file_hdr := { f.file_hdr with first_free_page_no := pno } } p =
                f.numRec p := by
              rw [numRec_replace_hdr]
              unfold numRec
              rw [hgetother p hp]
            have hnf : RmFile.nextFree
                { (f.setPage pno pg1).setPage pno pg2 with
                  file_hdr := { f.file_hdr with first_free_page_no := pno } } p =
                f.nextFree p := by
              rw [nextFree_replace_hdr]
              unfold nextFree
              rw [hgetother p hp]
            constructor
            · rw [hnx]
              constructor
              · intro hlt; exact List.mem_cons_of_mem _ (h1.mp hlt)
              · intro hm
                rcases List.mem_cons.mp hm with he | hm'
                · exact absurd he hp
                · exact h1.mpr hm'
            · intro hm
              rw [hnf]
              exact h2 (fun hm2 => hm (List.mem_cons_of_mem _ hm2))
    · -- the page was not full: the free list is unchanged
      rw [if_neg hfull] at h
      cases h
      have hmem : pno ∈ l := by
        refine (hiff pno hv).1.mp ?_
        have := numRec_le_n hwf hget
        omega
      refine ⟨hwf.1, ?_, ?_, ?_⟩
      · simpa [setPage_file_hdr, setPage_pages_length] using hwf.2.1
      · simp only [setPage_file_hdr]
        exact pageWF_mem_setPage hwf.2.2.1 hpg1WF
      · refine ⟨l, ?_, hnd, ?_⟩
        · refine IsChain_congr ?_ ?_ hch
          · rfl
          · intro p hp
            rw [nextFree_setPage pg1 hget p]
            split
            · rename_i he
              subst he
              rw [hnextf]
            · rfl
        · intro p hvp
          have hvp' : f.ValidPage p := hvp
          obtain ⟨h1, h2⟩ := hiff p hvp'
          have hnx : (f.setPage pno pg1).numRec p =
              if p = pno then pg1.page_hdr.num_records else f.numRec p :=
            numRec_setPage pg1 hget p
          have hnf : (f.setPage pno pg1).nextFree p =
              if p = pno then pg1.page_hdr.next_free_page_no else f.nextFree p :=
            nextFree_setPage pg1 hget p
          by_cases hp : p = pno
          · subst hp
            rw [hnx, if_pos rfl]
            constructor
            · constructor
              · intro _; exact hmem
              · intro _
                rw [setPage_file_hdr]
                simp only [hpg1]
                have := numRec_le_n hwf hget
                omega
            · intro hm; exact absurd hmem hm
          · rw [hnx, if_neg hp]
            refine ⟨h1, fun hm => ?_⟩
            rw [hnf, if_neg hp]
            exact h2 hm

end RmFile

namespace RmFile

theorem ValidPage_of_getPage {f : RmFile} {pno : Int} {pg : PageData}
    (hnp : f.file_hdr.num_pages = f.pages.length + 1)
    (h : f.getPage pno = some pg) : f.ValidPage pno := by
  obtain ⟨h1, h2⟩ := getPage_isSome_of_eq h
  have h1' : (1 : Int) ≤ pno := h1
  exact ⟨h1, by omega⟩

theorem IsChain_head_eq {f : RmFile} {start : Int} {l : List Int}
    (h : IsChain f start l) (hs : start ≠ RM_NO_PAGE) :
    ∃ rest, l = start :: rest ∧ f.ValidPage start ∧
      IsChain f (f.nextFree start) rest := by
  cases l with
  | nil => exact absurd h hs
  | cons q rest =>
    obtain ⟨heq, hv, hrest⟩ := h
    subst heq
    exact ⟨rest, rfl, hv, hrest⟩

theorem is_set_first_bit_false {bm : List Bool} {n : Nat}
    (h : Bitmap.first_bit false bm n < (n : Int)) :
    Bitmap.is_set bm (Bitmap.first_bit false bm n) = false := by
  have h0 := Bitmap.first_bit_nonneg false bm n
  unfold Bitmap.is_set
  rw [if_neg (by omega)]
  unfold Bitmap.first_bit Bitmap.next_bit at h ⊢
  exact Bitmap.scan_from_hit h

/-- The page returned by `create_page_handle` on a well-formed file: the
resulting file is well-formed, keeps the record geometry, its free list is
headed by the returned page, and that page has spare capacity. -/
theorem create_page_handle_spec {f f1 : RmFile} {pno : Int} (hwf : f.WF)
    (h : f.create_page_handle = .ok (f1, pno)) :
    f1.WF ∧
    f1.file_hdr.record_size = f.file_hdr.record_size ∧
    f1.file_hdr.num_records_per_page = f.file_hdr.num_records_per_page ∧
    f1.file_hdr.first_free_page_no = pno ∧
    ∃ pg, f1.getPage pno = some pg ∧
      Bitmap.popcount pg.bitmap < f.file_hdr.num_records_per_page := by
  have hnp := hwf.2.1
  have hn1 : 1 ≤ f.file_hdr.num_records_per_page := hwf.1
  have hfr : RM_FIRST_RECORD_PAGE = (1 : Int) := rfl
  have hnpg : RM_NO_PAGE = (-1 : Int) := rfl
  unfold create_page_handle at h
  by_cases hff : f.file_hdr.first_free_page_no = RM_NO_PAGE
  · rw [if_pos hff] at h
    dsimp only [create_new_page_handle] at h
    set newpg : PageData :=
      { page_hdr := { num_records := 0,
                      next_free_page_no := f.file_hdr.first_free_page_no },
        bitmap := Bitmap.init f.file_hdr.num_records_per_page,
        slots := List.replicate f.file_hdr.num_records_per_page
          (List.replicate f.file_hdr.record_size 0) } with hnewpg
    set g : RmFile :=
      { file_hdr := { f.file_hdr with
          first_free_page_no := f.file_hdr.num_pages,
          num_pages := f.file_hdr.num_pages + 1 },
        pages := f.pages ++ [newpg] } with hg
    have hgetnew : g.getPage f.file_hdr.num_pages = some newpg := by
      unfold getPage
      rw [if_neg (by omega)]
      have hidx : (f.file_hdr.num_pages - 1).toNat = f.pages.length := by omega
      rw [hg, hidx]
      simp
    have hgetold : ∀ p, p ≠ f.file_hdr.num_pages → g.getPage p = f.getPage p := by
      intro p hp
      unfold getPage
      by_cases hp1 : p < RM_FIRST_RECORD_PAGE
      · rw [if_pos hp1, if_pos hp1]
      · rw [if_neg hp1, if_neg hp1]
        have hp1' : ¬(p < (1 : Int)) := hp1
        rw [hg]
        show (f.pages ++ [newpg])[(p - 1).toNat]? = f.pages[(p - 1).toNat]?
        rw [List.getElem?_append]
        by_cases hlt : (p - 1).toNat < f.pages.length
        · rw [if_pos hlt]
        · rw [if_neg hlt,
            List.getElem?_eq_none (show f.pages.length ≤ (p - 1).toNat by omega),
            List.getElem?_eq_none (show ([newpg] : List PageData).length ≤
              (p - 1).toNat - f.pages.length by
                simp only [List.length_cons, List.length_nil]
                omega)]
    have hfetch : g.fetch_page_handle f.file_hdr.num_pages = .ok newpg := by
      refine fetch_eq_ok.mpr ⟨⟨by omega, ?_⟩, hgetnew⟩
      show f.file_hdr.num_pages < g.file_hdr.num_pages
      rw [hg]
      show f.file_hdr.num_pages < f.file_hdr.num_pages + 1
      omega
    rw [hfetch] at h
    dsimp only at h
    have hf1 : g = f1 := congrArg Prod.fst (Except.ok.inj h)
    have hpno : f.file_hdr.num_pages = pno := congrArg Prod.snd (Except.ok.inj h)
    subst hf1
    subst hpno
    obtain ⟨l, hch, hnd, hiff⟩ := hwf.2.2.2
    rw [hff] at hch
    have hlnil : l = [] := by
      cases l with
      | nil => rfl
      | cons q rest =>
        obtain ⟨heq, hv, -⟩ := hch
        have : (1 : Int) ≤ q := hv.1
        omega
    subst hlnil
    have hgn : g.file_hdr.num_records_per_page = f.file_hdr.num_records_per_page := rfl
    have hpc0 : Bitmap.popcount newpg.bitmap = 0 := by
      rw [hnewpg]
      show Bitmap.popcount (Bitmap.init f.file_hdr.num_records_per_page) = 0
      unfold Bitmap.popcount Bitmap.init
      simp [List.count_replicate]
    have hnewWF : pageWF f.file_hdr.record_size f.file_hdr.num_records_per_page newpg := by
      refine ⟨by simp [hnewpg, Bitmap.init], by simp [hnewpg], ?_, ?_⟩
      · intro s hs
        rw [hnewpg] at hs
        simp only [List.mem_replicate] at hs
        rw [hs.2]
        simp
      · rw [hpc0]
        rfl
    refine ⟨⟨hn1, ?_, ?_, ?_⟩, rfl, rfl, rfl, newpg, hgetnew, ?_⟩
    · show f.file_hdr.num_pages + 1 = (f.pages ++ [newpg]).length + 1
      simp only [List.length_append, List.length_cons, List.length_nil]
      omega
    · intro pg hpg
      rw [hg] at hpg
      rcases List.mem_append.mp hpg with hmem | hmem
      · exact hwf.2.2.1 pg hmem
      · rw [List.mem_singleton.mp hmem]
        exact hnewWF
    · refine ⟨[f.file_hdr.num_pages], ⟨rfl, ⟨by omega, by show _ < f.file_hdr.num_pages + 1; omega⟩, ?_⟩,
        List.nodup_singleton _, ?_⟩
      · rw [nextFree_eq hgetnew]
        show newpg.page_hdr.next_free_page_no = RM_NO_PAGE
        rw [hnewpg]
        exact hff
      · intro p hvp
        by_cases hp : p = f.file_hdr.num_pages
        · subst hp
          constructor
          · constructor
            · intro _; exact List.mem_singleton.mpr rfl
            · intro _
              rw [numRec_eq hgetnew]
              show (0 : Int) < f.file_hdr.num_records_per_page
              omega
          · intro hm
            exact absurd (List.mem_singleton.mpr rfl) hm
        · have hvf : f.ValidPage p := by
            obtain ⟨hv1, hv2⟩ := hvp
            have hv2' : p < f.file_hdr.num_pages + 1 := hv2
            exact ⟨hv1, by have hv1' : (1:Int) ≤ p := hv1; omega⟩
          obtain ⟨h1, h2⟩ := hiff p hvf
          have hnr : g.numRec p = f.numRec p := by
            unfold numRec; rw [hgetold p hp]
          have hnf : g.nextFree p = f.nextFree p := by
            unfold nextFree; rw [hgetold p hp]
          constructor
          · rw [hnr]
            constructor
            · intro hlt
              exact absurd (h1.mp hlt) (List.not_mem_nil p)
            · intro hm
              exact absurd (List.mem_singleton.mp hm) hp
          · intro _
            rw [hnf]
            exact h2 (List.not_mem_nil p)
    · rw [hpc0]
      exact hn1
  · rw [if_neg hff] at h
    obtain ⟨l, hch, hnd, hiff⟩ := hwf.2.2.2
    obtain ⟨rest, hl, hv, hrest⟩ := IsChain_head_eq hch hff
    obtain ⟨pg, hget, hfetch⟩ := fetch_of_valid hnp hv
    rw [hfetch] at h
    cases h
    refine ⟨hwf, rfl, rfl, rfl, pg, hget, ?_⟩
    have hmem : f.file_hdr.first_free_page_no ∈ l := by
      rw [hl]; exact List.mem_cons_self _ _
    have hlt := (hiff _ hv).1.mpr hmem
    rw [numRec_eq hget] at hlt
    obtain ⟨-, -, -, hpc⟩ := pageWF_of_getPage hwf hget
    omega

end RmFile

namespace RmFile

theorem insert_record_WF {f : RmFile} {buf : List Nat} {f' : RmFile} {rid : Rid}
    (hwf : f.WF) (hbuf : buf.length = f.file_hdr.record_size)
    (h : f.insert_record buf = .ok (f', rid)) : f'.WF := by
  have hfr : RM_FIRST_RECORD_PAGE = (1 : Int) := rfl
  have hnpg : RM_NO_PAGE = (-1 : Int) := rfl
  unfold insert_record at h
  cases hcp : f.create_page_handle with
  | error e => rw [hcp] at h; exact absurd h (by simp)
  | ok fp =>
    obtain ⟨f1, pno⟩ := fp
    rw [hcp] at h
    dsimp only at h
    obtain ⟨hwf1, hrs, hn, hff1, pg0, hget0, hpc0⟩ := create_page_handle_spec hwf hcp
    have hnp1 := hwf1.2.1
    have hn1 : 1 ≤ f1.file_hdr.num_records_per_page := hwf1.1
    have hvalid : f1.ValidPage pno := ValidPage_of_getPage hnp1 hget0
    have hfetch : f1.fetch_page_handle pno = .ok pg0 := fetch_eq_ok.mpr ⟨hvalid, hget0⟩
    rw [hfetch] at h
    dsimp only at h
    obtain ⟨hbm0, hsl0, hsll0, hpcn0⟩ := pageWF_of_getPage hwf1 hget0
    have hpc0' : Bitmap.popcount pg0.bitmap < f1.file_hdr.num_records_per_page := by
      rw [hn]; exact hpc0
    have hslot_lt : Bitmap.first_bit false pg0.bitmap f1.file_hdr.num_records_per_page <
        (f1.file_hdr.num_records_per_page : Int) :=
      Bitmap.first_bit_lt_of_popcount_lt hbm0 hpc0'
    have hslot_ge : 0 ≤ Bitmap.first_bit false pg0.bitmap f1.file_hdr.num_records_per_page :=
      Bitmap.first_bit_nonneg _ _ _
    have hsetf : Bitmap.is_set pg0.bitmap
        (Bitmap.first_bit false pg0.bitmap f1.file_hdr.num_records_per_page) = false :=
      is_set_first_bit_false hslot_lt
    rw [if_neg (by omega)] at h
    set slot := Bitmap.first_bit false pg0.bitmap f1.file_hdr.num_records_per_page with hslot
    set pg1 : PageData :=
      { writeSlot pg0 slot f1.file_hdr.record_size buf with
          bitmap := Bitmap.set pg0.bitmap slot,
          page_hdr := { pg0.page_hdr with
            num_records := pg0.page_hdr.num_records + 1 } } with hpg1
    have hbuf1 : buf.length = f1.file_hdr.record_size := by rw [hrs]; exact hbuf
    have hwWF := @pageWF_writeSlot f1.file_hdr.record_size
      f1.file_hdr.num_records_per_page _ slot buf ⟨hbm0, hsl0, hsll0, hpcn0⟩ hbuf1
    have hpg1WF : pageWF f1.file_hdr.record_size f1.file_hdr.num_records_per_page pg1 := by
      refine ⟨?_, hwWF.2.1, hwWF.2.2.1, ?_⟩
      · show (Bitmap.set pg0.bitmap slot).length = _
        rw [Bitmap.length_set]
        exact hbm0
      · show (Bitmap.popcount (Bitmap.set pg0.bitmap slot) : Int) =
          pg0.page_hdr.num_records + 1
        rw [Bitmap.popcount_set hslot_ge (by omega) hsetf]
        push_cast
        omega
    have hpg1hdr : pg1.page_hdr.next_free_page_no = pg0.page_hdr.next_free_page_no := rfl
    have hpg1num : pg1.page_hdr.num_records = pg0.page_hdr.num_records + 1 := rfl
    have hget1 : (f1.setPage pno pg1).getPage pno = some pg1 := getPage_setPage_self pg1 hget0
    obtain ⟨l1, hch1, hnd1, hiff1⟩ := hwf1.2.2.2
    have hmem1 : pno ∈ l1 := by
      refine (hiff1 pno hvalid).1.mp ?_
      rw [numRec_eq hget0]
      omega
    by_cases hfull : pg1.page_hdr.num_records = (f1.file_hdr.num_records_per_page : Int)
    · rw [if_pos hfull] at h
      cases h
      -- the page just became full: it is spliced off the head of the free list
      rw [hff1] at hch1
      obtain ⟨rest, hl1, -, hrest⟩ := IsChain_head_eq hch1 (by
        intro he
        have : (1 : Int) ≤ pno := hvalid.1
        omega)
      have hnotrest : pno ∉ rest := by
        rw [hl1] at hnd1
        exact (List.nodup_cons.mp hnd1).1
      set pg3 : PageData :=
        { pg1 with page_hdr := { pg1.page_hdr with
            next_free_page_no := RM_NO_PAGE } } with hpg3
      set f3 : RmFile :=
        { f1.setPage pno pg1 with file_hdr := { (f1.setPage pno pg1).file_hdr with
            first_free_page_no := pg1.page_hdr.next_free_page_no } } with hf3
      have hget3 : f3.getPage pno = some pg1 := hget1
      have hget4 : (f3.setPage pno pg3).getPage pno = some pg3 :=
        getPage_setPage_self pg3 hget3
      have hgetother : ∀ p, p ≠ pno → (f3.setPage pno pg3).getPage p = f1.getPage p := by
        intro p hp
        rw [getPage_setPage_ne pg3 hvalid.1 hp]
        show (f1.setPage pno pg1).getPage p = f1.getPage p
        rw [getPage_setPage_ne pg1 hvalid.1 hp]
      have hpg3WF : pageWF f1.file_hdr.record_size f1.file_hdr.num_records_per_page pg3 :=
        ⟨hpg1WF.1, hpg1WF.2.1, hpg1WF.2.2.1, hpg1WF.2.2.2⟩
      refine ⟨hn1, ?_, ?_, ?_⟩
      · have hlen : ((f3.setPage pno pg3).pages).length = f1.pages.length := by
          rw [setPage_pages_length]
          show ((f1.setPage pno pg1).pages).length = f1.pages.length
          rw [setPage_pages_length]
        show f1.file_hdr.num_pages = ((f3.setPage pno pg3).pages).length + 1
        rw [hlen]
        exact hnp1
      · intro pgx hpgx
        have hpgx2 : pgx ∈ ((f1.setPage pno pg1).setPage pno pg3).pages := hpgx
        show pageWF f1.file_hdr.record_size f1.file_hdr.num_records_per_page pgx
        exact pageWF_mem_setPage (pageWF_mem_setPage hwf1.2.2.1 hpg1WF) hpg3WF pgx hpgx2
      · refine ⟨rest, ?_, (List.nodup_cons.mp (hl1 ▸ hnd1)).2, ?_⟩
        · show IsChain _ pg1.page_hdr.next_free_page_no rest
          rw [hpg1hdr, ← nextFree_eq hget0]
          refine IsChain_congr ?_ ?_ hrest
          · rfl
          · intro p hp
            have hpne : p ≠ pno := fun he => hnotrest (he ▸ hp)
            unfold nextFree
            rw [hgetother p hpne]
        · intro p hvp
          have hvp1 : f1.ValidPage p := hvp
          by_cases hp : p = pno
          · subst hp
            refine ⟨⟨fun hlt => absurd hlt ?_, fun hm => absurd hm hnotrest⟩, fun _ => ?_⟩
            · rw [numRec_eq hget4]
              show ¬(pg1.page_hdr.num_records < (f1.file_hdr.num_records_per_page : Int))
              omega
            · rw [nextFree_eq hget4]
          · obtain ⟨h1, h2⟩ := hiff1 p hvp1
            have hnr : (f3.setPage pno pg3).numRec p = f1.numRec p := by
              unfold numRec; rw [hgetother p hp]
            have hnf : (f3.setPage pno pg3).nextFree p = f1.nextFree p := by
              unfold nextFree; rw [hgetother p hp]
            refine ⟨?_, fun hm => ?_⟩
            · rw [hnr]
              constructor
              · intro hlt
                have := h1.mp hlt
                rw [hl1] at this
                rcases List.mem_cons.mp this with he | hm'
                · exact absurd he hp
                · exact hm'
              · intro hm
                exact h1.mpr (hl1 ▸ List.mem_cons_of_mem _ hm)
            · rw [hnf]
              refine h2 ?_
              rw [hl1]
              intro hmem
              rcases List.mem_cons.mp hmem with he | hm'
              · exact hp he
              · exact hm hm'
    · rw [if_neg hfull] at h
      cases h
      -- the page still has spare slots: the free list is unchanged
      refine ⟨hn1, ?_, ?_, ?_⟩
      · show f1.file_hdr.num_pages = ((f1.setPage pno pg1).pages).length + 1
        rw [setPage_pages_length]
        exact hnp1
      · intro pgx hpgx
        show pageWF f1.file_hdr.record_size f1.file_hdr.num_records_per_page pgx
        exact pageWF_mem_setPage hwf1.2.2.1 hpg1WF pgx hpgx
      · refine ⟨l1, ?_, hnd1, ?_⟩
        · refine IsChain_congr ?_ ?_ hch1
          · rfl
          · intro p hp
            rw [nextFree_setPage pg1 hget0 p]
            split
            · rename_i he
              subst he
              rw [hpg1hdr, nextFree_eq hget0]
            · rfl
        · intro p hvp
          have hvp1 : f1.ValidPage p := hvp
          obtain ⟨h1, h2⟩ := hiff1 p hvp1
          have hnr := numRec_setPage pg1 hget0 p
          have hnf := nextFree_setPage pg1 hget0 p
          by_cases hp : p = pno
          · subst hp
            rw [hnr, if_pos rfl]
            refine ⟨⟨fun _ => hmem1, fun _ => ?_⟩, fun hm => absurd hmem1 hm⟩
            rw [setPage_file_hdr]
            have hle : (Bitmap.popcount pg1.bitmap : Int) ≤
                (f1.file_hdr.num_records_per_page : Int) := by
              have h1 := Bitmap.popcount_le pg1.bitmap
              have h2 := hpg1WF.1
              exact_mod_cast h1.trans_eq (by rw [h2])
            have := hpg1WF.2.2.2
            omega
          · rw [hnr, if_neg hp]
            refine ⟨h1, fun hm => ?_⟩
            rw [hnf, if_neg hp]
            exact h2 hm

end RmFile

namespace RmFile

/-- A duplicate-free free-list chain cannot be longer than the number of
data pages. -/
theorem chain_length_le {f : RmFile} {l : List Int} {start : Int}
    (hch : IsChain f start l) (hnd : l.Nodup)
    (hnp : f.file_hdr.num_pages = f.pages.length + 1) :
    l.length ≤ f.pages.length := by
  have hsub : l.toFinset ⊆ Finset.Ico (1 : Int) f.file_hdr.num_pages := by
    intro p hp
    have hv := IsChain_mem_valid hch p (List.mem_toFinset.mp hp)
    exact Finset.mem_Ico.mpr ⟨hv.1, hv.2⟩
  have h1 := Finset.card_le_card hsub
  rw [List.toFinset_card_of_nodup hnd, Int.card_Ico] at h1
  omega

/-- The free-list walk of the explicit-Rid insert: when `target` sits on the
duplicate-free chain from `start`, but not at its head, the walk finds the
unique predecessor `prev` of `target`, redirects its `next_free_page_no` to
`target`'s successor, and the chain with `target` removed is a chain of the
resulting file. -/
theorem unlink_from_spec {f1 : RmFile} {target : Int}
    (hnp : f1.file_hdr.num_pages = f1.pages.length + 1) :
    ∀ (l : List Int) (start : Int) (fuel : Nat),
      IsChain f1 start l → l.Nodup → target ∈ l → start ≠ target →
      l.length ≤ fuel →
      ∃ prev pgp, prev ∈ l ∧ prev ≠ target ∧ f1.getPage prev = some pgp ∧
        pgp.page_hdr.next_free_page_no = target ∧
        f1.unlink_from target fuel start =
          .ok (f1.setPage prev { pgp with page_hdr := { pgp.page_hdr with
            next_free_page_no := f1.nextFree target } }) ∧
        IsChain (f1.setPage prev { pgp with page_hdr := { pgp.page_hdr with
            next_free_page_no := f1.nextFree target } }) start (l.erase target) := by
  intro l
  induction l with
  | nil => intro start fuel _ _ hmem _ _; exact absurd hmem (List.not_mem_nil _)
  | cons q rest ih =>
    intro start fuel hch hnd hmem hne hfuel
    obtain ⟨heq, hv, hrest⟩ := hch
    subst heq
    have hqne : start ≠ target := hne
    have hmem' : target ∈ rest := by
      rcases List.mem_cons.mp hmem with he | hm
      · exact absurd he.symm hqne
      · exact hm
    obtain ⟨fuel1, rfl⟩ : ∃ fuel1, fuel = fuel1 + 1 := by
      cases fuel with
      | zero => simp at hfuel
      | succ fuel1 => exact ⟨fuel1, rfl⟩
    obtain ⟨pgq, hgetq, hfetchq⟩ := fetch_of_valid hnp hv
    have hstart1 : (1 : Int) ≤ start := hv.1
    have hnpg : RM_NO_PAGE = (-1 : Int) := rfl
    have hnf : f1.nextFree start = pgq.page_hdr.next_free_page_no := nextFree_eq hgetq
    have hrest' : IsChain f1 pgq.page_hdr.next_free_page_no rest := hnf ▸ hrest
    have hstartnotrest : start ∉ rest := (List.nodup_cons.mp hnd).1
    by_cases hqt : pgq.page_hdr.next_free_page_no = target
    · -- `start` is the predecessor: splice here
      have hrt : IsChain f1 target rest := hqt ▸ hrest'
      have hvt : f1.ValidPage target := IsChain_mem_valid hrt target hmem'
      obtain ⟨l2, hl2eq, -, hl2⟩ := IsChain_head_eq hrt (by
        have h1 : (1 : Int) ≤ target := hvt.1
        omega)
      have herase : ((start :: rest).erase target) = start :: l2 := by
        rw [hl2eq, List.erase_cons_tail, List.erase_cons_head]
        simp [hqne]
      have hstartnotl2 : start ∉ l2 := by
        intro hmem2
        exact hstartnotrest (hl2eq ▸ List.mem_cons_of_mem _ hmem2)
      refine ⟨start, pgq, List.mem_cons_self _ _, hqne, hgetq, hqt, ?_, ?_⟩
      · unfold unlink_from
        rw [if_neg (by omega), hfetchq]
        dsimp only
        rw [if_pos hqt]
      · rw [herase]
        set pgq1 : PageData := { pgq with page_hdr := { pgq.page_hdr with
          next_free_page_no := f1.nextFree target } } with hpgq1
        have hgetq1 : (f1.setPage start pgq1).getPage start = some pgq1 :=
          getPage_setPage_self pgq1 hgetq
        refine ⟨rfl, hv, ?_⟩
        rw [nextFree_eq hgetq1]
        show IsChain _ (f1.nextFree target) l2
        refine IsChain_congr ?_ ?_ hl2
        · rfl
        · intro p hp
          have hpne : p ≠ start := fun he => hstartnotl2 (he ▸ hp)
          unfold nextFree
          rw [getPage_setPage_ne pgq1 hv.1 hpne]
    · -- keep walking: the predecessor is further down the chain
      obtain ⟨prev, pgp, hprevmem, hprevne, hgetp, hpnext, heq, hchain⟩ :=
        ih pgq.page_hdr.next_free_page_no fuel1 hrest' (List.nodup_cons.mp hnd).2
          hmem' hqt (by simpa using Nat.succ_le_succ_iff.mp hfuel)
      have hprevne2 : start ≠ prev := fun he => hstartnotrest (he ▸ hprevmem)
      refine ⟨prev, pgp, List.mem_cons_of_mem _ hprevmem, hprevne, hgetp, hpnext, ?_, ?_⟩
      · unfold unlink_from
        rw [if_neg (by omega), hfetchq]
        dsimp only
        rw [if_neg hqt]
        exact heq
      · have herase : ((start :: rest).erase target) = start :: rest.erase target := by
          rw [List.erase_cons_tail]
          simp [hqne]
        rw [herase]
        refine ⟨rfl, hv, ?_⟩
        have hgets : (f1.setPage prev { pgp with page_hdr := { pgp.page_hdr with
            next_free_page_no := f1.nextFree target } }).getPage start = some pgq := by
          rw [getPage_setPage_ne _ (IsChain_mem_valid hrest' prev hprevmem).1 hprevne2]
          exact hgetq
        rw [nextFree_eq hgets]
        exact hchain

end RmFile

namespace RmFile

theorem insert_record_rid_WF {f : RmFile} {rid : Rid} {buf : List Nat} {f' : RmFile}
    (hwf : f.WF) (hbuf : buf.length = f.file_hdr.record_size)
    (hs0 : 0 ≤ rid.slot_no)
    (hsn : rid.slot_no < (f.file_hdr.num_records_per_page : Int))
    (h : f.insert_record_rid rid buf = .ok f') : f'.WF := by
  have hfr : RM_FIRST_RECORD_PAGE = (1 : Int) := rfl
  have hnpg : RM_NO_PAGE = (-1 : Int) := rfl
  have hnp := hwf.2.1
  have hn1 : 1 ≤ f.file_hdr.num_records_per_page := hwf.1
  unfold insert_record_rid at h
  cases hf : f.fetch_page_handle rid.page_no with
  | error e => rw [hf] at h; exact absurd h (by simp)
  | ok pg =>
    rw [hf] at h
    dsimp only at h
    obtain ⟨hv, hget⟩ := fetch_eq_ok.mp hf
    obtain ⟨hbm, hsl, hsll, hpc⟩ := pageWF_of_getPage hwf hget
    by_cases hset : Bitmap.is_set pg.bitmap rid.slot_no = true
    case pos => rw [if_pos hset] at h; exact absurd h (by simp)
    rw [if_neg hset] at h
    have hsetf : Bitmap.is_set pg.bitmap rid.slot_no = false :=
      Bool.not_eq_true _ ▸ (by simpa using hset)
    set pg1 : PageData :=
      { writeSlot pg rid.slot_no f.file_hdr.record_size buf with
          bitmap := Bitmap.set pg.bitmap rid.slot_no,
          page_hdr := { pg.page_hdr with
            num_records := pg.page_hdr.num_records + 1 } } with hpg1
    set f1 : RmFile := f.setPage rid.page_no pg1 with hf1
    have hwWF := @pageWF_writeSlot f.file_hdr.record_size
      f.file_hdr.num_records_per_page _ rid.slot_no buf ⟨hbm, hsl, hsll, hpc⟩ hbuf
    have hpg1WF : pageWF f.file_hdr.record_size f.file_hdr.num_records_per_page pg1 := by
      refine ⟨?_, hwWF.2.1, hwWF.2.2.1, ?_⟩
      · show (Bitmap.set pg.bitmap rid.slot_no).length = _
        rw [Bitmap.length_set]
        exact hbm
      · show (Bitmap.popcount (Bitmap.set pg.bitmap rid.slot_no) : Int) =
          pg.page_hdr.num_records + 1
        rw [Bitmap.popcount_set hs0 (by omega) hsetf]
        push_cast
        omega
    have hpg1hdr : pg1.page_hdr.next_free_page_no = pg.page_hdr.next_free_page_no := rfl
    have hpg1num : pg1.page_hdr.num_records = pg.page_hdr.num_records + 1 := rfl
    have hget1 : f1.getPage rid.page_no = some pg1 := getPage_setPage_self pg1 hget
    have hnp1 : f1.file_hdr.num_pages = f1.pages.length + 1 := by
      show f.file_hdr.num_pages = (f.setPage rid.page_no pg1).pages.length + 1
      rw [setPage_pages_length]
      exact hnp
    obtain ⟨l, hch, hnd, hiff⟩ := hwf.2.2.2
    have hnextall : ∀ p, f1.nextFree p = f.nextFree p := by
      intro p
      show (f.setPage rid.page_no pg1).nextFree p = f.nextFree p
      rw [nextFree_setPage pg1 hget p]
      split
      · rename_i he
        subst he
        rw [hpg1hdr, nextFree_eq hget]
      · rfl
    have hch1 : IsChain f1 f.file_hdr.first_free_page_no l := by
      refine IsChain_congr ?_ ?_ hch
      · rfl
      · intro p _
        exact hnextall p
    by_cases hfull : pg1.page_hdr.num_records = (f.file_hdr.num_records_per_page : Int)
    · rw [if_pos hfull] at h
      -- the page just became full and must leave the free list
      have hmem : rid.page_no ∈ l := by
        refine (hiff _ hv).1.mp ?_
        rw [numRec_eq hget]
        omega
      by_cases hhead : f.file_hdr.first_free_page_no = rid.page_no
      · -- head removal
        rw [if_pos (show f1.file_hdr.first_free_page_no = rid.page_no from hhead)] at h
        dsimp only at h
        rw [hhead] at hch1
        obtain ⟨rest, hleq, -, hrest⟩ := IsChain_head_eq hch1 (by
          have h1 : (1 : Int) ≤ rid.page_no := hv.1
          omega)
        have hnotrest : rid.page_no ∉ rest := by
          rw [hleq] at hnd
          exact (List.nodup_cons.mp hnd).1
        set f2 : RmFile := { f1 with file_hdr := { f1.file_hdr with
          first_free_page_no := pg1.page_hdr.next_free_page_no } } with hf2
        have hget2 : f2.getPage rid.page_no = some pg1 := hget1
        rw [show f2.getPage rid.page_no = some pg1 from hget2] at h
        cases h
        set pg3 : PageData := { pg1 with page_hdr := { pg1.page_hdr with
          next_free_page_no := RM_NO_PAGE } } with hpg3
        have hget3 : (f2.setPage rid.page_no pg3).getPage rid.page_no = some pg3 :=
          getPage_setPage_self pg3 hget2
        have hgetother : ∀ p, p ≠ rid.page_no →
            (f2.setPage rid.page_no pg3).getPage p = f.getPage p := by
          intro p hp
          rw [getPage_setPage_ne pg3 hv.1 hp]
          show (f.setPage rid.page_no pg1).getPage p = f.getPage p
          rw [getPage_setPage_ne pg1 hv.1 hp]
        have hpg3WF : pageWF f.file_hdr.record_size f.file_hdr.num_records_per_page pg3 :=
          ⟨hpg1WF.1, hpg1WF.2.1, hpg1WF.2.2.1, hpg1WF.2.2.2⟩
        refine ⟨hn1, ?_, ?_, ?_⟩
        · have hlen : ((f2.setPage rid.page_no pg3).pages).length = f.pages.length := by
            rw [setPage_pages_length]
            show ((f.setPage rid.page_no pg1).pages).length = f.pages.length
            rw [setPage_pages_length]
          show f.file_hdr.num_pages = ((f2.setPage rid.page_no pg3).pages).length + 1
          rw [hlen]
          exact hnp
        · intro pgx hpgx
          have hpgx2 : pgx ∈ ((f.setPage rid.page_no pg1).setPage rid.page_no pg3).pages := hpgx
          show pageWF f.file_hdr.record_size f.file_hdr.num_records_per_page pgx
          exact pageWF_mem_setPage (pageWF_mem_setPage hwf.2.2.1 hpg1WF) hpg3WF pgx hpgx2
        · refine ⟨rest, ?_, (List.nodup_cons.mp (hleq ▸ hnd)).2, ?_⟩
          · show IsChain _ pg1.page_hdr.next_free_page_no rest
            rw [hpg1hdr, ← nextFree_eq hget]
            rw [show f.nextFree rid.page_no = f1.nextFree rid.page_no from (hnextall _).symm]
            refine IsChain_congr ?_ ?_ hrest
            · rfl
            · intro p hp
              have hpne : p ≠ rid.page_no := fun he => hnotrest (he ▸ hp)
              have hg1 : (f2.setPage rid.page_no pg3).getPage p = f1.getPage p := by
                rw [getPage_setPage_ne pg3 hv.1 hpne]
                rfl
              unfold nextFree
              rw [hg1]
          · intro p hvp
            have hvp1 : f.ValidPage p := hvp
            by_cases hp : p = rid.page_no
            · subst hp
              refine ⟨⟨fun hlt => absurd hlt ?_, fun hm => absurd hm hnotrest⟩, fun _ => ?_⟩
              · rw [numRec_eq hget3]
                show ¬(pg1.page_hdr.num_records < (f.file_hdr.num_records_per_page : Int))
                omega
              · rw [nextFree_eq hget3]
            · obtain ⟨h1, h2⟩ := hiff p hvp1
              have hnr : (f2.setPage rid.page_no pg3).numRec p = f.numRec p := by
                unfold numRec; rw [hgetother p hp]
              have hnf2 : (f2.setPage rid.page_no pg3).nextFree p = f.nextFree p := by
                unfold nextFree; rw [hgetother p hp]
              refine ⟨?_, fun hm => ?_⟩
              · rw [hnr]
                constructor
                · intro hlt
                  have := h1.mp hlt
                  rw [hleq] at this
                  rcases List.mem_cons.mp this with he | hm'
                  · exact absurd he hp
                  · exact hm'
                · intro hm
                  exact h1.mpr (hleq ▸ List.mem_cons_of_mem _ hm)
              · rw [hnf2]
                refine h2 ?_
                rw [hleq]
                intro hmem2
                rcases List.mem_cons.mp hmem2 with he | hm'
                · exact hp he
                · exact hm hm'
      · -- mid-list removal via the traversal
        rw [if_neg (show ¬(f1.file_hdr.first_free_page_no = rid.page_no) from hhead)] at h
        obtain ⟨prev, pgp, hprevmem, hprevne, hgetp, hpnext, hweq, hchain⟩ :=
          unlink_from_spec hnp1 l f.file_hdr.first_free_page_no (f1.pages.length + 1)
            hch1 hnd hmem hhead
            (le_trans (chain_length_le hch1 hnd hnp1) (Nat.le_succ _))
        rw [show f1.file_hdr.first_free_page_no = f.file_hdr.first_free_page_no from rfl,
          hweq] at h
        dsimp only at h
        set pgp1 : PageData := { pgp with page_hdr := { pgp.page_hdr with
          next_free_page_no := f1.nextFree rid.page_no } } with hpgp1
        set f2 : RmFile := f1.setPage prev pgp1 with hf2
        have hprevv : f1.ValidPage prev := IsChain_mem_valid hch1 prev hprevmem
        have hget2 : f2.getPage rid.page_no = some pg1 := by
          rw [hf2, getPage_setPage_ne pgp1 hprevv.1 (fun he => hprevne he.symm)]
          exact hget1
        rw [hget2] at h
        cases h
        set pg3 : PageData := { pg1 with page_hdr := { pg1.page_hdr with
          next_free_page_no := RM_NO_PAGE } } with hpg3
        have hget3 : (f2.setPage rid.page_no pg3).getPage rid.page_no = some pg3 :=
          getPage_setPage_self pg3 hget2
        have hgetprev : (f2.setPage rid.page_no pg3).getPage prev = some pgp1 := by
          rw [getPage_setPage_ne pg3 hv.1 hprevne]
          exact getPage_setPage_self pgp1 (by
            show f1.getPage prev = some pgp
            have : f1.getPage prev = f.getPage prev := by
              show (f.setPage rid.page_no pg1).getPage prev = f.getPage prev
              rw [getPage_setPage_ne pg1 hv.1 hprevne]
            rw [this]
            rw [← this]
            exact hgetp)
        have hgetother : ∀ p, p ≠ rid.page_no → p ≠ prev →
            (f2.setPage rid.page_no pg3).getPage p = f.getPage p := by
          intro p hp hpp
          rw [getPage_setPage_ne pg3 hv.1 hp]
          rw [hf2, getPage_setPage_ne pgp1 hprevv.1 hpp]
          show (f.setPage rid.page_no pg1).getPage p = f.getPage p
          rw [getPage_setPage_ne pg1 hv.1 hp]
        have hgetpf : f.getPage prev = some pgp := by
          have : f1.getPage prev = f.getPage prev := by
            show (f.setPage rid.page_no pg1).getPage prev = f.getPage prev
            rw [getPage_setPage_ne pg1 hv.1 hprevne]
          rw [← this]
          exact hgetp
        have hpgpWF : pageWF f.file_hdr.record_size f.file_hdr.num_records_per_page pgp :=
          pageWF_of_getPage hwf hgetpf
        have hpgp1WF : pageWF f.file_hdr.record_size f.file_hdr.num_records_per_page pgp1 :=
          ⟨hpgpWF.1, hpgpWF.2.1, hpgpWF.2.2.1, hpgpWF.2.2.2⟩
        have hpg3WF : pageWF f.file_hdr.record_size f.file_hdr.num_records_per_page pg3 :=
          ⟨hpg1WF.1, hpg1WF.2.1, hpg1WF.2.2.1, hpg1WF.2.2.2⟩
        have hnotmem3 : rid.page_no ∉ l.erase rid.page_no := hnd.not_mem_erase
        refine ⟨hn1, ?_, ?_, ?_⟩
        · have hlen : ((f2.setPage rid.page_no pg3).pages).length = f.pages.length := by
            rw [setPage_pages_length]
            show ((f1.setPage prev pgp1).pages).length = f.pages.length
            rw [setPage_pages_length]
            show ((f.setPage rid.page_no pg1).pages).length = f.pages.length
            rw [setPage_pages_length]
          show f.file_hdr.num_pages = ((f2.setPage rid.page_no pg3).pages).length + 1
          rw [hlen]
          exact hnp
        · intro pgx hpgx
          have hpgx2 : pgx ∈ (((f.setPage rid.page_no pg1).setPage prev pgp1).setPage
              rid.page_no pg3).pages := hpgx
          show pageWF f.file_hdr.record_size f.file_hdr.num_records_per_page pgx
          exact pageWF_mem_setPage
            (pageWF_mem_setPage (pageWF_mem_setPage hwf.2.2.1 hpg1WF) hpgp1WF)
            hpg3WF pgx hpgx2
        · refine ⟨l.erase rid.page_no, ?_, hnd.erase _, ?_⟩
          · show IsChain _ f.file_hdr.first_free_page_no (l.erase rid.page_no)
            refine IsChain_congr ?_ ?_ hchain
            · rfl
            · intro p hp
              have hpne : p ≠ rid.page_no := fun he => hnotmem3 (he ▸ hp)
              have : (f2.setPage rid.page_no pg3).getPage p = f2.getPage p := by
                rw [getPage_setPage_ne pg3 hv.1 hpne]
              unfold nextFree
              rw [this]
          · intro p hvp
            have hvp1 : f.ValidPage p := hvp
            by_cases hp : p = rid.page_no
            · subst hp
              refine ⟨⟨fun hlt => absurd hlt ?_, fun hm => absurd hm hnotmem3⟩, fun _ => ?_⟩
              · rw [numRec_eq hget3]
                show ¬(pg1.page_hdr.num_records < (f.file_hdr.num_records_per_page : Int))
                omega
              · rw [nextFree_eq hget3]
            · by_cases hpp : p = prev
              · subst hpp
                have hmemp : p ∈ l.erase rid.page_no :=
                  (List.mem_erase_of_ne hprevne).mpr hprevmem
                refine ⟨⟨fun _ => hmemp, fun _ => ?_⟩, fun hm => absurd hmemp hm⟩
                rw [numRec_eq hgetprev]
                show pgp.page_hdr.num_records < (f.file_hdr.num_records_per_page : Int)
                have := (hiff p hvp1).1.mpr hprevmem
                rw [numRec_eq hgetpf] at this
                exact this
              · obtain ⟨h1, h2⟩ := hiff p hvp1
                have hnr : (f2.setPage rid.page_no pg3).numRec p = f.numRec p := by
                  unfold numRec; rw [hgetother p hp hpp]
                have hnf2 : (f2.setPage rid.page_no pg3).nextFree p = f.nextFree p := by
                  unfold nextFree; rw [hgetother p hp hpp]
                refine ⟨?_, fun hm => ?_⟩
                · rw [hnr]
                  constructor
                  · intro hlt
                    exact (List.mem_erase_of_ne hp).mpr (h1.mp hlt)
                  · intro hm
                    exact h1.mpr (List.mem_of_mem_erase hm)
                · rw [hnf2]
                  exact h2 (fun hm2 => hm ((List.mem_erase_of_ne hp).mpr hm2))
    · rw [if_neg hfull] at h
      have hff' : f1 = f' := Except.ok.inj h
      subst hff'
      -- the page still has spare slots: the free list is unchanged
      have hmem : rid.page_no ∈ l := by
        refine (hiff _ hv).1.mp ?_
        rw [numRec_eq hget]
        have hle : (Bitmap.popcount pg1.bitmap : Int) ≤
            (f.file_hdr.num_records_per_page : Int) := by
          have ha := Bitmap.popcount_le pg1.bitmap
          have hb := hpg1WF.1
          exact_mod_cast ha.trans_eq (by rw [hb])
        have := hpg1WF.2.2.2
        omega
      refine ⟨hn1, ?_, ?_, ?_⟩
      · show f.file_hdr.num_pages = ((f.setPage rid.page_no pg1).pages).length + 1
        rw [setPage_pages_length]
        exact hnp
      · intro pgx hpgx
        show pageWF f.file_hdr.record_size f.file_hdr.num_records_per_page pgx
        exact pageWF_mem_setPage hwf.2.2.1 hpg1WF pgx hpgx
      · refine ⟨l, hch1, hnd, ?_⟩
        intro p hvp
        have hvp1 : f.ValidPage p := hvp
        obtain ⟨h1, h2⟩ := hiff p hvp1
        have hnr := numRec_setPage pg1 hget p
        by_cases hp : p = rid.page_no
        · subst hp
          rw [show f1.numRec rid.page_no = pg1.page_hdr.num_records from numRec_eq hget1]
          refine ⟨⟨fun _ => hmem, fun _ => ?_⟩, fun hm => absurd hmem hm⟩
          show pg1.page_hdr.num_records < (f.file_hdr.num_records_per_page : Int)
          have hle : (Bitmap.popcount pg1.bitmap : Int) ≤
              (f.file_hdr.num_records_per_page : Int) := by
            have ha := Bitmap.popcount_le pg1.bitmap
            have hb := hpg1WF.1
            exact_mod_cast ha.trans_eq (by rw [hb])
          have := hpg1WF.2.2.2
          omega
        · rw [show f1.numRec p = f.numRec p by rw [hf1, hnr, if_neg hp]]
          refine ⟨h1, fun hm => ?_⟩
          rw [hnextall p]
          exact h2 hm

end RmFile

/-! ### Record geometry is constant across operations -/

namespace RmFile

theorem update_record_geom {f : RmFile} {rid : Rid} {buf : List Nat} {f' : RmFile}
    (h : f.update_record rid buf = .ok f') :
    f'.file_hdr.record_size = f.file_hdr.record_size ∧
    f'.file_hdr.num_records_per_page = f.file_hdr.num_records_per_page := by
  unfold update_record at h
  split at h
  · exact absurd h (by simp)
  · split at h
    · cases h; exact ⟨rfl, rfl⟩
    · exact absurd h (by simp)

theorem delete_record_geom {f : RmFile} {rid : Rid} {f' : RmFile}
    (h : f.delete_record rid = .ok f') :
    f'.file_hdr.record_size = f.file_hdr.record_size ∧
    f'.file_hdr.num_records_per_page = f.file_hdr.num_records_per_page := by
  unfold delete_record at h
  split at h
  · exact absurd h (by simp)
  · split at h
    · cases h
      constructor <;>
      · split
        · unfold release_page_handle
          split
          · rfl
          · rfl
        · rfl
    · exact absurd h (by simp)

theorem create_page_handle_geom {f f1 : RmFile} {pno : Int}
    (h : f.create_page_handle = .ok (f1, pno)) :
    f1.file_hdr.record_size = f.file_hdr.record_size ∧
    f1.file_hdr.num_records_per_page = f.file_hdr.num_records_per_page := by
  unfold create_page_handle at h
  split at h
  · dsimp only at h
    split at h
    · exact absurd h (by simp)
    · have h2 : f.create_new_page_handle = (f1, pno) := Except.ok.inj h
      have h3 : f1 = (f.create_new_page_handle).1 := by rw [h2]
      rw [h3]
      exact ⟨rfl, rfl⟩
  · split at h
    · exact absurd h (by simp)
    · have h2 : (f, f.file_hdr.first_free_page_no) = (f1, pno) := Except.ok.inj h
      have h3 : f1 = f := (congrArg Prod.fst h2).symm
      rw [h3]
      exact ⟨rfl, rfl⟩

theorem insert_record_geom {f : RmFile} {buf : List Nat} {f' : RmFile} {rid : Rid}
    (h : f.insert_record buf = .ok (f', rid)) :
    f'.file_hdr.record_size = f.file_hdr.record_size ∧
    f'.file_hdr.num_records_per_page = f.file_hdr.num_records_per_page := by
  unfold insert_record at h
  split at h
  · exact absurd h (by simp)
  · rename_i f1 pno heq
    obtain ⟨hrs1, hn1⟩ := create_page_handle_geom heq
    split at h
    · exact absurd h (by simp)
    · dsimp only at h
      split at h
      · exact absurd h (by simp)
      · split at h
        · cases h; exact ⟨hrs1, hn1⟩
        · cases h; exact ⟨hrs1, hn1⟩

theorem unlink_from_hdr {f : RmFile} {target : Int} :
    ∀ (fuel : Nat) (start : Int) {f2 : RmFile},
      f.unlink_from target fuel start = .ok f2 → f2.file_hdr = f.file_hdr := by
  intro fuel
  induction fuel with
  | zero =>
    intro start f2 h
    cases h
    rfl
  | succ fuel ih =>
    intro start f2 h
    unfold unlink_from at h
    split at h
    · cases h; rfl
    · split at h
      · exact absurd h (by simp)
      · split at h
        · cases h; rfl
        · exact ih _ h

theorem insert_record_rid_geom {f : RmFile} {rid : Rid} {buf : List Nat} {f' : RmFile}
    (h : f.insert_record_rid rid buf = .ok f') :
    f'.file_hdr.record_size = f.file_hdr.record_size ∧
    f'.file_hdr.num_records_per_page = f.file_hdr.num_records_per_page := by
  unfold insert_record_rid at h
  split at h
  · exact absurd h (by simp)
  · split at h
    · exact absurd h (by simp)
    · dsimp only at h
      split at h
      · -- the page became full
        split at h
        · exact absurd h (by simp)
        · rename_i f2 hstep
          have hgeom2 : f2.file_hdr.record_size = f.file_hdr.record_size ∧
              f2.file_hdr.num_records_per_page = f.file_hdr.num_records_per_page := by
            split at hstep
            · cases hstep; exact ⟨rfl, rfl⟩
            · have := unlink_from_hdr _ _ hstep
              rw [this]
              exact ⟨rfl, rfl⟩
          split at h
          · cases h; exact hgeom2
          · cases h; exact hgeom2
      · cases h; exact ⟨rfl, rfl⟩

theorem applyOp_geom {f : RmFile} {op : RmOp} {f' : RmFile}
    (h : f.applyOp op = .ok f') :
    f'.file_hdr.record_size = f.file_hdr.record_size ∧
    f'.file_hdr.num_records_per_page = f.file_hdr.num_records_per_page := by
  cases op with
  | ins buf =>
    unfold applyOp at h
    dsimp only at h
    cases hin : f.insert_record buf with
    | error e => rw [hin] at h; exact absurd h (by simp)
    | ok fr =>
      rw [hin] at h
      have hf : fr.1 = f' := Except.ok.inj h
      subst hf
      have hin2 : f.insert_record buf = .ok (fr.1, fr.2) := by rw [hin]
      exact insert_record_geom hin2
  | insAt rid buf => exact insert_record_rid_geom h
  | del rid => exact delete_record_geom h
  | upd rid buf => exact update_record_geom h

theorem applyOp_WF {f : RmFile} {op : RmOp} {f' : RmFile} (hwf : f.WF)
    (hop : op.Valid f.file_hdr.record_size f.file_hdr.num_records_per_page)
    (h : f.applyOp op = .ok f') : f'.WF := by
  cases op with
  | ins buf =>
    unfold applyOp at h
    dsimp only at h
    cases hin : f.insert_record buf with
    | error e => rw [hin] at h; exact absurd h (by simp)
    | ok fr =>
      rw [hin] at h
      have hf : fr.1 = f' := Except.ok.inj h
      subst hf
      have hin2 : f.insert_record buf = .ok (fr.1, fr.2) := by rw [hin]
      exact insert_record_WF hwf hop hin2
  | insAt rid buf => exact insert_record_rid_WF hwf hop.1 hop.2.1 hop.2.2 h
  | del rid => exact delete_record_WF hwf h
  | upd rid buf => exact update_record_WF hwf hop h

/-- Well-formedness and the record geometry are maintained by any successful
sequence of record-manager mutations. -/
theorem runOps_WF {f0 : RmFile} :
    ∀ {ops : List RmOp} {f : RmFile}, f0.WF →
      (∀ op ∈ ops,
        op.Valid f0.file_hdr.record_size f0.file_hdr.num_records_per_page) →
      f0.runOps ops = .ok f →
      f.WF ∧ f.file_hdr.record_size = f0.file_hdr.record_size ∧
        f.file_hdr.num_records_per_page = f0.file_hdr.num_records_per_page := by
  intro ops
  induction ops generalizing f0 with
  | nil =>
    intro f hwf _ h
    cases h
    exact ⟨hwf, rfl, rfl⟩
  | cons op ops ih =>
    intro f hwf hvalid h
    unfold runOps at h
    split at h
    · exact absurd h (by simp)
    · rename_i f1 heq
      obtain ⟨hrs1, hn1⟩ := applyOp_geom heq
      have hwf1 := applyOp_WF hwf (hvalid op (List.mem_cons_self _ _)) heq
      have hvalid1 : ∀ op2 ∈ ops,
          op2.Valid f1.file_hdr.record_size f1.file_hdr.num_records_per_page := by
        intro op2 hmem
        rw [hrs1, hn1]
        exact hvalid op2 (List.mem_cons_of_mem _ hmem)
      obtain ⟨hwf2, hrs2, hn2⟩ := ih hwf1 hvalid1 h
      exact ⟨hwf2, by rw [hrs2, hrs1], by rw [hn2, hn1]⟩

end RmFile

section FreeListClaims

/-- C2: after any sequence of `insert_record` (both variants),
`delete_record` and `update_record` operations on a validly initialised
file, every data page with spare capacity appears exactly once on the free
list reached from `first_free_page_no` via `next_free_page_no` links, and
every other data page is off the list with `next_free_page_no = RM_NO_PAGE`
(the free-list invariant, including uniqueness via `List.Nodup`). -/
theorem C2_free_list_invariant (f0 : RmFile) (ops : List RmOp) (f : RmFile)
    (hwf : f0.WF)
    (hvalid : ∀ op ∈ ops,
      op.Valid f0.file_hdr.record_size f0.file_hdr.num_records_per_page)
    (h : f0.runOps ops = .ok f) :
    RmFile.FreeListInv f :=
  (RmFile.runOps_WF hwf hvalid h).1.2.2.2

/-- C2 (witness): the invariant on a concrete run exercising both insert
variants, delete and update. -/
theorem C2_free_list_invariant_witness :
    emptyFile2.WF ∧
    (∀ op ∈ opsC2,
      op.Valid emptyFile2.file_hdr.record_size emptyFile2.file_hdr.num_records_per_page) ∧
    emptyFile2.runOps opsC2 = .ok resC2 ∧
    RmFile.FreeListInv resC2 :=
  ⟨RmFile.WF_of_wfB (by decide), by decide, by decide,
    C2_free_list_invariant emptyFile2 opsC2 resC2
      (RmFile.WF_of_wfB (by decide)) (by decide) (by decide)⟩

/-- C7: after every record-manager operation, the population count of each
data page's bitmap equals that page's `num_records` header field. -/
theorem C7_popcount_eq_num_records (f0 : RmFile) (ops : List RmOp) (f : RmFile)
    (hwf : f0.WF)
    (hvalid : ∀ op ∈ ops,
      op.Valid f0.file_hdr.record_size f0.file_hdr.num_records_per_page)
    (h : f0.runOps ops = .ok f) :
    ∀ pg ∈ f.pages, (Bitmap.popcount pg.bitmap : Int) = pg.page_hdr.num_records := by
  intro pg hpg
  exact ((RmFile.runOps_WF hwf hvalid h).1.2.2.1 pg hpg).2.2.2

/-- C7 (witness): the bitmap/count agreement on the same concrete run. -/
theorem C7_popcount_eq_num_records_witness :
    emptyFile2.WF ∧
    (∀ op ∈ opsC2,
      op.Valid emptyFile2.file_hdr.record_size emptyFile2.file_hdr.num_records_per_page) ∧
    emptyFile2.runOps opsC2 = .ok resC2 ∧
    (∀ pg ∈ resC2.pages,
      (Bitmap.popcount pg.bitmap : Int) = pg.page_hdr.num_records) :=
  ⟨RmFile.WF_of_wfB (by decide), by decide, by decide,
    C7_popcount_eq_num_records emptyFile2 opsC2 resC2
      (RmFile.WF_of_wfB (by decide)) (by decide) (by decide)⟩

end FreeListClaims

/-! ### C9: insert–delete–insert returns to the post-insert state -/

theorem set_eq_self_of_getD {α : Type} {l : List α} {i : Nat} {a : α}
    (h : l.getD i a = a) : l.set i a = l := by
  induction l generalizing i with
  | nil => rfl
  | cons x xs ih =>
    cases i with
    | zero =>
      simp only [List.getD_cons_zero] at h
      simp [h]
    | succ j =>
      simp only [List.getD_cons_succ] at h
      simp [ih h]

namespace Bitmap

theorem reset_set_cancel {bm : List Bool} {i : Int} (h0 : 0 ≤ i)
    (hb : is_set bm i = false) : reset (set bm i) i = bm := by
  unfold is_set at hb
  rw [if_neg (by omega)] at hb
  unfold reset set
  rw [if_neg (by omega), if_neg (by omega), List.set_set]
  exact set_eq_self_of_getD hb

end Bitmap

namespace RmFile

theorem setPage_setPage (f : RmFile) (p : Int) (pg1 pg2 : PageData) :
    (f.setPage p pg1).setPage p pg2 = f.setPage p pg2 := by
  unfold setPage
  dsimp only
  rw [List.set_set]

theorem setPage_replace_hdr_setPage (f : RmFile) (p : Int) (pg1 : PageData)
    (hdr : RmFileHdr) (pg2 : PageData) :
    ({ f.setPage p pg1 with file_hdr := hdr } : RmFile).setPage p pg2 =
      { f.setPage p pg2 with file_hdr := hdr } := by
  unfold setPage
  dsimp only
  rw [List.set_set]

/-- Round trip when the page did not become full at the first insert:
clearing the fresh slot and re-inserting the same buffer reproduces the
post-insert file exactly (same page, same slot). -/
theorem insert_roundtrip_notfull (fA : RmFile) (pno : Int) (pg : PageData)
    (S : Int) (buf : List Nat)
    (hvA : fA.ValidPage pno) (hgetA : fA.getPage pno = some pg)
    (hffA : fA.file_hdr.first_free_page_no = pno)
    (hs0 : 0 ≤ S) (hsNat : S.toNat < pg.bitmap.length)
    (hS : Bitmap.first_bit false pg.bitmap fA.file_hdr.num_records_per_page = S)
    (hslot : ¬ ((fA.file_hdr.num_records_per_page : Int) ≤ S))
    (hbitF : Bitmap.is_set pg.bitmap S = false)
    (hnfull : ¬ (pg.page_hdr.num_records + 1 =
      (fA.file_hdr.num_records_per_page : Int))) :
    ∃ f2,
      (fA.setPage pno
          { page_hdr := { num_records := pg.page_hdr.num_records + 1,
                          next_free_page_no := pg.page_hdr.next_free_page_no },
            bitmap := Bitmap.set pg.bitmap S,
            slots := pg.slots.set S.toNat
              (buf.take fA.file_hdr.record_size) }).delete_record ⟨pno, S⟩ =
        .ok f2 ∧
      f2.insert_record buf =
        .ok (fA.setPage pno
          { page_hdr := { num_records := pg.page_hdr.num_records + 1,
                          next_free_page_no := pg.page_hdr.next_free_page_no },
            bitmap := Bitmap.set pg.bitmap S,
            slots := pg.slots.set S.toNat (buf.take fA.file_hdr.record_size) },
          ⟨pno, S⟩) := by
  have hnot1 : ¬ pno = RM_NO_PAGE := by
    have h1le : (1 : Int) ≤ pno := hvA.1
    have hnpg : RM_NO_PAGE = (-1 : Int) := rfl
    omega
  set PG1 : PageData :=
    { page_hdr := { num_records := pg.page_hdr.num_records + 1,
                    next_free_page_no := pg.page_hdr.next_free_page_no },
      bitmap := Bitmap.set pg.bitmap S,
      slots := pg.slots.set S.toNat (buf.take fA.file_hdr.record_size) } with hPG1
  set PGD : PageData :=
    { page_hdr := { num_records := pg.page_hdr.num_records + 1 - 1,
                    next_free_page_no := pg.page_hdr.next_free_page_no },
      bitmap := pg.bitmap,
      slots := pg.slots.set S.toNat (buf.take fA.file_hdr.record_size) } with hPGD
  have hbit1 : Bitmap.is_set PG1.bitmap S = true :=
    @Bitmap.is_set_set_self pg.bitmap S hs0 hsNat
  have hfetch1 : (fA.setPage pno PG1).fetch_page_handle pno = Except.ok PG1 :=
    fetch_eq_ok.mpr ⟨hvA, getPage_setPage_self PG1 hgetA⟩
  have hget2 : (fA.setPage pno PGD).getPage pno = some PGD :=
    getPage_setPage_self PGD hgetA
  have hfetch2 : (fA.setPage pno PGD).fetch_page_handle pno = Except.ok PGD :=
    fetch_eq_ok.mpr ⟨hvA, hget2⟩
  refine ⟨fA.setPage pno PGD, ?_, ?_⟩
  · have hnfull1 : ¬ (PG1.page_hdr.num_records =
        ((fA.setPage pno PG1).file_hdr.num_records_per_page : Int)) := hnfull
    have hRS : Bitmap.reset PG1.bitmap S = pg.bitmap :=
      @Bitmap.reset_set_cancel pg.bitmap S hs0 hbitF
    unfold delete_record
    dsimp only
    rw [hfetch1]
    dsimp only
    rw [if_pos hbit1]
    rw [if_neg hnfull1, hRS, setPage_setPage]
  · have hff2 : (fA.setPage pno PGD).file_hdr.first_free_page_no = pno := hffA
    have hc2 : (fA.setPage pno PGD).create_page_handle =
        Except.ok (fA.setPage pno PGD, pno) := by
      unfold create_page_handle
      rw [hff2, if_neg hnot1, hfetch2]
    have hS2 : Bitmap.first_bit false PGD.bitmap
        ((fA.setPage pno PGD).file_hdr.num_records_per_page) = S := hS
    have hslot2 :
        ¬ (((fA.setPage pno PGD).file_hdr.num_records_per_page : Int) ≤ S) := hslot
    have hw2 : (writeSlot PGD S (fA.setPage pno PGD).file_hdr.record_size buf).slots =
        pg.slots.set S.toNat (buf.take fA.file_hdr.record_size) := by
      unfold writeSlot
      rw [if_neg (by omega : ¬ S < 0)]
      show (pg.slots.set S.toNat (buf.take fA.file_hdr.record_size)).set S.toNat
          (buf.take fA.file_hdr.record_size) =
        pg.slots.set S.toNat (buf.take fA.file_hdr.record_size)
      rw [List.set_set]
    have hbm2 : Bitmap.set PGD.bitmap S = Bitmap.set pg.bitmap S := rfl
    have harith : PGD.page_hdr.num_records + 1 = pg.page_hdr.num_records + 1 := by
      show pg.page_hdr.num_records + 1 - 1 + 1 = pg.page_hdr.num_records + 1
      omega
    have hnx : PGD.page_hdr.next_free_page_no = pg.page_hdr.next_free_page_no := rfl
    have hnfull2 : ¬ (pg.page_hdr.num_records + 1 =
        ((fA.setPage pno PGD).file_hdr.num_records_per_page : Int)) := hnfull
    unfold insert_record
    rw [hc2]
    dsimp only
    rw [hfetch2]
    dsimp only
    rw [hS2, if_neg hslot2]
    rw [hw2, hbm2, harith, hnx, if_neg hnfull2, setPage_setPage]

end RmFile

namespace RmFile

/-- Round trip when the first insert filled the page (splicing it off the
head of the free list): delete re-links the page at the head of the free
list and re-inserting the same buffer reproduces the post-insert file
exactly (same page, same slot). -/
theorem insert_roundtrip_full (fA : RmFile) (pno : Int) (pg : PageData)
    (S : Int) (buf : List Nat)
    (hvA : fA.ValidPage pno) (hgetA : fA.getPage pno = some pg)
    (hffA : fA.file_hdr.first_free_page_no = pno)
    (hs0 : 0 ≤ S) (hsNat : S.toNat < pg.bitmap.length)
    (hS : Bitmap.first_bit false pg.bitmap fA.file_hdr.num_records_per_page = S)
    (hslot : ¬ ((fA.file_hdr.num_records_per_page : Int) ≤ S))
    (hbitF : Bitmap.is_set pg.bitmap S = false)
    (hfull : pg.page_hdr.num_records + 1 =
      (fA.file_hdr.num_records_per_page : Int)) :
    ∃ f2,
      (({ fA.setPage pno
            { page_hdr := { num_records := pg.page_hdr.num_records + 1,
                            next_free_page_no := pg.page_hdr.next_free_page_no },
              bitmap := Bitmap.set pg.bitmap S,
              slots := pg.slots.set S.toNat
                (buf.take fA.file_hdr.record_size) } with
          file_hdr := { fA.file_hdr with
            first_free_page_no := pg.page_hdr.next_free_page_no } } :
          RmFile).setPage pno
          { page_hdr := { num_records := pg.page_hdr.num_records + 1,
                          next_free_page_no := RM_NO_PAGE },
            bitmap := Bitmap.set pg.bitmap S,
            slots := pg.slots.set S.toNat
              (buf.take fA.file_hdr.record_size) }).delete_record ⟨pno, S⟩ =
        .ok f2 ∧
      f2.insert_record buf =
        .ok (({ fA.setPage pno
              { page_hdr := { num_records := pg.page_hdr.num_records + 1,
                              next_free_page_no := pg.page_hdr.next_free_page_no },
                bitmap := Bitmap.set pg.bitmap S,
                slots := pg.slots.set S.toNat
                  (buf.take fA.file_hdr.record_size) } with
            file_hdr := { fA.file_hdr with
              first_free_page_no := pg.page_hdr.next_free_page_no } } :
            RmFile).setPage pno
            { page_hdr := { num_records := pg.page_hdr.num_records + 1,
                            next_free_page_no := RM_NO_PAGE },
              bitmap := Bitmap.set pg.bitmap S,
              slots := pg.slots.set S.toNat (buf.take fA.file_hdr.record_size) },
          ⟨pno, S⟩) := by
  have hnot1 : ¬ pno = RM_NO_PAGE := by
    have h1le : (1 : Int) ≤ pno := hvA.1
    have hnpg : RM_NO_PAGE = (-1 : Int) := rfl
    omega
  simp only [setPage_replace_hdr_setPage]
  set PGF : PageData :=
    { page_hdr := { num_records := pg.page_hdr.num_records + 1,
                    next_free_page_no := RM_NO_PAGE },
      bitmap := Bitmap.set pg.bitmap S,
      slots := pg.slots.set S.toNat (buf.take fA.file_hdr.record_size) } with hPGF
  set PGD : PageData :=
    { page_hdr := { num_records := pg.page_hdr.num_records + 1 - 1,
                    next_free_page_no := pg.page_hdr.next_free_page_no },
      bitmap := pg.bitmap,
      slots := pg.slots.set S.toNat (buf.take fA.file_hdr.record_size) } with hPGD
  have hbit1 : Bitmap.is_set PGF.bitmap S = true :=
    @Bitmap.is_set_set_self pg.bitmap S hs0 hsNat
  have hget1 : ({ fA.setPage pno PGF with
      file_hdr := { fA.file_hdr with
        first_free_page_no := pg.page_hdr.next_free_page_no } } : RmFile).getPage
      pno = some PGF := by
    rw [getPage_replace_hdr]
    exact getPage_setPage_self PGF hgetA
  have hfetch1 : ({ fA.setPage pno PGF with
      file_hdr := { fA.file_hdr with
        first_free_page_no := pg.page_hdr.next_free_page_no } } :
      RmFile).fetch_page_handle pno = Except.ok PGF :=
    fetch_eq_ok.mpr ⟨hvA, hget1⟩
  refine ⟨{ fA.setPage pno PGD with
    file_hdr := { fA.file_hdr with first_free_page_no := pno } }, ?_, ?_⟩
  · have hfull1 : PGF.page_hdr.num_records =
        (({ fA.setPage pno PGF with
            file_hdr := { fA.file_hdr with
              first_free_page_no := pg.page_hdr.next_free_page_no } } :
          RmFile).file_hdr.num_records_per_page : Int) := hfull
    have hRS : Bitmap.reset PGF.bitmap S = pg.bitmap :=
      @Bitmap.reset_set_cancel pg.bitmap S hs0 hbitF
    unfold delete_record
    dsimp only
    rw [hfetch1]
    dsimp only
    rw [if_pos hbit1]
    rw [if_pos hfull1, hRS, setPage_replace_hdr_setPage]
    unfold release_page_handle
    have hget3 : ({ fA.setPage pno
        { page_hdr := { num_records := PGF.page_hdr.num_records - 1,
                        next_free_page_no := PGF.page_hdr.next_free_page_no },
          bitmap := pg.bitmap, slots := PGF.slots } with
        file_hdr := { fA.file_hdr with
          first_free_page_no := pg.page_hdr.next_free_page_no } } : RmFile).getPage
        pno = some
        { page_hdr := { num_records := PGF.page_hdr.num_records - 1,
                        next_free_page_no := PGF.page_hdr.next_free_page_no },
          bitmap := pg.bitmap, slots := PGF.slots } := by
      rw [getPage_replace_hdr]
      exact getPage_setPage_self _ hgetA
    rw [hget3]
    dsimp only
    rw [setPage_replace_hdr_setPage]
  · have hff2 : ({ fA.setPage pno PGD with
        file_hdr := { fA.file_hdr with first_free_page_no := pno } } :
        RmFile).file_hdr.first_free_page_no = pno := rfl
    have hget2 : ({ fA.setPage pno PGD with
        file_hdr := { fA.file_hdr with first_free_page_no := pno } } :
        RmFile).getPage pno = some PGD := by
      rw [getPage_replace_hdr]
      exact getPage_setPage_self PGD hgetA
    have hfetch2 : ({ fA.setPage pno PGD with
        file_hdr := { fA.file_hdr with first_free_page_no := pno } } :
        RmFile).fetch_page_handle pno = Except.ok PGD :=
      fetch_eq_ok.mpr ⟨hvA, hget2⟩
    have hc2 : ({ fA.setPage pno PGD with
        file_hdr := { fA.file_hdr with first_free_page_no := pno } } :
        RmFile).create_page_handle =
        Except.ok ({ fA.setPage pno PGD with
          file_hdr := { fA.file_hdr with first_free_page_no := pno } }, pno) := by
      unfold create_page_handle
      rw [hff2, if_neg hnot1, hfetch2]
    have hS2 : Bitmap.first_bit false PGD.bitmap
        fA.file_hdr.num_records_per_page = S := hS
    have hw2 : (writeSlot PGD S fA.file_hdr.record_size buf).slots =
        pg.slots.set S.toNat (buf.take fA.file_hdr.record_size) := by
      unfold writeSlot
      rw [if_neg (by omega : ¬ S < 0)]
      show (pg.slots.set S.toNat (buf.take fA.file_hdr.record_size)).set S.toNat
          (buf.take fA.file_hdr.record_size) =
        pg.slots.set S.toNat (buf.take fA.file_hdr.record_size)
      rw [List.set_set]
    have hbm2 : Bitmap.set PGD.bitmap S = Bitmap.set pg.bitmap S := rfl
    have harith : PGD.page_hdr.num_records + 1 = pg.page_hdr.num_records + 1 := by
      show pg.page_hdr.num_records + 1 - 1 + 1 = pg.page_hdr.num_records + 1
      omega
    have hnx : PGD.page_hdr.next_free_page_no = pg.page_hdr.next_free_page_no := rfl
    unfold insert_record
    rw [hc2]
    dsimp only
    rw [hfetch2]
    dsimp only
    rw [hS2, if_neg hslot]
    rw [hw2, hbm2, harith, hnx, if_pos hfull]
    dsimp only [setPage_file_hdr]
    rw [setPage_replace_hdr_setPage, setPage_replace_hdr_setPage]

end RmFile

open RmFile in
/-- C9: for every well-formed file state and record buffer `buf`, after
`insert_record(buf) = rid` the sequence `delete_record(rid)` followed by
`insert_record(buf)` succeeds and returns the file — free list, per-page
record counts, bitmaps and slot bytes — to exactly the state after the
first insert, with the second insert landing on the same rid. -/
theorem C9_insert_delete_insert {f : RmFile} {buf : List Nat} {f1 : RmFile}
    {rid : Rid} (hwf : f.WF) (h : f.insert_record buf = .ok (f1, rid)) :
    ∃ f2, f1.delete_record rid = .ok f2 ∧
      f2.insert_record buf = .ok (f1, rid) := by
  unfold insert_record at h
  split at h
  · exact absurd h (by simp)
  · rename_i fA pno heqc
    obtain ⟨hwfA, -, -, hffA, pg0, hget0, -⟩ := create_page_handle_spec hwf heqc
    split at h
    · exact absurd h (by simp)
    · rename_i pg heqf
      dsimp only [setPage_file_hdr] at h
      obtain ⟨hvA, hgetA⟩ := fetch_eq_ok.mp heqf
      have hpWF := pageWF_of_getPage hwfA hgetA
      have hbmlen : pg.bitmap.length = fA.file_hdr.num_records_per_page := hpWF.1
      have hs0 : 0 ≤ Bitmap.first_bit false pg.bitmap
          fA.file_hdr.num_records_per_page := Bitmap.first_bit_nonneg _ _ _
      split at h
      · exact absurd h (by simp)
      · rename_i hslot
        have hsn : Bitmap.first_bit false pg.bitmap fA.file_hdr.num_records_per_page <
            (fA.file_hdr.num_records_per_page : Int) := not_le.mp hslot
        have hbitF : Bitmap.is_set pg.bitmap
            (Bitmap.first_bit false pg.bitmap fA.file_hdr.num_records_per_page) =
            false := is_set_first_bit_false hsn
        generalize hS : Bitmap.first_bit false pg.bitmap
            fA.file_hdr.num_records_per_page = S at h hslot hs0 hsn hbitF
        have hsNat : S.toNat < pg.bitmap.length := by omega
        have hwS : (writeSlot pg S fA.file_hdr.record_size buf).slots =
            pg.slots.set S.toNat (buf.take fA.file_hdr.record_size) := by
          unfold writeSlot
          rw [if_neg (by omega : ¬ S < 0)]
        rw [hwS] at h
        split at h
        · rename_i hfull
          have hpair := Except.ok.inj h
          have hf1 := congrArg Prod.fst hpair
          have hrid := congrArg Prod.snd hpair
          dsimp only at hf1 hrid
          subst hf1
          subst hrid
          exact insert_roundtrip_full fA pno pg S buf hvA hgetA hffA hs0 hsNat hS
            hslot hbitF hfull
        · rename_i hnfull
          have hpair := Except.ok.inj h
          have hf1 := congrArg Prod.fst hpair
          have hrid := congrArg Prod.snd hpair
          dsimp only at hf1 hrid
          subst hf1
          subst hrid
          exact insert_roundtrip_notfull fA pno pg S buf hvA hgetA hffA hs0 hsNat hS
            hslot hbitF hnfull

/-- C9 (witness): the round trip on a concrete one-page file (the insert
fills the page, exercising the free-list splice and re-link). -/
theorem C9_insert_delete_insert_witness :
    oneEmptyPageFile.WF ∧
    oneEmptyPageFile.insert_record [1] = .ok (resC9, ⟨1, 0⟩) ∧
    (∃ f2, resC9.delete_record ⟨1, 0⟩ = .ok f2 ∧
      f2.insert_record [1] = .ok (resC9, ⟨1, 0⟩)) :=
  ⟨RmFile.WF_of_wfB (by decide), by decide,
    @C9_insert_delete_insert oneEmptyPageFile [1] resC9 ⟨1, 0⟩
      (RmFile.WF_of_wfB (by decide)) (by decide)⟩

/-! ### C1: `get_record` returns the most recently written bytes -/

namespace Bitmap

theorem is_set_init (n : Nat) (j : Int) : is_set (init n) j = false := by
  unfold is_set init
  split
  · rfl
  · rw [List.getD_eq_getElem?_getD, List.getElem?_replicate]
    split <;> rfl

end Bitmap

namespace RmFile

theorem getLive_replace_hdr (f : RmFile) (hdr : RmFileHdr) (r : Rid) :
    ({ f with file_hdr := hdr } : RmFile).getLive r = f.getLive r := rfl

theorem getLive_setPage_of_eq {f : RmFile} {pno : Int} {pg pg' : PageData}
    (hget : f.getPage pno = some pg)
    (hbm : pg'.bitmap = pg.bitmap) (hsl : pg'.slots = pg.slots) :
    ∀ r : Rid, (f.setPage pno pg').getLive r = f.getLive r := by
  intro r
  unfold getLive
  by_cases hp : r.page_no = pno
  · rw [hp, getPage_setPage_self pg' hget, hget]
    dsimp only
    rw [hbm, hsl]
  · rw [getPage_setPage_ne pg' (getPage_isSome_of_eq hget).1 hp]

theorem getLive_write {f : RmFile} {pno : Int} {pg pg' : PageData} {S : Int}
    {B : List Nat}
    (hget : f.getPage pno = some pg) (hs0 : 0 ≤ S)
    (hbmS : Bitmap.is_set pg'.bitmap S = true)
    (hbmne : ∀ j : Int, j ≠ S → Bitmap.is_set pg'.bitmap j = Bitmap.is_set pg.bitmap j)
    (hsl : pg'.slots = pg.slots.set S.toNat B)
    (hls : S.toNat < pg.slots.length) :
    (f.setPage pno pg').getLive ⟨pno, S⟩ = some B ∧
    ∀ r : Rid, r ≠ ⟨pno, S⟩ → (f.setPage pno pg').getLive r = f.getLive r := by
  constructor
  · unfold getLive
    dsimp only
    rw [getPage_setPage_self pg' hget]
    dsimp only
    rw [if_pos hbmS, hsl]
    rw [List.getD_eq_getElem?_getD, List.getElem?_set_self (by simpa using hls)]
    rfl
  · intro r hne
    unfold getLive
    by_cases hp : r.page_no = pno
    · rw [hp, getPage_setPage_self pg' hget, hget]
      dsimp only
      have hsne : r.slot_no ≠ S := by
        intro hcontra
        apply hne
        cases r
        dsimp only at hp hcontra
        rw [hp, hcontra]
      rw [hbmne r.slot_no hsne, hsl]
      by_cases hbit : Bitmap.is_set pg.bitmap r.slot_no = true
      · rw [if_pos hbit, if_pos hbit]
        have hr0 := (Bitmap.is_set_bounds hbit).1
        rw [List.getD_eq_getElem?_getD, List.getD_eq_getElem?_getD,
          List.getElem?_set_ne (by omega : S.toNat ≠ r.slot_no.toNat)]
      · rw [if_neg hbit, if_neg hbit]
    · rw [getPage_setPage_ne pg' (getPage_isSome_of_eq hget).1 hp]

theorem getLive_reset {f : RmFile} {pno : Int} {pg pg' : PageData} {S : Int}
    (hget : f.getPage pno = some pg)
    (hbm : pg'.bitmap = Bitmap.reset pg.bitmap S) (hsl : pg'.slots = pg.slots) :
    (f.setPage pno pg').getLive ⟨pno, S⟩ = none ∧
    ∀ r : Rid, r ≠ ⟨pno, S⟩ → (f.setPage pno pg').getLive r = f.getLive r := by
  constructor
  · unfold getLive
    dsimp only
    rw [getPage_setPage_self pg' hget]
    dsimp only
    rw [hbm, Bitmap.is_set_reset_self, if_neg Bool.false_ne_true]
  · intro r hne
    unfold getLive
    by_cases hp : r.page_no = pno
    · rw [hp, getPage_setPage_self pg' hget, hget]
      dsimp only
      have hsne : r.slot_no ≠ S := by
        intro hcontra
        apply hne
        cases r
        dsimp only at hp hcontra
        rw [hp, hcontra]
      rw [hbm, hsl, Bitmap.is_set_reset_ne hsne]
    · rw [getPage_setPage_ne pg' (getPage_isSome_of_eq hget).1 hp]

theorem release_page_handle_getLive (f : RmFile) (pno : Int) :
    ∀ r, (f.release_page_handle pno).getLive r = f.getLive r := by
  intro r
  unfold release_page_handle
  split
  · rfl
  · rename_i pg hget
    exact @getLive_setPage_of_eq f pno pg
      { page_hdr := { num_records := pg.page_hdr.num_records,
                      next_free_page_no := f.file_hdr.first_free_page_no },
        bitmap := pg.bitmap, slots := pg.slots } hget rfl rfl r

theorem unlink_from_getLive {f : RmFile} {target : Int} :
    ∀ (fuel : Nat) (start : Int) {f2 : RmFile},
      f.unlink_from target fuel start = .ok f2 → ∀ r, f2.getLive r = f.getLive r := by
  intro fuel
  induction fuel with
  | zero =>
    intro start f2 h r
    cases h
    rfl
  | succ fuel ih =>
    intro start f2 h r
    unfold unlink_from at h
    split at h
    · cases h; rfl
    · split at h
      · exact absurd h (by simp)
      · rename_i ph hfetch
        split at h
        · cases h
          obtain ⟨hv, hget⟩ := fetch_eq_ok.mp hfetch
          exact @getLive_setPage_of_eq f start ph
            { page_hdr := { num_records := ph.page_hdr.num_records,
                            next_free_page_no := f.nextFree target },
              bitmap := ph.bitmap, slots := ph.slots } hget rfl rfl r
        · exact ih _ h r

theorem create_page_handle_getLive {f fA : RmFile} {pno : Int}
    (h : f.create_page_handle = .ok (fA, pno)) : ∀ r, fA.getLive r = f.getLive r := by
  intro r
  unfold create_page_handle at h
  split at h
  · dsimp only at h
    split at h
    · exact absurd h (by simp)
    · have h2 : f.create_new_page_handle = (fA, pno) := Except.ok.inj h
      have h3 : fA = (f.create_new_page_handle).1 := by rw [h2]
      subst h3
      unfold getLive getPage create_new_page_handle
      dsimp only
      by_cases hneg : r.page_no < RM_FIRST_RECORD_PAGE
      · rw [if_pos hneg, if_pos hneg]
      · rw [if_neg hneg, if_neg hneg, List.getElem?_append]
        by_cases hlt : (r.page_no - 1).toNat < f.pages.length
        · rw [if_pos hlt]
        · rw [if_neg hlt, List.getElem?_eq_none (le_of_not_lt hlt)]
          cases hdl : (r.page_no - 1).toNat - f.pages.length with
          | zero =>
            rw [List.getElem?_cons_zero]
            dsimp only
            rw [Bitmap.is_set_init, if_neg Bool.false_ne_true]
          | succ k =>
            rw [List.getElem?_cons_succ, List.getElem?_nil]
  · split at h
    · exact absurd h (by simp)
    · have h2 : (f, f.file_hdr.first_free_page_no) = (fA, pno) := Except.ok.inj h
      have h3 : fA = f := (congrArg Prod.fst h2).symm
      rw [h3]

end RmFile

namespace RmFile

theorem update_record_getLive {f : RmFile} {r : Rid} {buf : List Nat} {f' : RmFile}
    (hwf : f.WF) (h : f.update_record r buf = .ok f') :
    f'.getLive r = some (buf.take f.file_hdr.record_size) ∧
    ∀ r2 : Rid, r2 ≠ r → f'.getLive r2 = f.getLive r2 := by
  unfold update_record at h
  split at h
  · exact absurd h (by simp)
  · rename_i pg hfetch
    obtain ⟨hv, hget⟩ := fetch_eq_ok.mp hfetch
    split at h
    · rename_i hbit
      cases h
      have hpWF := pageWF_of_getPage hwf hget
      obtain ⟨h0, hlb⟩ := Bitmap.is_set_bounds hbit
      have hls : r.slot_no.toNat < pg.slots.length := by
        have h1 := hpWF.1
        have h2 := hpWF.2.1
        omega
      have hbmS : Bitmap.is_set
          (writeSlot pg r.slot_no f.file_hdr.record_size buf).bitmap r.slot_no = true := by
        rw [writeSlot_bitmap]
        exact hbit
      have hbmne : ∀ j : Int, j ≠ r.slot_no →
          Bitmap.is_set (writeSlot pg r.slot_no f.file_hdr.record_size buf).bitmap j =
          Bitmap.is_set pg.bitmap j := by
        intro j hj
        rw [writeSlot_bitmap]
      have hsl : (writeSlot pg r.slot_no f.file_hdr.record_size buf).slots =
          pg.slots.set r.slot_no.toNat (buf.take f.file_hdr.record_size) := by
        unfold writeSlot
        rw [if_neg (by omega : ¬ r.slot_no < 0)]
      exact @getLive_write f r.page_no pg
        (writeSlot pg r.slot_no f.file_hdr.record_size buf) r.slot_no
        (buf.take f.file_hdr.record_size) hget h0 hbmS hbmne hsl hls
    · exact absurd h (by simp)

theorem delete_record_getLive {f : RmFile} {r : Rid} {f' : RmFile}
    (h : f.delete_record r = .ok f') :
    f'.getLive r = none ∧
    ∀ r2 : Rid, r2 ≠ r → f'.getLive r2 = f.getLive r2 := by
  unfold delete_record at h
  split at h
  · exact absurd h (by simp)
  · rename_i pg hfetch
    obtain ⟨hv, hget⟩ := fetch_eq_ok.mp hfetch
    split at h
    · rename_i hbit
      dsimp only at h
      cases h
      obtain ⟨hd1, hd2⟩ := @getLive_reset f r.page_no pg
        { page_hdr := { num_records := pg.page_hdr.num_records - 1,
                        next_free_page_no := pg.page_hdr.next_free_page_no },
          bitmap := Bitmap.reset pg.bitmap r.slot_no, slots := pg.slots }
        r.slot_no hget rfl rfl
      constructor
      · split
        · rw [release_page_handle_getLive]
          exact hd1
        · exact hd1
      · intro r2 hr2
        split
        · rw [release_page_handle_getLive]
          exact hd2 r2 hr2
        · exact hd2 r2 hr2
    · exact absurd h (by simp)

end RmFile

namespace RmFile

theorem insert_record_getLive {f : RmFile} {buf : List Nat} {f1 : RmFile} {rid2 : Rid}
    (hwf : f.WF) (h : f.insert_record buf = .ok (f1, rid2)) :
    f1.getLive rid2 = some (buf.take f.file_hdr.record_size) ∧
    ∀ r : Rid, r ≠ rid2 → f1.getLive r = f.getLive r := by
  unfold insert_record at h
  split at h
  · exact absurd h (by simp)
  · rename_i fA pno heqc
    have hcg := create_page_handle_getLive heqc
    obtain ⟨hwfA, hrsA, -, -, -, -, -⟩ := create_page_handle_spec hwf heqc
    split at h
    · exact absurd h (by simp)
    · rename_i pg heqf
      dsimp only at h
      obtain ⟨hvA, hgetA⟩ := fetch_eq_ok.mp heqf
      have hpWF := pageWF_of_getPage hwfA hgetA
      split at h
      · exact absurd h (by simp)
      · rename_i hslot
        have hs0 : 0 ≤ Bitmap.first_bit false pg.bitmap
            fA.file_hdr.num_records_per_page := Bitmap.first_bit_nonneg _ _ _
        have hsn : Bitmap.first_bit false pg.bitmap fA.file_hdr.num_records_per_page <
            (fA.file_hdr.num_records_per_page : Int) := not_le.mp hslot
        generalize hS : Bitmap.first_bit false pg.bitmap
            fA.file_hdr.num_records_per_page = S at h hslot hs0 hsn
        have hlb : S.toNat < pg.bitmap.length := by
          have h1 := hpWF.1
          omega
        have hls : S.toNat < pg.slots.length := by
          have h2 := hpWF.2.1
          omega
        have hwS : (writeSlot pg S fA.file_hdr.record_size buf).slots =
            pg.slots.set S.toNat (buf.take fA.file_hdr.record_size) := by
          unfold writeSlot
          rw [if_neg (by omega : ¬ S < 0)]
        rw [hwS] at h
        split at h
        · rename_i hfull
          have hpair := Except.ok.inj h
          have hf1 := congrArg Prod.fst hpair
          have hrid := congrArg Prod.snd hpair
          dsimp only at hf1 hrid
          subst hf1
          subst hrid
          simp only [setPage_replace_hdr_setPage]
          set PGF : PageData :=
            { page_hdr := { num_records := pg.page_hdr.num_records + 1,
                            next_free_page_no := RM_NO_PAGE },
              bitmap := Bitmap.set pg.bitmap S,
              slots := pg.slots.set S.toNat (buf.take fA.file_hdr.record_size) }
            with hPGF
          obtain ⟨hw1, hw2⟩ := @getLive_write fA pno pg PGF S
            (buf.take fA.file_hdr.record_size) hgetA hs0
            (@Bitmap.is_set_set_self pg.bitmap S hs0 hlb)
            (fun j hj => @Bitmap.is_set_set_ne pg.bitmap S j hj) rfl hls
          constructor
          · rw [getLive_replace_hdr, hw1, hrsA]
          · intro r hr
            rw [getLive_replace_hdr, hw2 r hr]
            exact hcg r
        · rename_i hnfull
          have hpair := Except.ok.inj h
          have hf1 := congrArg Prod.fst hpair
          have hrid := congrArg Prod.snd hpair
          dsimp only at hf1 hrid
          subst hf1
          subst hrid
          set PG1 : PageData :=
            { page_hdr := { num_records := pg.page_hdr.num_records + 1,
                            next_free_page_no := pg.page_hdr.next_free_page_no },
              bitmap := Bitmap.set pg.bitmap S,
              slots := pg.slots.set S.toNat (buf.take fA.file_hdr.record_size) }
            with hPG1
          obtain ⟨hw1, hw2⟩ := @getLive_write fA pno pg PG1 S
            (buf.take fA.file_hdr.record_size) hgetA hs0
            (@Bitmap.is_set_set_self pg.bitmap S hs0 hlb)
            (fun j hj => @Bitmap.is_set_set_ne pg.bitmap S j hj) rfl hls
          constructor
          · rw [hw1, hrsA]
          · intro r hr
            rw [hw2 r hr]
            exact hcg r

theorem insert_record_rid_getLive {f : RmFile} {r : Rid} {buf : List Nat} {f' : RmFile}
    (hwf : f.WF) (hr0 : 0 ≤ r.slot_no)
    (hrn : r.slot_no < (f.file_hdr.num_records_per_page : Int))
    (h : f.insert_record_rid r buf = .ok f') :
    f'.getLive r = some (buf.take f.file_hdr.record_size) ∧
    ∀ r2 : Rid, r2 ≠ r → f'.getLive r2 = f.getLive r2 := by
  unfold insert_record_rid at h
  split at h
  · exact absurd h (by simp)
  · rename_i pg hfetch
    obtain ⟨hv, hget⟩ := fetch_eq_ok.mp hfetch
    have hpWF := pageWF_of_getPage hwf hget
    split at h
    · exact absurd h (by simp)
    · rename_i hbitc
      dsimp only at h
      have hlb : r.slot_no.toNat < pg.bitmap.length := by
        have h1 := hpWF.1
        omega
      have hls : r.slot_no.toNat < pg.slots.length := by
        have h2 := hpWF.2.1
        omega
      have hwS : (writeSlot pg r.slot_no f.file_hdr.record_size buf).slots =
          pg.slots.set r.slot_no.toNat (buf.take f.file_hdr.record_size) := by
        unfold writeSlot
        rw [if_neg (by omega : ¬ r.slot_no < 0)]
      rw [hwS] at h
      set PG1 : PageData :=
        { page_hdr := { num_records := pg.page_hdr.num_records + 1,
                        next_free_page_no := pg.page_hdr.next_free_page_no },
          bitmap := Bitmap.set pg.bitmap r.slot_no,
          slots := pg.slots.set r.slot_no.toNat (buf.take f.file_hdr.record_size) }
        with hPG1
      obtain ⟨hw1, hw2⟩ := @getLive_write f r.page_no pg PG1 r.slot_no
        (buf.take f.file_hdr.record_size) hget hr0
        (@Bitmap.is_set_set_self pg.bitmap r.slot_no hr0 hlb)
        (fun j hj => @Bitmap.is_set_set_ne pg.bitmap r.slot_no j hj) rfl hls
      split at h
      · rename_i hfull
        split at h
        · exact absurd h (by simp)
        · rename_i f2 hstep
          have hstep_live : ∀ r2, f2.getLive r2 =
              (f.setPage r.page_no PG1).getLive r2 := by
            split at hstep
            · cases hstep
              intro r2
              rfl
            · intro r2
              exact unlink_from_getLive _ _ hstep r2
          split at h
          · cases h
            exact ⟨by rw [hstep_live, hw1],
              fun r2 hr2 => by rw [hstep_live, hw2 r2 hr2]⟩
          · rename_i pgt hget2
            cases h
            have hlive3 : ∀ r2, ((f2.setPage r.page_no
                { page_hdr := { num_records := pgt.page_hdr.num_records,
                                next_free_page_no := RM_NO_PAGE },
                  bitmap := pgt.bitmap, slots := pgt.slots }) : RmFile).getLive r2 =
                f2.getLive r2 :=
              @getLive_setPage_of_eq f2 r.page_no pgt
                { page_hdr := { num_records := pgt.page_hdr.num_records,
                                next_free_page_no := RM_NO_PAGE },
                  bitmap := pgt.bitmap, slots := pgt.slots } hget2 rfl rfl
            exact ⟨by rw [hlive3, hstep_live, hw1],
              fun r2 hr2 => by rw [hlive3, hstep_live, hw2 r2 hr2]⟩
      · cases h
        exact ⟨by rw [hw1], fun r2 hr2 => by rw [hw2 r2 hr2]⟩

end RmFile

namespace RmFile

/-- The tracked most-recent write is live in the file throughout a
successful run: well-formedness, the record size, and the agreement between
the tracking accumulator and the stored bytes are all maintained. -/
theorem runTrack_getLive {rid : Rid} :
    ∀ (ops : List RmOp) (f : RmFile) (acc : Option (List Nat)) (f' : RmFile)
      (acc' : Option (List Nat)),
      f.WF →
      (∀ op ∈ ops,
        op.Valid f.file_hdr.record_size f.file_hdr.num_records_per_page) →
      (∀ b, acc = some b → f.getLive rid = some b ∧
        b.length = f.file_hdr.record_size) →
      runTrack rid f acc ops = .ok (f', acc') →
      f'.WF ∧ f'.file_hdr.record_size = f.file_hdr.record_size ∧
      (∀ b, acc' = some b → f'.getLive rid = some b ∧
        b.length = f'.file_hdr.record_size) := by
  intro ops
  induction ops with
  | nil =>
    intro f acc f' acc' hwf hvalid hacc h
    unfold runTrack at h
    have hpair := Except.ok.inj h
    have hf := congrArg Prod.fst hpair
    have ha := congrArg Prod.snd hpair
    dsimp only at hf ha
    subst hf
    subst ha
    exact ⟨hwf, rfl, hacc⟩
  | cons op ops ih =>
    intro f acc f' acc' hwf hvalid hacc h
    have hop := hvalid op (List.mem_cons_self _ _)
    have hvtail := fun op2 hm => hvalid op2 (List.mem_cons_of_mem _ hm)
    cases op with
    | ins buf =>
      unfold runTrack at h
      dsimp only at h
      split at h
      · exact absurd h (by simp)
      · rename_i fr heq
        have heq2 : f.insert_record buf = .ok (fr.1, fr.2) := by rw [heq]
        obtain ⟨hg1, hg2⟩ := insert_record_getLive hwf heq2
        have hwf1 : fr.1.WF := insert_record_WF hwf hop heq2
        obtain ⟨hrs1, hn1⟩ := insert_record_geom heq2
        have hvalid1 : ∀ op2 ∈ ops,
            op2.Valid fr.1.file_hdr.record_size
              fr.1.file_hdr.num_records_per_page := by
          intro op2 hm
          rw [hrs1, hn1]
          exact hvtail op2 hm
        have hlen : buf.length = f.file_hdr.record_size := hop
        have hinv1 : ∀ b, (if fr.2 = rid then some buf else acc) = some b →
            fr.1.getLive rid = some b ∧ b.length = fr.1.file_hdr.record_size := by
          intro b hb
          split at hb
          · rename_i heqr
            cases hb
            constructor
            · rw [← heqr, hg1]
              rw [show buf.take f.file_hdr.record_size = buf from by
                rw [← hlen]; exact List.take_length buf]
            · rw [hrs1]
              exact hlen
          · rename_i hneq
            obtain ⟨ha1, ha2⟩ := hacc b hb
            refine ⟨?_, by rw [hrs1]; exact ha2⟩
            rw [hg2 rid (fun hc => hneq hc.symm), ha1]
        obtain ⟨hwf2, hrs2, hinv2⟩ := ih fr.1 _ f' acc' hwf1 hvalid1 hinv1 h
        exact ⟨hwf2, by rw [hrs2, hrs1], hinv2⟩
    | insAt r buf =>
      unfold runTrack at h
      dsimp only at h
      split at h
      · exact absurd h (by simp)
      · rename_i f1 heq
        obtain ⟨hlen, h0, hn⟩ := hop
        obtain ⟨hg1, hg2⟩ := insert_record_rid_getLive hwf h0 hn heq
        have hwf1 : f1.WF := insert_record_rid_WF hwf hlen h0 hn heq
        obtain ⟨hrs1, hn1⟩ := insert_record_rid_geom heq
        have hvalid1 : ∀ op2 ∈ ops,
            op2.Valid f1.file_hdr.record_size f1.file_hdr.num_records_per_page := by
          intro op2 hm
          rw [hrs1, hn1]
          exact hvtail op2 hm
        have hinv1 : ∀ b, (if r = rid then some buf else acc) = some b →
            f1.getLive rid = some b ∧ b.length = f1.file_hdr.record_size := by
          intro b hb
          split at hb
          · rename_i heqr
            cases hb
            constructor
            · rw [← heqr, hg1]
              rw [show buf.take f.file_hdr.record_size = buf from by
                rw [← hlen]; exact List.take_length buf]
            · rw [hrs1]
              exact hlen
          · rename_i hneq
            obtain ⟨ha1, ha2⟩ := hacc b hb
            refine ⟨?_, by rw [hrs1]; exact ha2⟩
            rw [hg2 rid (fun hc => hneq hc.symm), ha1]
        obtain ⟨hwf2, hrs2, hinv2⟩ := ih f1 _ f' acc' hwf1 hvalid1 hinv1 h
        exact ⟨hwf2, by rw [hrs2, hrs1], hinv2⟩
    | del r =>
      unfold runTrack at h
      dsimp only at h
      split at h
      · exact absurd h (by simp)
      · rename_i f1 heq
        obtain ⟨hg1, hg2⟩ := delete_record_getLive heq
        have hwf1 : f1.WF := delete_record_WF hwf heq
        obtain ⟨hrs1, hn1⟩ := delete_record_geom heq
        have hvalid1 : ∀ op2 ∈ ops,
            op2.Valid f1.file_hdr.record_size f1.file_hdr.num_records_per_page := by
          intro op2 hm
          rw [hrs1, hn1]
          exact hvtail op2 hm
        have hinv1 : ∀ b, (if r = rid then none else acc) = some b →
            f1.getLive rid = some b ∧ b.length = f1.file_hdr.record_size := by
          intro b hb
          split at hb
          · exact absurd hb (by simp)
          · rename_i hneq
            obtain ⟨ha1, ha2⟩ := hacc b hb
            refine ⟨?_, by rw [hrs1]; exact ha2⟩
            rw [hg2 rid (fun hc => hneq hc.symm), ha1]
        obtain ⟨hwf2, hrs2, hinv2⟩ := ih f1 _ f' acc' hwf1 hvalid1 hinv1 h
        exact ⟨hwf2, by rw [hrs2, hrs1], hinv2⟩
    | upd r buf =>
      unfold runTrack at h
      dsimp only at h
      split at h
      · exact absurd h (by simp)
      · rename_i f1 heq
        have hlen : buf.length = f.file_hdr.record_size := hop
        obtain ⟨hg1, hg2⟩ := update_record_getLive hwf heq
        have hwf1 : f1.WF := update_record_WF hwf hop heq
        obtain ⟨hrs1, hn1⟩ := update_record_geom heq
        have hvalid1 : ∀ op2 ∈ ops,
            op2.Valid f1.file_hdr.record_size f1.file_hdr.num_records_per_page := by
          intro op2 hm
          rw [hrs1, hn1]
          exact hvtail op2 hm
        have hinv1 : ∀ b, (if r = rid then some buf else acc) = some b →
            f1.getLive rid = some b ∧ b.length = f1.file_hdr.record_size := by
          intro b hb
          split at hb
          · rename_i heqr
            cases hb
            constructor
            · rw [← heqr, hg1]
              rw [show buf.take f.file_hdr.record_size = buf from by
                rw [← hlen]; exact List.take_length buf]
            · rw [hrs1]
              exact hlen
          · rename_i hneq
            obtain ⟨ha1, ha2⟩ := hacc b hb
            refine ⟨?_, by rw [hrs1]; exact ha2⟩
            rw [hg2 rid (fun hc => hneq hc.symm), ha1]
        obtain ⟨hwf2, hrs2, hinv2⟩ := ih f1 _ f' acc' hwf1 hvalid1 hinv1 h
        exact ⟨hwf2, by rw [hrs2, hrs1], hinv2⟩

/-- A live slot holding exactly `record_size` bytes is what `get_record`
returns. -/
theorem get_record_of_getLive {f : RmFile} {rid : Rid} {buf : List Nat}
    (hwf : f.WF) (hl : f.getLive rid = some buf)
    (hlen : buf.length = f.file_hdr.record_size) :
    f.get_record rid = .ok buf := by
  unfold getLive at hl
  split at hl
  · exact absurd hl (by simp)
  · rename_i pg hget
    split at hl
    · rename_i hbit
      have hstored := Option.some.inj hl
      have hv : f.ValidPage rid.page_no := by
        obtain ⟨h1, h2⟩ := getPage_isSome_of_eq hget
        refine ⟨h1, ?_⟩
        have h1' : (1 : Int) ≤ rid.page_no := h1
        have hnp := hwf.2.1
        omega
      have hfetch : f.fetch_page_handle rid.page_no = .ok pg :=
        fetch_eq_ok.mpr ⟨hv, hget⟩
      unfold get_record
      rw [hfetch]
      dsimp only
      rw [if_pos hbit, hstored]
      rw [show buf.take f.file_hdr.record_size = buf from by
        rw [← hlen]; exact List.take_length buf]
    · exact absurd hl (by simp)

end RmFile

open RmFile in
/-- C1: in a well-formed file, `get_record(rid)` returns exactly the bytes
most recently written at `rid` by `insert_record` (either variant) or
`update_record` when no `delete_record(rid)` intervened: whenever the
rid-tracking run `runTrack` ends with accumulator `some buf` — i.e. the last
operation touching `rid` wrote `buf` — `get_record` returns `.ok buf`.  In
particular an `insert_record(buf)` returning `rid` followed by
`get_record(rid)` returns `buf`. -/
theorem C1_get_most_recent_write (f0 : RmFile) (ops : List RmOp) (rid : Rid)
    (f : RmFile) (buf : List Nat) (hwf : f0.WF)
    (hvalid : ∀ op ∈ ops,
      op.Valid f0.file_hdr.record_size f0.file_hdr.num_records_per_page)
    (h : RmFile.runTrack rid f0 none ops = .ok (f, some buf)) :
    f.get_record rid = .ok buf := by
  obtain ⟨hwf', -, hinv⟩ := runTrack_getLive ops f0 none f (some buf) hwf hvalid
    (fun b hb => absurd hb (by simp)) h
  obtain ⟨hl, hlen⟩ := hinv buf rfl
  exact get_record_of_getLive hwf' hl hlen

/-- C1 (witness): on a concrete run the update at `⟨1, 1⟩` is the most
recent write there, and `get_record` returns exactly those bytes. -/
theorem C1_get_most_recent_write_witness :
    emptyFile2.WF ∧
    (∀ op ∈ opsC2, RmOp.Valid emptyFile2.file_hdr.record_size
      emptyFile2.file_hdr.num_records_per_page op) ∧
    RmFile.runTrack ⟨1, 1⟩ emptyFile2 none opsC2 = .ok (resC2, some [8]) ∧
    resC2.get_record ⟨1, 1⟩ = .ok [8] :=
  ⟨RmFile.WF_of_wfB (by decide), by decide, by decide,
    C1_get_most_recent_write emptyFile2 opsC2 ⟨1, 1⟩ resC2 [8]
      (RmFile.WF_of_wfB (by decide)) (by decide) (by decide)⟩

/-! ### C8: the scan enumerates exactly the live records in order -/

namespace Bitmap

theorem scan_from_nonneg (b : Bool) (bm : List Bool) (n i : Nat) :
    0 ≤ scan_from b bm n i := by
  by_cases hin : i ≤ n
  · exact le_trans (Int.ofNat_nonneg i) (scan_from_ge hin)
  · rw [scan_from_eq, if_neg (by omega)]
    exact Int.ofNat_nonneg n

/-- Combined facts about `next_bit` relative to the exclusive lower bound
`B ≥ -1`: the result is strictly past `B`, hits a matching bit when below
`n`, skips no matching bit in between, and stops short of `n` whenever a
matching bit exists past `B`. -/
theorem next_bit_props (bm : List Bool) (n : Nat) (B : Int) (hB : -1 ≤ B)
    (hBn : B < (n : Int)) :
    B < next_bit true bm n B ∧
    (next_bit true bm n B < (n : Int) →
      bm.getD (next_bit true bm n B).toNat false = true) ∧
    (∀ k : Int, B < k → k < next_bit true bm n B → 0 ≤ k →
      bm.getD k.toNat false ≠ true) ∧
    ((∃ k : Int, B < k ∧ 0 ≤ k ∧ k < (n : Int) ∧ bm.getD k.toNat false = true) →
      next_bit true bm n B < (n : Int)) := by
  unfold next_bit
  have hBt : ((B + 1).toNat : Int) = B + 1 := by omega
  have hin : (B + 1).toNat ≤ n := by omega
  refine ⟨?_, ?_, ?_, ?_⟩
  · have hge := @scan_from_ge true bm n (B + 1).toNat hin
    omega
  · intro h
    exact scan_from_hit h
  · intro k hk1 hk2 hk0
    have hlt2 : ((k.toNat : Nat) : Int) < scan_from true bm n (B + 1).toNat := by
      have hkk : ((k.toNat : Nat) : Int) = k := by omega
      rw [hkk]
      exact hk2
    exact scan_from_min (by omega) hlt2
  · rintro ⟨k, hk1, hk0, hkn, hkbit⟩
    exact scan_from_lt_of_exists (by omega) (by omega) hkbit

end Bitmap

theorem ridLt_asymm {a b : Rid} (h : ridLt a b) : ¬ ridLt b a := by
  unfold ridLt at *
  omega

theorem ridLt_trans {a b c : Rid} (h1 : ridLt a b) (h2 : ridLt b c) : ridLt a c := by
  unfold ridLt at *
  omega

theorem ridLt_irrefl (a : Rid) : ¬ ridLt a a := by
  unfold ridLt
  omega

section ScanEnumeration

open RmFile

theorem mem_liveRids {f : RmFile} {x : Rid} :
    x ∈ liveRids f ↔ ∃ pg, f.getPage x.page_no = some pg ∧
      RM_FIRST_RECORD_PAGE ≤ x.page_no ∧ 0 ≤ x.slot_no ∧
      x.slot_no < (f.file_hdr.num_records_per_page : Int) ∧
      Bitmap.is_set pg.bitmap x.slot_no = true := by
  unfold liveRids
  rw [List.mem_flatten]
  constructor
  · rintro ⟨L, hL, hxL⟩
    obtain ⟨i, hi, rfl⟩ := List.mem_map.mp hL
    cases hg : f.getPage ((i : Int) + 1) with
    | none =>
      rw [hg] at hxL
      exact absurd hxL (List.not_mem_nil x)
    | some pg =>
      rw [hg] at hxL
      obtain ⟨s, hs, rfl⟩ := List.mem_map.mp hxL
      obtain ⟨hsr, hsb⟩ := List.mem_filter.mp hs
      have hsn := List.mem_range.mp hsr
      refine ⟨pg, hg, ?_, ?_, ?_, hsb⟩
      · show (1 : Int) ≤ (i : Int) + 1
        omega
      · show (0 : Int) ≤ ((s : Nat) : Int)
        exact Int.ofNat_nonneg s
      · show ((s : Nat) : Int) < (f.file_hdr.num_records_per_page : Int)
        exact_mod_cast hsn
  · rintro ⟨pg, hg, h1, h0, hn, hbit⟩
    have hb := getPage_isSome_of_eq hg
    have hb1 : (1 : Int) ≤ x.page_no := hb.1
    have hpi : (((x.page_no - 1).toNat : Nat) : Int) + 1 = x.page_no := by omega
    refine ⟨_, List.mem_map.mpr ⟨(x.page_no - 1).toNat, List.mem_range.mpr hb.2, rfl⟩, ?_⟩
    rw [hpi, hg]
    refine List.mem_map.mpr ⟨x.slot_no.toNat, ?_, ?_⟩
    · refine List.mem_filter.mpr ⟨List.mem_range.mpr (by omega), ?_⟩
      show Bitmap.is_set pg.bitmap ((x.slot_no.toNat : Nat) : Int) = true
      rw [Int.toNat_of_nonneg h0]
      exact hbit
    · show (⟨x.page_no, ((x.slot_no.toNat : Nat) : Int)⟩ : Rid) = x
      rw [Int.toNat_of_nonneg h0]

theorem pairwise_liveRids (f : RmFile) : (liveRids f).Pairwise ridLt := by
  unfold liveRids
  rw [List.pairwise_flatten]
  constructor
  · intro L hL
    obtain ⟨i, hi, rfl⟩ := List.mem_map.mp hL
    cases hg : f.getPage ((i : Int) + 1) with
    | none => exact List.Pairwise.nil
    | some pg =>
      dsimp only
      rw [List.pairwise_map]
      exact ((List.pairwise_lt_range _).filter _).imp
        (fun hab => Or.inr ⟨rfl, by simpa using hab⟩)
  · rw [List.pairwise_map]
    refine (List.pairwise_lt_range _).imp ?_
    intro i j hij x hx y hy
    have hxp : x.page_no = (i : Int) + 1 := by
      cases hg : f.getPage ((i : Int) + 1) with
      | none =>
        rw [hg] at hx
        exact absurd hx (List.not_mem_nil x)
      | some pg =>
        rw [hg] at hx
        obtain ⟨s, -, rfl⟩ := List.mem_map.mp hx
        rfl
    have hyp : y.page_no = (j : Int) + 1 := by
      cases hg : f.getPage ((j : Int) + 1) with
      | none =>
        rw [hg] at hy
        exact absurd hy (List.not_mem_nil y)
      | some pg =>
        rw [hg] at hy
        obtain ⟨s, -, rfl⟩ := List.mem_map.mp hy
        rfl
    unfold ridLt
    left
    omega

theorem filter_head_of_min {L : List Rid} (hs : L.Pairwise ridLt) {q : Rid → Bool}
    {x : Rid} (hx : x ∈ L.filter q)
    (hmin : ∀ y ∈ L.filter q, ¬ ridLt y x) :
    ∃ t, L.filter q = x :: t := by
  cases hf : L.filter q with
  | nil =>
    rw [hf] at hx
    exact absurd hx (List.not_mem_nil x)
  | cons z t =>
    rw [hf] at hx
    have hzmem : z ∈ L.filter q := by
      rw [hf]
      exact List.mem_cons_self _ _
    rcases List.mem_cons.mp hx with rfl | hxt
    · exact ⟨t, rfl⟩
    · have hps : (L.filter q).Pairwise ridLt := hs.filter q
      rw [hf] at hps
      have := (List.pairwise_cons.mp hps).1 x hxt
      exact absurd this (hmin z hzmem)

theorem filter_sorted_tail {L : List Rid} (hs : L.Pairwise ridLt) {r x : Rid}
    {t : List Rid}
    (h : L.filter (fun y => decide (ridLt r y)) = x :: t) :
    L.filter (fun y => decide (ridLt x y)) = t := by
  induction L with
  | nil => simp at h
  | cons z L ih =>
    have hzL := (List.pairwise_cons.mp hs).1
    have hsL := (List.pairwise_cons.mp hs).2
    by_cases hrz : ridLt r z
    · rw [List.filter_cons, if_pos (decide_eq_true hrz)] at h
      injection h with h1 h2
      subst h1
      rw [List.filter_cons, if_neg (by simpa using ridLt_irrefl z)]
      have hLx : List.filter (fun y => decide (ridLt z y)) L = L :=
        List.filter_eq_self.mpr (fun a ha => decide_eq_true (hzL a ha))
      have hLr : List.filter (fun y => decide (ridLt r y)) L = L :=
        List.filter_eq_self.mpr
          (fun a ha => decide_eq_true (ridLt_trans hrz (hzL a ha)))
      rw [hLx, ← h2, hLr]
    · rw [List.filter_cons, if_neg (by simpa using hrz)] at h
      have ht := ih hsL h
      have hxL : x ∈ L := by
        have hxf : x ∈ List.filter (fun y => decide (ridLt r y)) L := by
          rw [h]
          exact List.mem_cons_self _ _
        exact List.mem_of_mem_filter hxf
      rw [List.filter_cons, if_neg (by simpa using ridLt_asymm (hzL x hxL))]
      exact ht

end ScanEnumeration

section ScanEnumeration2

open RmFile

/-- The page loop of the scan returns the first live rid strictly after the
stored position `r` (in `(page_no, slot_no)` order), or the
`(RM_NO_PAGE, RM_NO_PAGE)` end state when there is none. -/
theorem loop_spec {f : RmFile} (hwf : f.WF) (r : Rid)
    (hr2 : -1 ≤ r.slot_no)
    (hr3 : r.slot_no < (f.file_hdr.num_records_per_page : Int)) :
    ∀ (fuel : Nat) (p : Int), RM_FIRST_RECORD_PAGE ≤ p → r.page_no ≤ p →
      f.file_hdr.num_pages ≤ p + fuel →
      (∀ x ∈ liveRids f, ridLt r x → p ≤ x.page_no) →
      RmScan.loop f r.page_no r.slot_no fuel p =
        .ok (match liveAfter f r with
             | [] => ⟨RM_NO_PAGE, RM_NO_PAGE⟩
             | x :: _ => x) := by
  intro fuel
  induction fuel with
  | zero =>
    intro p hp1 hpr hfuel hskip
    have hnone : liveAfter f r = [] := by
      unfold liveAfter
      rw [List.filter_eq_nil_iff]
      intro x hx hd
      have hlt := of_decide_eq_true hd
      have hple := hskip x hx hlt
      obtain ⟨pgx, hgx, -, -, -, -⟩ := mem_liveRids.mp hx
      have hb := getPage_isSome_of_eq hgx
      have hb1 : (1 : Int) ≤ x.page_no := hb.1
      have hb2 := hb.2
      have hnp := hwf.2.1
      omega
    unfold RmScan.loop
    rw [hnone]
  | succ fuel ih =>
    intro p hp1 hpr hfuel hskip
    unfold RmScan.loop
    by_cases hplt : f.file_hdr.num_pages ≤ p
    · rw [if_pos hplt]
      have hnone : liveAfter f r = [] := by
        unfold liveAfter
        rw [List.filter_eq_nil_iff]
        intro x hx hd
        have hlt := of_decide_eq_true hd
        have hple := hskip x hx hlt
        obtain ⟨pgx, hgx, -, -, -, -⟩ := mem_liveRids.mp hx
        have hb := getPage_isSome_of_eq hgx
        have hb1 : (1 : Int) ≤ x.page_no := hb.1
        have hb2 := hb.2
        have hnp := hwf.2.1
        omega
      rw [hnone]
    · rw [if_neg hplt]
      have hv : f.ValidPage p := ⟨hp1, lt_of_not_le hplt⟩
      obtain ⟨pg, hget, hfetch⟩ := fetch_of_valid hwf.2.1 hv
      rw [hfetch]
      dsimp only
      have hpWF := pageWF_of_getPage hwf hget
      have hbm := hpWF.1
      generalize hBdef : (if p = r.page_no then r.slot_no else (-1 : Int)) = B
      have hB1 : -1 ≤ B := by
        rw [← hBdef]
        split
        · exact hr2
        · exact le_refl _
      have hBn : B < (f.file_hdr.num_records_per_page : Int) := by
        rw [← hBdef]
        split
        · exact hr3
        · have : (0 : Int) ≤ (f.file_hdr.num_records_per_page : Int) :=
            Int.ofNat_nonneg _
          omega
      have hBlt : ∀ x : Rid, ridLt r x → x.page_no = p → 0 ≤ x.slot_no →
          B < x.slot_no := by
        intro x hlt hxp hx0
        rw [← hBdef]
        split
        · rename_i hpe
          unfold ridLt at hlt
          omega
        · omega
      obtain ⟨hgt, hhit, hmin, hex⟩ := Bitmap.next_bit_props pg.bitmap
        f.file_hdr.num_records_per_page B hB1 hBn
      generalize hS : Bitmap.next_bit true pg.bitmap
        f.file_hdr.num_records_per_page B = S at hgt hhit hmin hex ⊢
      by_cases hslt : S < (f.file_hdr.num_records_per_page : Int)
      · rw [if_pos hslt]
        have hs0 : 0 ≤ S := by omega
        have hbit : Bitmap.is_set pg.bitmap S = true := by
          unfold Bitmap.is_set
          rw [if_neg (by omega)]
          exact hhit hslt
        have hmem : (⟨p, S⟩ : Rid) ∈ liveRids f :=
          mem_liveRids.mpr ⟨pg, hget, hp1, hs0, hslt, hbit⟩
        have hrlt : ridLt r ⟨p, S⟩ := by
          by_cases hpe : p = r.page_no
          · have hBe : B = r.slot_no := by
              rw [← hBdef, if_pos hpe]
            unfold ridLt
            dsimp only
            omega
          · unfold ridLt
            dsimp only
            omega
        have hminimal : ∀ y ∈ (liveRids f).filter (fun x => decide (ridLt r x)),
            ¬ ridLt y ⟨p, S⟩ := by
          intro y hy hylt
          have hymem := List.mem_of_mem_filter hy
          have hyr := of_decide_eq_true (List.mem_filter.mp hy).2
          have hyple := hskip y hymem hyr
          obtain ⟨pgy, hgy, -, hy0, hyn, hybit⟩ := mem_liveRids.mp hymem
          unfold ridLt at hylt
          dsimp only at hylt
          rcases hylt with hlt1 | ⟨hpe2, hlt2⟩
          · omega
          · have hgy2 : pgy = pg := by
              rw [hpe2] at hgy
              exact Option.some.inj (hgy.symm.trans hget)
            have hBy := hBlt y hyr hpe2 hy0
            rw [hgy2] at hybit
            exact absurd (Bitmap.getD_of_is_set hybit)
              (hmin y.slot_no hBy (by omega) hy0)
        obtain ⟨t, hfh⟩ := filter_head_of_min (pairwise_liveRids f)
          (List.mem_filter.mpr ⟨hmem, decide_eq_true hrlt⟩) hminimal
        have hfh2 : liveAfter f r = ⟨p, S⟩ :: t := hfh
        rw [hfh2]
      · rw [if_neg hslt]
        apply ih (p + 1) (by omega) (by omega) (by omega)
        intro x hx hlt
        have hxp := hskip x hx hlt
        rcases lt_or_eq_of_le hxp with h' | h'
        · omega
        · exfalso
          obtain ⟨pgx, hgx, -, hx0, hxn, hxbit⟩ := mem_liveRids.mp hx
          have hgx2 : pgx = pg := by
            rw [h'] at hget
            exact Option.some.inj (hgx.symm.trans hget)
          rw [hgx2] at hxbit
          exact hslt (hex ⟨x.slot_no, hBlt x hlt h'.symm hx0, hx0, hxn,
            Bitmap.getD_of_is_set hxbit⟩)

/-- `RmScan::next` from a position strictly inside the slot range returns
the first live rid after that position, or the end state. -/
theorem next_spec {f : RmFile} (hwf : f.WF) (r : Rid)
    (hr1 : RM_FIRST_RECORD_PAGE ≤ r.page_no) (hr2 : -1 ≤ r.slot_no)
    (hr3 : r.slot_no < (f.file_hdr.num_records_per_page : Int))
    (hnp : RM_FIRST_RECORD_PAGE < f.file_hdr.num_pages) :
    RmScan.next f r = .ok (match liveAfter f r with
      | [] => ⟨RM_NO_PAGE, RM_NO_PAGE⟩
      | x :: _ => x) := by
  unfold RmScan.next
  rw [if_neg (not_le.mpr hnp)]
  apply loop_spec hwf r hr2 hr3 _ r.page_no hr1 (le_refl _) (by omega)
  intro x hx hlt
  unfold ridLt at hlt
  omega

end ScanEnumeration2

section ScanEnumeration3

open RmFile

/-- Driving the scan from any in-range position visits exactly the live
rids after that position, in order, and then parks in the
`(RM_NO_PAGE, RM_NO_PAGE)` end state. -/
theorem scan_trace {f : RmFile} (hwf : f.WF)
    (hnp : RM_FIRST_RECORD_PAGE < f.file_hdr.num_pages) :
    ∀ (l : List Rid) (r : Rid), RM_FIRST_RECORD_PAGE ≤ r.page_no →
      -1 ≤ r.slot_no → r.slot_no < (f.file_hdr.num_records_per_page : Int) →
      liveAfter f r = l →
      ∃ r2, RmScan.next f r = .ok r2 ∧
        scanSeq f (l.length + 1) r2 = .ok (l, ⟨RM_NO_PAGE, RM_NO_PAGE⟩) := by
  intro l
  induction l with
  | nil =>
    intro r h1 h2 h3 hl
    refine ⟨⟨RM_NO_PAGE, RM_NO_PAGE⟩, ?_, ?_⟩
    · rw [next_spec hwf r h1 h2 h3 hnp, hl]
    · rfl
  | cons x l ih =>
    intro r h1 h2 h3 hl
    refine ⟨x, ?_, ?_⟩
    · rw [next_spec hwf r h1 h2 h3 hnp, hl]
    · have hxmem : x ∈ liveRids f := by
        have hxa : x ∈ liveAfter f r := by
          rw [hl]
          exact List.mem_cons_self _ _
        exact List.mem_of_mem_filter hxa
      obtain ⟨pgx, hgx, hx1, hx0, hxn, hxbit⟩ := mem_liveRids.mp hxmem
      have htail : liveAfter f x = l := filter_sorted_tail (pairwise_liveRids f) hl
      obtain ⟨r3, hnext3, hseq3⟩ := ih x hx1 (by omega) hxn htail
      show scanSeq f (l.length + 1 + 1) x = .ok (x :: l, ⟨RM_NO_PAGE, RM_NO_PAGE⟩)
      unfold scanSeq
      have hend : RmScan.is_end x = false := by
        unfold RmScan.is_end
        have hx1' : (1 : Int) ≤ x.page_no := hx1
        have hnpg : RM_NO_PAGE = (-1 : Int) := rfl
        exact decide_eq_false (by omega)
      rw [hend, if_neg Bool.false_ne_true, hnext3]
      dsimp only
      rw [hseq3]

end ScanEnumeration3

open RmFile in
/-- C8: on a well-formed file the freshly constructed scan yields, through
its successive `rid()` values, exactly the rids of live records (set bitmap
bits) in strictly increasing `(page_no, slot_no)` order, each exactly once,
and then parks in the end state with `page_no = slot_no = RM_NO_PAGE` where
`is_end()` holds; on a file with no data pages the scan is at end
immediately after construction. -/
theorem C8_scan_enumeration (f : RmFile) (hwf : f.WF) :
    ∃ r0, RmScan.start f = .ok r0 ∧
      scanSeq f ((liveRids f).length + 1) r0 =
        .ok (liveRids f, ⟨RM_NO_PAGE, RM_NO_PAGE⟩) ∧
      List.Pairwise ridLt (liveRids f) ∧
      (∀ x : Rid, x ∈ liveRids f ↔ ∃ pg, f.getPage x.page_no = some pg ∧
        RM_FIRST_RECORD_PAGE ≤ x.page_no ∧ 0 ≤ x.slot_no ∧
        x.slot_no < (f.file_hdr.num_records_per_page : Int) ∧
        Bitmap.is_set pg.bitmap x.slot_no = true) ∧
      (f.file_hdr.num_pages ≤ RM_FIRST_RECORD_PAGE →
        r0 = ⟨RM_NO_PAGE, RM_NO_PAGE⟩ ∧ RmScan.is_end r0 = true) := by
  by_cases hnp : RM_FIRST_RECORD_PAGE < f.file_hdr.num_pages
  · have hall : liveAfter f ⟨RM_FIRST_RECORD_PAGE, -1⟩ = liveRids f := by
      unfold liveAfter
      apply List.filter_eq_self.mpr
      intro x hx
      obtain ⟨pgx, hgx, hx1, hx0, -, -⟩ := mem_liveRids.mp hx
      apply decide_eq_true
      unfold ridLt
      dsimp only
      have hx1' : (1 : Int) ≤ x.page_no := hx1
      have hfr : RM_FIRST_RECORD_PAGE = (1 : Int) := rfl
      omega
    obtain ⟨r0, hn0, hseq⟩ := scan_trace hwf hnp (liveRids f)
      ⟨RM_FIRST_RECORD_PAGE, -1⟩ (le_refl _) (le_refl _)
      (by
        show (-1 : Int) < (f.file_hdr.num_records_per_page : Int)
        have h2 : (0 : Int) ≤ (f.file_hdr.num_records_per_page : Int) :=
          Int.ofNat_nonneg _
        omega) hall
    exact ⟨r0, hn0, hseq, pairwise_liveRids f, fun x => mem_liveRids,
      fun hle => absurd hnp (not_lt.mpr hle)⟩
  · push_neg at hnp
    have hnp2 := hwf.2.1
    have hlen : f.pages.length = 0 := by
      have hfr : RM_FIRST_RECORD_PAGE = (1 : Int) := rfl
      omega
    have hlr : liveRids f = [] := by
      unfold liveRids
      rw [hlen]
      rfl
    refine ⟨⟨RM_NO_PAGE, RM_NO_PAGE⟩, ?_, ?_, ?_, ?_, ?_⟩
    · unfold RmScan.start RmScan.next
      rw [if_pos hnp]
    · rw [hlr]
      rfl
    · rw [hlr]
      exact List.Pairwise.nil
    · intro x
      rw [hlr]
      constructor
      · intro hx
        exact absurd hx (List.not_mem_nil x)
      · rintro ⟨pg, hg, -, -, -, -⟩
        have hb := getPage_isSome_of_eq hg
        have hb1 : (1 : Int) ≤ x.page_no := hb.1
        have hb2 := hb.2
        omega
    · intro hle
      exact ⟨rfl, rfl⟩

/-- C8 (witness): on a concrete three-record file the scan visits
`(1,0), (1,1), (2,0)` and then the end state. -/
theorem C8_scan_enumeration_witness :
    resC2.WF ∧
    liveRids resC2 = [⟨1, 0⟩, ⟨1, 1⟩, ⟨2, 0⟩] ∧
    RmScan.start resC2 = .ok ⟨1, 0⟩ ∧
    scanSeq resC2 4 ⟨1, 0⟩ = .ok ([⟨1, 0⟩, ⟨1, 1⟩, ⟨2, 0⟩], ⟨-1, -1⟩) ∧
    (∃ r0, RmScan.start resC2 = .ok r0 ∧
      scanSeq resC2 ((liveRids resC2).length + 1) r0 =
        .ok (liveRids resC2, ⟨RM_NO_PAGE, RM_NO_PAGE⟩) ∧
      List.Pairwise ridLt (liveRids resC2) ∧
      (∀ x : Rid, x ∈ liveRids resC2 ↔ ∃ pg, resC2.getPage x.page_no = some pg ∧
        RM_FIRST_RECORD_PAGE ≤ x.page_no ∧ 0 ≤ x.slot_no ∧
        x.slot_no < (resC2.file_hdr.num_records_per_page : Int) ∧
        Bitmap.is_set pg.bitmap x.slot_no = true) ∧
      (resC2.file_hdr.num_pages ≤ RM_FIRST_RECORD_PAGE →
        r0 = ⟨RM_NO_PAGE, RM_NO_PAGE⟩ ∧ RmScan.is_end r0 = true)) :=
  ⟨RmFile.WF_of_wfB (by decide), by decide, by decide, by decide,
    C8_scan_enumeration resC2 (RmFile.WF_of_wfB (by decide))⟩

/-! ### C3: abort undoes the write set — but not bit-for-bit -/

/-- C3 (counterexample): aborting a transaction whose only write is an
insert runs `delete_record` on the inserted rid, which clears the bitmap
bit but leaves the inserted bytes in the now-dead slot; the pre-transaction
file had different residual bytes there, so the record-manager state is not
restored bit-for-bit. -/
theorem C3_counterexample :
    fC3.WF ∧
    fC3.insert_record [5] = .ok (fC3ins, ⟨1, 0⟩) ∧
    txnC3.write_set = [⟨"t", ⟨1, 0⟩, WriteType.INSERT_TUPLE, []⟩] ∧
    sC3.catalog = [("t", fC3ins)] ∧
    TransactionManager.abort sC3 txnC3 = .ok (sC3res, txnC3res) ∧
    lookupC sC3res.catalog "t" ≠ some fC3 :=
  ⟨RmFile.WF_of_wfB (by decide), by decide, rfl, rfl, by decide, by decide⟩

section CatalogLemmas

theorem lookupC_updateC_self {cat : Catalog} {t : String} {f : RmFile} (fh : RmFile)
    (h : lookupC cat t = some f) :
    lookupC (updateC cat t fh) t = some fh := by
  induction cat with
  | nil => simp [lookupC] at h
  | cons e cat ih =>
    by_cases he : e.1 = t
    · simp [lookupC, updateC, List.find?, he]
    · have h' : lookupC cat t = some f := by
        unfold lookupC at h
        rw [List.find?_cons_of_neg _ (by simpa using he)] at h
        exact h
      have hih := ih h'
      unfold lookupC updateC at hih ⊢
      rw [List.map_cons, if_neg he, List.find?_cons_of_neg _ (by simpa using he)]
      exact hih

theorem lookupC_updateC_ne {cat : Catalog} {t t' : String} (fh : RmFile)
    (hne : t' ≠ t) :
    lookupC (updateC cat t fh) t' = lookupC cat t' := by
  induction cat with
  | nil => rfl
  | cons e cat ih =>
    unfold lookupC updateC at ih ⊢
    rw [List.map_cons]
    by_cases he : e.1 = t
    · rw [if_pos he]
      rw [List.find?_cons_of_neg _ (by simpa using fun hc => hne hc.symm),
        List.find?_cons_of_neg _ (by
          simpa using fun hc => hne ((he.symm.trans hc).symm))]
      exact ih
    · rw [if_neg he]
      by_cases hp : e.1 = t'
      · rw [List.find?_cons_of_pos _ (by simpa using hp),
          List.find?_cons_of_pos _ (by simpa using hp)]
      · rw [List.find?_cons_of_neg _ (by simpa using hp),
          List.find?_cons_of_neg _ (by simpa using hp)]
        exact ih

theorem lookupC_updateC_none {cat : Catalog} {t : String} (fh : RmFile)
    (h : lookupC cat t = none) :
    lookupC (updateC cat t fh) t = none := by
  induction cat with
  | nil => rfl
  | cons e cat ih =>
    by_cases he : e.1 = t
    · exfalso
      unfold lookupC at h
      rw [List.find?_cons_of_pos _ (by simpa using he)] at h
      exact absurd h (by simp)
    · have h' : lookupC cat t = none := by
        unfold lookupC at h
        rw [List.find?_cons_of_neg _ (by simpa using he)] at h
        exact h
      have hih := ih h'
      unfold lookupC updateC at hih ⊢
      rw [List.map_cons, if_neg he, List.find?_cons_of_neg _ (by simpa using he)]
      exact hih

end CatalogLemmas

namespace RmFile

theorem getLive_some_spec {f : RmFile} {r : Rid} {b : List Nat} (hwf : f.WF)
    (h : f.getLive r = some b) :
    ∃ pg, f.getPage r.page_no = some pg ∧ f.ValidPage r.page_no ∧
      Bitmap.is_set pg.bitmap r.slot_no = true ∧
      0 ≤ r.slot_no ∧ r.slot_no < (f.file_hdr.num_records_per_page : Int) ∧
      b.length = f.file_hdr.record_size := by
  unfold getLive at h
  split at h
  · exact absurd h (by simp)
  · rename_i pg hget
    split at h
    · rename_i hbit
      have hb := Option.some.inj h
      have hpWF := pageWF_of_getPage hwf hget
      obtain ⟨h0, hlb⟩ := Bitmap.is_set_bounds hbit
      have hbounds := getPage_isSome_of_eq hget
      have hv : f.ValidPage r.page_no := by
        refine ⟨hbounds.1, ?_⟩
        have h1' : (1 : Int) ≤ r.page_no := hbounds.1
        have hnp := hwf.2.1
        have hb2 := hbounds.2
        omega
      have hbm := hpWF.1
      have hsl := hpWF.2.1
      have hidx : r.slot_no.toNat < pg.slots.length := by omega
      refine ⟨pg, hget, hv, hbit, h0, by omega, ?_⟩
      rw [← hb, List.getD_eq_getElem?_getD, List.getElem?_eq_getElem hidx,
        Option.getD_some]
      exact hpWF.2.2.1 _ (List.getElem_mem hidx)
    · exact absurd h (by simp)

theorem getLive_none_bit {f : RmFile} {r : Rid} {pg : PageData}
    (h : f.getLive r = none) (hget : f.getPage r.page_no = some pg) :
    Bitmap.is_set pg.bitmap r.slot_no = false := by
  unfold getLive at h
  rw [hget] at h
  dsimp only at h
  cases hb2 : Bitmap.is_set pg.bitmap r.slot_no with
  | false => rfl
  | true =>
    rw [if_pos hb2] at h
    exact absurd h (by simp)

theorem release_page_handle_pages (f : RmFile) (pno : Int) :
    (f.release_page_handle pno).pages.length = f.pages.length := by
  unfold release_page_handle
  split
  · rfl
  · exact setPage_pages_length _ _ _

theorem update_record_pages {f : RmFile} {rid : Rid} {buf : List Nat} {f' : RmFile}
    (h : f.update_record rid buf = .ok f') : f'.pages.length = f.pages.length := by
  unfold update_record at h
  split at h
  · exact absurd h (by simp)
  · split at h
    · cases h
      exact setPage_pages_length _ _ _
    · exact absurd h (by simp)

theorem delete_record_pages {f : RmFile} {rid : Rid} {f' : RmFile}
    (h : f.delete_record rid = .ok f') : f'.pages.length = f.pages.length := by
  unfold delete_record at h
  split at h
  · exact absurd h (by simp)
  · split at h
    · cases h
      split
      · rw [release_page_handle_pages, setPage_pages_length]
      · exact setPage_pages_length _ _ _
    · exact absurd h (by simp)

theorem unlink_from_pages {f : RmFile} {target : Int} :
    ∀ (fuel : Nat) (start : Int) {f2 : RmFile},
      f.unlink_from target fuel start = .ok f2 →
      f2.pages.length = f.pages.length := by
  intro fuel
  induction fuel with
  | zero =>
    intro start f2 h
    cases h
    rfl
  | succ fuel ih =>
    intro start f2 h
    unfold unlink_from at h
    split at h
    · cases h; rfl
    · split at h
      · exact absurd h (by simp)
      · split at h
        · cases h
          exact setPage_pages_length _ _ _
        · exact ih _ h

theorem insert_record_rid_pages {f : RmFile} {rid : Rid} {buf : List Nat}
    {f' : RmFile} (h : f.insert_record_rid rid buf = .ok f') :
    f'.pages.length = f.pages.length := by
  unfold insert_record_rid at h
  split at h
  · exact absurd h (by simp)
  · split at h
    · exact absurd h (by simp)
    · dsimp only at h
      split at h
      · split at h
        · exact absurd h (by simp)
        · rename_i f2 hstep
          have hp2 : f2.pages.length = f.pages.length := by
            split at hstep
            · cases hstep
              exact setPage_pages_length _ _ _
            · rw [unlink_from_pages _ _ hstep, setPage_pages_length]
          split at h
          · cases h
            exact hp2
          · cases h
            rw [setPage_pages_length]
            exact hp2
      · cases h
        exact setPage_pages_length _ _ _

theorem create_page_handle_pages_le {f f1 : RmFile} {pno : Int}
    (h : f.create_page_handle = .ok (f1, pno)) :
    f.pages.length ≤ f1.pages.length := by
  unfold create_page_handle at h
  split at h
  · dsimp only at h
    split at h
    · exact absurd h (by simp)
    · have h2 : f.create_new_page_handle = (f1, pno) := Except.ok.inj h
      have h3 : f1 = (f.create_new_page_handle).1 := by rw [h2]
      rw [h3]
      show f.pages.length ≤ (f.pages ++ [_]).length
      rw [List.length_append]
      omega
  · split at h
    · exact absurd h (by simp)
    · have h2 : (f, f.file_hdr.first_free_page_no) = (f1, pno) := Except.ok.inj h
      have h3 : f1 = f := (congrArg Prod.fst h2).symm
      rw [h3]

theorem insert_record_pages_le {f : RmFile} {buf : List Nat} {f' : RmFile}
    {rid : Rid} (h : f.insert_record buf = .ok (f', rid)) :
    f.pages.length ≤ f'.pages.length := by
  unfold insert_record at h
  split at h
  · exact absurd h (by simp)
  · rename_i f1 pno heq
    have hle1 := create_page_handle_pages_le heq
    split at h
    · exact absurd h (by simp)
    · dsimp only at h
      split at h
      · exact absurd h (by simp)
      · split at h
        · cases h
          simp only [setPage_pages_length]
          exact hle1
        · cases h
          simp only [setPage_pages_length]
          exact hle1

theorem update_record_ok {f : RmFile} {r : Rid} (buf : List Nat) {pg : PageData}
    (hv : f.ValidPage r.page_no) (hget : f.getPage r.page_no = some pg)
    (hbit : Bitmap.is_set pg.bitmap r.slot_no = true) :
    ∃ f2, f.update_record r buf = .ok f2 := by
  unfold update_record
  rw [fetch_eq_ok.mpr ⟨hv, hget⟩]
  dsimp only
  rw [if_pos hbit]
  exact ⟨_, rfl⟩

theorem delete_record_ok {f : RmFile} {r : Rid} {pg : PageData}
    (hv : f.ValidPage r.page_no) (hget : f.getPage r.page_no = some pg)
    (hbit : Bitmap.is_set pg.bitmap r.slot_no = true) :
    ∃ f2, f.delete_record r = .ok f2 := by
  unfold delete_record
  rw [fetch_eq_ok.mpr ⟨hv, hget⟩]
  dsimp only
  rw [if_pos hbit]
  exact ⟨_, rfl⟩

end RmFile

namespace Bitmap

theorem popcount_lt_of_clear {bm : List Bool} {i : Int} (h0 : 0 ≤ i)
    (hl : i.toNat < bm.length) (hb : is_set bm i = false) :
    popcount bm < bm.length := by
  by_contra hge
  have heq : popcount bm = bm.length := le_antisymm (popcount_le bm) (not_lt.mp hge)
  unfold popcount at heq
  have hall := List.count_eq_length.mp heq
  have hgel : bm[i.toNat] = true := (hall _ (List.getElem_mem hl)).symm
  unfold is_set at hb
  rw [if_neg (by omega), List.getD_eq_getElem?_getD,
    List.getElem?_eq_getElem hl] at hb
  rw [hgel] at hb
  exact absurd hb (by simp)

end Bitmap

namespace RmFile

theorem unlink_from_ok {f : RmFile} {target : Int}
    (hnp : f.file_hdr.num_pages = f.pages.length + 1) :
    ∀ (l : List Int) (fuel : Nat) (start : Int),
      IsChain f start l → l.length < fuel →
      ∃ f2, f.unlink_from target fuel start = .ok f2 := by
  intro l
  induction l with
  | nil =>
    intro fuel start hch hlen
    obtain ⟨fuel1, rfl⟩ : ∃ fuel1, fuel = fuel1 + 1 := by
      cases fuel with
      | zero => exact absurd hlen (by simp)
      | succ fuel1 => exact ⟨fuel1, rfl⟩
    have hstart : start = RM_NO_PAGE := hch
    unfold unlink_from
    rw [if_pos hstart]
    exact ⟨f, rfl⟩
  | cons q rest ih =>
    intro fuel start hch hlen
    obtain ⟨heq, hv, hrest⟩ := hch
    subst heq
    obtain ⟨fuel1, rfl⟩ : ∃ fuel1, fuel = fuel1 + 1 := by
      cases fuel with
      | zero => exact absurd hlen (by simp)
      | succ fuel1 => exact ⟨fuel1, rfl⟩
    obtain ⟨pgq, hgetq, hfetchq⟩ := fetch_of_valid hnp hv
    have hstart1 : (1 : Int) ≤ start := hv.1
    have hnpg : RM_NO_PAGE = (-1 : Int) := rfl
    unfold unlink_from
    rw [if_neg (by omega), hfetchq]
    dsimp only
    by_cases hqt : pgq.page_hdr.next_free_page_no = target
    · rw [if_pos hqt]
      exact ⟨_, rfl⟩
    · rw [if_neg hqt]
      have hnf : f.nextFree start = pgq.page_hdr.next_free_page_no := nextFree_eq hgetq
      exact ih fuel1 _ (hnf ▸ hrest)
        (by simp only [List.length_cons] at hlen; omega)

theorem unlink_after_setPage_ok {f : RmFile} {pno : Int} {pg : PageData}
    (pg1 : PageData) (hwf : f.WF) (hget : f.getPage pno = some pg)
    (hnx : pg1.page_hdr.next_free_page_no = pg.page_hdr.next_free_page_no) :
    ∃ f2, (f.setPage pno pg1).unlink_from pno
      ((f.setPage pno pg1).pages.length + 1)
      f.file_hdr.first_free_page_no = .ok f2 := by
  obtain ⟨l, hch, hnd, hmem⟩ := hwf.2.2.2
  have hnum : (f.setPage pno pg1).file_hdr.num_pages = f.file_hdr.num_pages := rfl
  have hnext : ∀ p ∈ l, (f.setPage pno pg1).nextFree p = f.nextFree p := by
    intro p hp
    rw [nextFree_setPage pg1 hget p]
    by_cases hpp : p = pno
    · rw [if_pos hpp, hnx, hpp, nextFree_eq hget]
    · rw [if_neg hpp]
  have hch1 : IsChain (f.setPage pno pg1) f.file_hdr.first_free_page_no l :=
    IsChain_congr hnum hnext hch
  have hnp1 : (f.setPage pno pg1).file_hdr.num_pages =
      (f.setPage pno pg1).pages.length + 1 := by
    rw [setPage_pages_length]
    exact hwf.2.1
  have hlen := chain_length_le hch hnd hwf.2.1
  exact unlink_from_ok hnp1 l ((f.setPage pno pg1).pages.length + 1)
    f.file_hdr.first_free_page_no hch1
    (by rw [setPage_pages_length]; omega)

theorem insert_record_rid_ok {f : RmFile} {r : Rid} (buf : List Nat) {pg : PageData}
    (hwf : f.WF) (hv : f.ValidPage r.page_no) (hget : f.getPage r.page_no = some pg)
    (hbit : Bitmap.is_set pg.bitmap r.slot_no = false) :
    ∃ f2, f.insert_record_rid r buf = .ok f2 := by
  unfold insert_record_rid
  rw [fetch_eq_ok.mpr ⟨hv, hget⟩]
  dsimp only
  rw [if_neg (show ¬ Bitmap.is_set pg.bitmap r.slot_no = true by simp [hbit])]
  dsimp only [setPage_file_hdr]
  by_cases hfull : pg.page_hdr.num_records + 1 = (f.file_hdr.num_records_per_page : Int)
  · rw [if_pos hfull]
    by_cases hhead : f.file_hdr.first_free_page_no = r.page_no
    · rw [if_pos hhead]
      dsimp only
      split
      · exact ⟨_, rfl⟩
      · exact ⟨_, rfl⟩
    · rw [if_neg hhead]
      obtain ⟨f2, hstep⟩ := @unlink_after_setPage_ok f r.page_no pg
        { writeSlot pg r.slot_no f.file_hdr.record_size buf with
            bitmap := Bitmap.set pg.bitmap r.slot_no,
            page_hdr := { pg.page_hdr with
              num_records := pg.page_hdr.num_records + 1 } }
        hwf hget rfl
      rw [hstep]
      dsimp only
      split
      · exact ⟨_, rfl⟩
      · exact ⟨_, rfl⟩
  · rw [if_neg hfull]
    exact ⟨_, rfl⟩

end RmFile

namespace Bitmap

theorem first_bit_hit {b : Bool} {bm : List Bool} {n : Nat}
    (h : first_bit b bm n < (n : Int)) :
    bm.getD (first_bit b bm n).toNat false = b := by
  unfold first_bit next_bit at h ⊢
  exact scan_from_hit h

end Bitmap

namespace RmFile

theorem insert_record_getLive_pre {f : RmFile} {buf : List Nat} {f1 : RmFile}
    {rid : Rid} (h : f.insert_record buf = .ok (f1, rid)) :
    f.getLive rid = none := by
  unfold insert_record at h
  split at h
  · exact absurd h (by simp)
  · rename_i fA pno heqc
    have hcg := create_page_handle_getLive heqc
    split at h
    · exact absurd h (by simp)
    · rename_i pg heqf
      dsimp only at h
      obtain ⟨hvA, hgetA⟩ := fetch_eq_ok.mp heqf
      split at h
      · exact absurd h (by simp)
      · rename_i hslot
        have hs0 : 0 ≤ Bitmap.first_bit false pg.bitmap
            fA.file_hdr.num_records_per_page := Bitmap.first_bit_nonneg _ _ _
        have hsn : Bitmap.first_bit false pg.bitmap fA.file_hdr.num_records_per_page <
            (fA.file_hdr.num_records_per_page : Int) := not_le.mp hslot
        have hhit : pg.bitmap.getD
            (Bitmap.first_bit false pg.bitmap fA.file_hdr.num_records_per_page).toNat
            false = false := Bitmap.first_bit_hit hsn
        generalize hS : Bitmap.first_bit false pg.bitmap
            fA.file_hdr.num_records_per_page = S at h hs0 hsn hhit
        have hclear : Bitmap.is_set pg.bitmap S = false := by
          unfold Bitmap.is_set
          rw [if_neg (show ¬ S < 0 by omega)]
          exact hhit
        have hlive : fA.getLive ⟨pno, S⟩ = none := by
          unfold getLive
          dsimp only
          rw [hgetA]
          dsimp only
          rw [if_neg (show ¬ Bitmap.is_set pg.bitmap S = true by simp [hclear])]
        have hridS : rid = ⟨pno, S⟩ := by
          split at h
          · have hpair := Except.ok.inj h
            have hrid := congrArg Prod.snd hpair
            dsimp only at hrid
            exact hrid.symm
          · have hpair := Except.ok.inj h
            have hrid := congrArg Prod.snd hpair
            dsimp only at hrid
            exact hrid.symm
        rw [hridS, ← hcg ⟨pno, S⟩]
        exact hlive

end RmFile

theorem unlock_write_set (tbl : LockTable) (txn : Transaction) (id : LockDataId) :
    (LockManager.unlock tbl txn id).2.2.write_set = txn.write_set := by
  unfold LockManager.unlock
  split
  · rfl
  · split
    · rfl
    · dsimp only
      split
      · rfl
      · rfl

theorem release_all_write_set :
    ∀ (ids : List LockDataId) (tbl : LockTable) (txn : Transaction),
      (TransactionManager.release_all tbl txn ids).2.write_set = txn.write_set := by
  intro ids
  induction ids with
  | nil => intro tbl txn; rfl
  | cons id ids ih =>
    intro tbl txn
    unfold TransactionManager.release_all
    dsimp only
    rw [ih]
    exact unlock_write_set tbl txn id

theorem CatSim_refl {c : Catalog} (hwf : CatWF c) : CatSim c c := by
  intro t
  constructor
  · intro h; exact h
  · intro f hf
    exact ⟨f, hf, hwf t f hf, rfl, rfl, le_refl _, fun r => rfl⟩

theorem TxnStep_CatWF {c1 c2 : Catalog} {ws1 ws2 : List WriteRecord}
    (hstep : TxnStep (c1, ws1) (c2, ws2)) (hwf : CatWF c1) : CatWF c2 := by
  cases hstep with
  | ins cat ws t f f1 rid buf rcd hlook hbuf hins =>
    intro t' f' hl'
    by_cases ht : t' = t
    · subst ht
      rw [lookupC_updateC_self f1 hlook] at hl'
      cases Option.some.inj hl'
      exact RmFile.insert_record_WF (hwf t' f hlook) hbuf hins
    · rw [lookupC_updateC_ne f1 ht] at hl'
      exact hwf t' f' hl'
  | del cat ws t f f1 rid buf0 hlook hlive0 hdel =>
    intro t' f' hl'
    by_cases ht : t' = t
    · subst ht
      rw [lookupC_updateC_self f1 hlook] at hl'
      cases Option.some.inj hl'
      exact RmFile.delete_record_WF (hwf t' f hlook) hdel
    · rw [lookupC_updateC_ne f1 ht] at hl'
      exact hwf t' f' hl'
  | upd cat ws t f f1 rid buf buf0 hlook hbuf hlive0 hupd =>
    intro t' f' hl'
    by_cases ht : t' = t
    · subst ht
      rw [lookupC_updateC_self f1 hlook] at hl'
      cases Option.some.inj hl'
      exact RmFile.update_record_WF (hwf t' f hlook) hbuf hupd
    · rw [lookupC_updateC_ne f1 ht] at hl'
      exact hwf t' f' hl'

theorem TxnTrace_CatWF {s1 s2 : Catalog × List WriteRecord}
    (htr : TxnTrace s1 s2) : CatWF s1.1 → CatWF s2.1 := by
  induction htr with
  | refl => exact fun h => h
  | step sb sc htr1 hstep ih =>
    intro hwf
    exact TxnStep_CatWF hstep (ih hwf)

open RmFile in
theorem TxnStep_undo {c1 c2 : Catalog} {ws1 ws2 : List WriteRecord}
    (hstep : TxnStep (c1, ws1) (c2, ws2)) (hwf : CatWF c1) :
    ∃ w, ws2 = ws1 ++ [w] ∧
      ∀ d, CatSim c2 d →
        ∃ d', TransactionManager.undo_write d w = .ok d' ∧ CatSim c1 d' := by
  cases hstep with
  | ins cat ws t f f1 rid buf rcd hlook hbuf hins =>
    refine ⟨⟨t, rid, WriteType.INSERT_TUPLE, rcd⟩, rfl, ?_⟩
    intro d hsim
    have hfwf : f.WF := hwf t f hlook
    obtain ⟨hlive1, hother1⟩ := insert_record_getLive hfwf hins
    have hpre := insert_record_getLive_pre hins
    obtain ⟨g, hlookg, hgwf, hfs⟩ := (hsim t).2 f1 (lookupC_updateC_self f1 hlook)
    have hglive : g.getLive rid = some (buf.take f.file_hdr.record_size) := by
      rw [hfs.2.2.2 rid, hlive1]
    obtain ⟨pgg, hgetg, hvg, hbitg, -, -, -⟩ := getLive_some_spec hgwf hglive
    obtain ⟨g1, hdel⟩ := delete_record_ok hvg hgetg hbitg
    have hg1wf : g1.WF := delete_record_WF hgwf hdel
    obtain ⟨hdnone, hdother⟩ := delete_record_getLive hdel
    refine ⟨updateC d t g1, ?_, ?_⟩
    · unfold TransactionManager.undo_write
      dsimp only
      rw [hlookg]
      dsimp only
      rw [hdel]
    · intro t'
      by_cases ht : t' = t
      · subst ht
        constructor
        · intro hnone
          rw [hlook] at hnone
          exact absurd hnone (by simp)
        · intro f0 hlook0
          rw [hlook] at hlook0
          cases Option.some.inj hlook0
          refine ⟨g1, lookupC_updateC_self g1 hlookg, hg1wf, ?_, ?_, ?_, ?_⟩
          · rw [(delete_record_geom hdel).1, hfs.1, (insert_record_geom hins).1]
          · rw [(delete_record_geom hdel).2, hfs.2.1, (insert_record_geom hins).2]
          · have h1 := insert_record_pages_le hins
            have h2 := hfs.2.2.1
            have h3 := delete_record_pages hdel
            omega
          · intro r
            by_cases hr : r = rid
            · subst hr
              rw [hdnone, hpre]
            · rw [hdother r hr, hfs.2.2.2 r, hother1 r hr]
      · have hl1 : lookupC (updateC c1 t f1) t' = lookupC c1 t' :=
          lookupC_updateC_ne f1 ht
        have hl2 : lookupC (updateC d t g1) t' = lookupC d t' :=
          lookupC_updateC_ne g1 ht
        constructor
        · intro hnone
          rw [hl2]
          exact (hsim t').1 (by rw [hl1]; exact hnone)
        · intro f0 hlook0
          obtain ⟨g0, hg0, hg0wf, hg0sim⟩ := (hsim t').2 f0 (by rw [hl1]; exact hlook0)
          exact ⟨g0, by rw [hl2]; exact hg0, hg0wf, hg0sim⟩
  | del cat ws t f f1 rid buf0 hlook hlive0 hdel0 =>
    refine ⟨⟨t, rid, WriteType.DELETE_TUPLE, buf0⟩, rfl, ?_⟩
    intro d hsim
    have hfwf : f.WF := hwf t f hlook
    obtain ⟨hd1, hd2⟩ := delete_record_getLive hdel0
    obtain ⟨pgf, hgetf, hvf, -, hr0, hrn, hblen⟩ := getLive_some_spec hfwf hlive0
    obtain ⟨g, hlookg, hgwf, hfs⟩ := (hsim t).2 f1 (lookupC_updateC_self f1 hlook)
    have hgnone : g.getLive rid = none := by
      rw [hfs.2.2.2 rid, hd1]
    have hvg : g.ValidPage rid.page_no := by
      refine ⟨hvf.1, ?_⟩
      have h1 := hvf.2
      have h2 := hfwf.2.1
      have h3 := hgwf.2.1
      have h4 := hfs.2.2.1
      have h5 := delete_record_pages hdel0
      omega
    obtain ⟨pgg, hgetg⟩ := getPage_of_valid hgwf.2.1 hvg
    have hbitc : Bitmap.is_set pgg.bitmap rid.slot_no = false :=
      getLive_none_bit hgnone hgetg
    obtain ⟨g1, hins1⟩ := insert_record_rid_ok buf0 hgwf hvg hgetg hbitc
    have hgn : g.file_hdr.num_records_per_page = f.file_hdr.num_records_per_page := by
      rw [hfs.2.1, (delete_record_geom hdel0).2]
    have hgrs : g.file_hdr.record_size = f.file_hdr.record_size := by
      rw [hfs.1, (delete_record_geom hdel0).1]
    have hrng : rid.slot_no < (g.file_hdr.num_records_per_page : Int) := by
      rw [hgn]; exact hrn
    have hblg : buf0.length = g.file_hdr.record_size := by
      rw [hgrs]; exact hblen
    have hg1wf : g1.WF := insert_record_rid_WF hgwf hblg hr0 hrng hins1
    obtain ⟨hi1, hi2⟩ := insert_record_rid_getLive hgwf hr0 hrng hins1
    have htake : buf0.take g.file_hdr.record_size = buf0 := by
      rw [← hblg]
      exact List.take_length buf0
    refine ⟨updateC d t g1, ?_, ?_⟩
    · unfold TransactionManager.undo_write
      dsimp only
      rw [hlookg]
      dsimp only
      rw [hins1]
    · intro t'
      by_cases ht : t' = t
      · subst ht
        constructor
        · intro hnone
          rw [hlook] at hnone
          exact absurd hnone (by simp)
        · intro f0 hlook0
          rw [hlook] at hlook0
          cases Option.some.inj hlook0
          refine ⟨g1, lookupC_updateC_self g1 hlookg, hg1wf, ?_, ?_, ?_, ?_⟩
          · rw [(insert_record_rid_geom hins1).1, hgrs]
          · rw [(insert_record_rid_geom hins1).2, hgn]
          · have h1 := insert_record_rid_pages hins1
            have h2 := hfs.2.2.1
            have h3 := delete_record_pages hdel0
            omega
          · intro r
            by_cases hr : r = rid
            · subst hr
              rw [hi1, htake, hlive0]
            · rw [hi2 r hr, hfs.2.2.2 r, hd2 r hr]
      · have hl1 : lookupC (updateC c1 t f1) t' = lookupC c1 t' :=
          lookupC_updateC_ne f1 ht
        have hl2 : lookupC (updateC d t g1) t' = lookupC d t' :=
          lookupC_updateC_ne g1 ht
        constructor
        · intro hnone
          rw [hl2]
          exact (hsim t').1 (by rw [hl1]; exact hnone)
        · intro f0 hlook0
          obtain ⟨g0, hg0, hg0wf, hg0sim⟩ := (hsim t').2 f0 (by rw [hl1]; exact hlook0)
          exact ⟨g0, by rw [hl2]; exact hg0, hg0wf, hg0sim⟩
  | upd cat ws t f f1 rid buf buf0 hlook hbuf hlive0 hupd =>
    refine ⟨⟨t, rid, WriteType.UPDATE_TUPLE, buf0⟩, rfl, ?_⟩
    intro d hsim
    have hfwf : f.WF := hwf t f hlook
    obtain ⟨hu1, hu2⟩ := update_record_getLive hfwf hupd
    obtain ⟨pgf, hgetf, hvf, -, -, -, hblen⟩ := getLive_some_spec hfwf hlive0
    obtain ⟨g, hlookg, hgwf, hfs⟩ := (hsim t).2 f1 (lookupC_updateC_self f1 hlook)
    have hgsome : g.getLive rid = some (buf.take f.file_hdr.record_size) := by
      rw [hfs.2.2.2 rid, hu1]
    obtain ⟨pgg, hgetg, hvg, hbitg, -, -, -⟩ := getLive_some_spec hgwf hgsome
    obtain ⟨g1, hupd1⟩ := update_record_ok buf0 hvg hgetg hbitg
    have hgrs : g.file_hdr.record_size = f.file_hdr.record_size := by
      rw [hfs.1, (update_record_geom hupd).1]
    have hgn : g.file_hdr.num_records_per_page = f.file_hdr.num_records_per_page := by
      rw [hfs.2.1, (update_record_geom hupd).2]
    have hblg : buf0.length = g.file_hdr.record_size := by
      rw [hgrs]; exact hblen
    have hg1wf : g1.WF := update_record_WF hgwf hblg hupd1
    obtain ⟨hv1, hv2⟩ := update_record_getLive hgwf hupd1
    have htake : buf0.take g.file_hdr.record_size = buf0 := by
      rw [← hblg]
      exact List.take_length buf0
    refine ⟨updateC d t g1, ?_, ?_⟩
    · unfold TransactionManager.undo_write
      dsimp only
      rw [hlookg]
      dsimp only
      rw [hupd1]
    · intro t'
      by_cases ht : t' = t
      · subst ht
        constructor
        · intro hnone
          rw [hlook] at hnone
          exact absurd hnone (by simp)
        · intro f0 hlook0
          rw [hlook] at hlook0
          cases Option.some.inj hlook0
          refine ⟨g1, lookupC_updateC_self g1 hlookg, hg1wf, ?_, ?_, ?_, ?_⟩
          · rw [(update_record_geom hupd1).1, hgrs]
          · rw [(update_record_geom hupd1).2, hgn]
          · have h1 := update_record_pages hupd
            have h2 := hfs.2.2.1
            have h3 := update_record_pages hupd1
            omega
          · intro r
            by_cases hr : r = rid
            · subst hr
              rw [hv1, htake, hlive0]
            · rw [hv2 r hr, hfs.2.2.2 r, hu2 r hr]
      · have hl1 : lookupC (updateC c1 t f1) t' = lookupC c1 t' :=
          lookupC_updateC_ne f1 ht
        have hl2 : lookupC (updateC d t g1) t' = lookupC d t' :=
          lookupC_updateC_ne g1 ht
        constructor
        · intro hnone
          rw [hl2]
          exact (hsim t').1 (by rw [hl1]; exact hnone)
        · intro f0 hlook0
          obtain ⟨g0, hg0, hg0wf, hg0sim⟩ := (hsim t').2 f0 (by rw [hl1]; exact hlook0)
          exact ⟨g0, by rw [hl2]; exact hg0, hg0wf, hg0sim⟩

theorem TxnTrace_undo {s1 s2 : Catalog × List WriteRecord}
    (htr : TxnTrace s1 s2) :
    CatWF s1.1 →
    ∃ δ : List WriteRecord, s2.2 = s1.2 ++ δ ∧
      ∀ d, CatSim s2.1 d →
        ∃ d', TransactionManager.undo_rev d δ.reverse = .ok d' ∧ CatSim s1.1 d' := by
  induction htr with
  | refl =>
    intro hwf
    exact ⟨[], by simp, fun d hd => ⟨d, rfl, hd⟩⟩
  | step sb sc htr1 hstep ih =>
    intro hwf
    obtain ⟨δ, hδ, hund⟩ := ih hwf
    have hwfb : CatWF sb.1 := TxnTrace_CatWF htr1 hwf
    obtain ⟨w, hw, hundw⟩ := TxnStep_undo hstep hwfb
    refine ⟨δ ++ [w], ?_, ?_⟩
    · rw [hw, hδ, List.append_assoc]
    · intro d hd
      obtain ⟨d1, hd1, hsim1⟩ := hundw d hd
      obtain ⟨d2, hd2, hsim2⟩ := hund d1 hsim1
      refine ⟨d2, ?_, hsim2⟩
      have hr : (δ ++ [w]).reverse = w :: δ.reverse := by simp
      rw [hr]
      unfold TransactionManager.undo_rev
      rw [hd1]
      exact hd2

theorem catWF_fC3 : CatWF [("t", fC3)] := by
  intro t f hl
  unfold lookupC at hl
  by_cases ht : ("t" : String) = t
  · rw [List.find?_cons_of_pos _ (by simpa using ht)] at hl
    simp only [Option.map_some'] at hl
    cases Option.some.inj hl
    exact RmFile.WF_of_wfB (by decide)
  · rw [List.find?_cons_of_neg _ (by simpa using ht)] at hl
    simp only [List.find?_nil, Option.map_none'] at hl
    exact absurd hl (by simp)

/-- **C3** (amended: observational, not bit-for-bit, restoration).  For a
transaction whose write set records its own forward history over the catalog
(`TxnTrace`: INSERT records the returned rid, DELETE and UPDATE record the
previously stored bytes) with no other transaction touching the catalog,
`abort` undoes the write set in reverse order — `delete_record` for an INSERT
record, the explicit-Rid `insert_record` with the payload for a DELETE record,
`update_record` with the payload for an UPDATE record, skipping records whose
table is absent — and the undo succeeds and restores the catalog
observationally (`CatSim`): absent tables stay absent, and every table handle
regains its geometry and exactly the live bytes it held before the first
write at every rid.  Dead-slot bytes and pages allocated during the
transaction may differ, so the restoration is not bit-for-bit
(`C3_counterexample`).  `abort` further returns the transaction with state
`ABORTED`, empty write and lock sets, and erases its id from `txn_map`. -/
theorem C3_abort_undoes_writes {cat0 cat1 : Catalog} {ws : List WriteRecord}
    {s : TMState} {txn : Transaction}
    (hwf0 : CatWF cat0)
    (htr : TxnTrace (cat0, []) (cat1, ws))
    (hcat : s.catalog = cat1)
    (hws : txn.write_set = ws) :
    ∃ s2 txn2, TransactionManager.abort s txn = .ok (s2, txn2) ∧
      txn2.state = TransactionState.ABORTED ∧
      txn2.write_set = [] ∧
      txn2.lock_set = [] ∧
      s2.txn_map = s.txn_map.erase txn.txn_id ∧
      CatSim cat0 s2.catalog := by
  obtain ⟨δ, hδ, hund⟩ := TxnTrace_undo htr hwf0
  have hδ2 : δ = ws := by simpa using hδ.symm
  subst hδ2
  have hwf1 : CatWF cat1 := TxnTrace_CatWF htr hwf0
  have hsim0 : CatSim cat1 s.catalog := by
    rw [hcat]
    exact CatSim_refl hwf1
  obtain ⟨d', hrev, hsimfin⟩ := hund s.catalog hsim0
  refine ⟨⟨d', (TransactionManager.release_all s.lock_table
        { txn with write_set := [] } txn.lock_set).1,
        s.txn_map.erase txn.txn_id⟩,
      { (TransactionManager.release_all s.lock_table
          { txn with write_set := [] } txn.lock_set).2 with
          lock_set := [], state := TransactionState.ABORTED },
      ?_, rfl, ?_, rfl, rfl, ?_⟩
  · unfold TransactionManager.abort
    rw [hws, hrev]
  · exact release_all_write_set txn.lock_set s.lock_table { txn with write_set := [] }
  · exact hsimfin

/-- Closed instance of `C3_abort_undoes_writes`: the single-table catalog
holding `fC3`, one forward INSERT step producing `fC3ins` and the write
record of `txnC3`, aborted in state `sC3`. -/
theorem C3_abort_undoes_writes_witness :
    CatWF [("t", fC3)] ∧
    TxnTrace ([("t", fC3)], [])
      (updateC [("t", fC3)] "t" fC3ins,
       [⟨"t", ⟨1, 0⟩, WriteType.INSERT_TUPLE, []⟩]) ∧
    sC3.catalog = updateC [("t", fC3)] "t" fC3ins ∧
    txnC3.write_set = [⟨"t", ⟨1, 0⟩, WriteType.INSERT_TUPLE, []⟩] ∧
    (∃ s2 txn2, TransactionManager.abort sC3 txnC3 = .ok (s2, txn2) ∧
      txn2.state = TransactionState.ABORTED ∧
      txn2.write_set = [] ∧
      txn2.lock_set = [] ∧
      s2.txn_map = sC3.txn_map.erase txnC3.txn_id ∧
      CatSim [("t", fC3)] s2.catalog) :=
  ⟨catWF_fC3,
   TxnTrace.step _ _ _ (TxnTrace.refl _)
     (TxnStep.ins [("t", fC3)] [] "t" fC3 fC3ins ⟨1, 0⟩ [5] []
       (by decide) (by decide) (by decide)),
   by decide, by decide,
   @C3_abort_undoes_writes [("t", fC3)] (updateC [("t", fC3)] "t" fC3ins)
     [⟨"t", ⟨1, 0⟩, WriteType.INSERT_TUPLE, []⟩] sC3 txnC3
     catWF_fC3
     (TxnTrace.step _ _ _ (TxnTrace.refl _)
       (TxnStep.ins [("t", fC3)] [] "t" fC3 fC3ins ⟨1, 0⟩ [5] []
         (by decide) (by decide) (by decide)))
     (by decide) (by decide)⟩
